import Mathlib

/-!
Shallow embedding of the `regex-dfa` repository (src/char_map.rs and
src/nfa.rs) in Lean 4, together with theorems settling the specification
claims about it.

Machine integers: Rust `u32` values are modelled as `Nat` together with an
explicit bound `≤ u32Max` where it matters; arithmetic that can wrap in Rust
is written with an explicit `% 2^32`.

Fallibility: Rust panics (`panic!`, out-of-bounds `Vec::remove`) are modelled
as `Except String` errors.  Loops are modelled either structurally or with an
explicit fuel argument (the fuel is always instantiated so that, on the
inputs where the Rust code does not panic, the fuel cannot run out; the
sufficiency is part of the proofs).
-/

/-- `u32::MAX` = 2^32 - 1. -/
def u32Max : Nat := 4294967295

/-- `u32::saturating_add(1)`: add one, saturating at `u32Max`.
(src/char_map.rs, `negated`: `range.end.saturating_add(1u32)`). -/
def satAdd1 (n : Nat) : Nat := min (n + 1) u32Max

/-- A range of code points, including the endpoints (src/char_map.rs,
`CharRange`).  `start > end` represents an empty range.  Field names: `start`
is kept; Rust's `end` is a keyword-free field here called `stop`. -/
structure CharRange where
  start : Nat
  stop : Nat
deriving DecidableEq, Repr

namespace CharRange

/-- `CharRange::new` (src/char_map.rs). -/
def new (s e : Nat) : CharRange := ⟨s, e⟩

/-- `CharRange::full` (src/char_map.rs): all of `0..=u32::MAX`. -/
def full : CharRange := ⟨0, u32Max⟩

/-- `CharRange::single` (src/char_map.rs). -/
def single (ch : Nat) : CharRange := ⟨ch, ch⟩

/-- `CharRange::contains` (src/char_map.rs). -/
def containsChar (r : CharRange) (ch : Nat) : Bool :=
  decide (r.start ≤ ch ∧ ch ≤ r.stop)

/-- `CharRange::intersection` (src/char_map.rs). -/
def intersection (r s : CharRange) : CharRange :=
  ⟨max r.start s.start, min r.stop s.stop⟩

/-- `CharRange::is_empty` (src/char_map.rs). -/
def isEmptyRange (r : CharRange) : Bool := decide (r.start > r.stop)

/-- `CharRange::cover` (src/char_map.rs): smallest range covering both. -/
def cover (r s : CharRange) : CharRange :=
  if r.isEmptyRange then s
  else if s.isEmptyRange then r
  else ⟨min r.start s.start, max r.stop s.stop⟩

/-- The ternary comparison of a range against a point
(src/char_map.rs, `impl PartialOrd<u32> for CharRange`). -/
def cmpChar (r : CharRange) (ch : Nat) : Ordering :=
  if r.stop < ch then .lt
  else if r.start > ch then .gt
  else .eq

end CharRange

/-- Validity of a list of `(range, value)` entries as kept by a sorted
`CharMap`/`CharSet`: ranges are non-empty, pairwise non-overlapping and in
ascending order (each range ends strictly before the next begins). -/
def rangesValid {T : Type} (l : List (CharRange × T)) : Prop :=
  (∀ e ∈ l, e.1.start ≤ e.1.stop) ∧
  List.Pairwise (fun (a b : CharRange × T) => a.1.stop < b.1.start) l

/-- All range endpoints fit in `u32`. -/
def rangesBounded {T : Type} (l : List (CharRange × T)) : Prop :=
  ∀ e ∈ l, e.1.stop ≤ u32Max

instance {T : Type} (l : List (CharRange × T)) : Decidable (rangesValid l) := by
  unfold rangesValid; infer_instance

instance {T : Type} (l : List (CharRange × T)) : Decidable (rangesBounded l) := by
  unfold rangesBounded; infer_instance

/-- Pointwise semantics of an entry list: some entry's range contains `ch`. -/
def inRanges {T : Type} (l : List (CharRange × T)) (ch : Nat) : Prop :=
  ∃ e ∈ l, e.1.containsChar ch = true

instance {T : Type} (l : List (CharRange × T)) (ch : Nat) :
    Decidable (inRanges l ch) := by
  unfold inRanges; infer_instance

/-- The range stored at index `i` of an entry list (a junk empty range when
out of bounds; every use below is guarded by an in-bounds proof). -/
def rangeAt {T : Type} (l : List (CharRange × T)) (i : Nat) : CharRange :=
  ((l.get? i).map Prod.fst).getD ⟨1, 0⟩

/-- The core of `<[(CharRange, T)]>::binary_search_by` as used by
`CharMap::get` (src/char_map.rs): standard slice binary search with the
range-vs-point comparator, written with explicit fuel (the fuel is always
called with at least `right - left`, which the lemmas below show suffices). -/
def bsearchGo {T : Type} (l : List (CharRange × T)) (ch : Nat) :
    Nat → Nat → Nat → Option Nat
  | 0, _, _ => none
  | fuel + 1, left, right =>
    if left < right then
      let mid := (left + right) / 2
      match (rangeAt l mid).cmpChar ch with
      | .lt => bsearchGo l ch fuel (mid + 1) right
      | .gt => bsearchGo l ch fuel left mid
      | .eq => some mid
    else none

/-- A set of characters, optionally mapping each to data (src/char_map.rs,
`CharMap`). -/
structure CharMap (T : Type) where
  elts : List (CharRange × T)
deriving DecidableEq

namespace CharMap

/-- `CharMap::new` (src/char_map.rs). -/
def new (T : Type) : CharMap T := ⟨[]⟩

/-- `CharMap::from_vec` (src/char_map.rs): wraps a vector that is assumed to
contain non-overlapping ranges in ascending order (no sort, no check). -/
def fromVec {T : Type} (v : List (CharRange × T)) : CharMap T := ⟨v⟩

/-- `CharMap::len` (src/char_map.rs). -/
def lenM {T : Type} (m : CharMap T) : Nat := m.elts.length

/-- `CharMap::is_empty` (src/char_map.rs). -/
def isEmptyMap {T : Type} (m : CharMap T) : Bool := m.elts.isEmpty

/-- `CharMap::is_full` (src/char_map.rs). -/
def isFullMap {T : Type} (m : CharMap T) : Bool :=
  decide (m.elts.length = 1) &&
    match m.elts with
    | e :: _ => decide (e.1 = CharRange.new 0 u32Max)
    | [] => false

/-- `CharMap::push` (src/char_map.rs): appends; panics (modelled as an
`Except.error`) if the range is empty. -/
def push {T : Type} (m : CharMap T) (range : CharRange) (t : T) :
    Except String (CharMap T) :=
  if range.isEmptyRange then .error "ranges must be non-empty"
  else .ok ⟨m.elts ++ [(range, t)]⟩

/-- The sort-by-range-start underlying `CharMap::sort` (src/char_map.rs:
`self.elts.sort_by(|&(r1, _), &(r2, _)| r1.start.cmp(&r2.start))`).  Rust's
`sort_by` is a stable merge sort; it is modelled with a structurally
recursive insertion sort, which also sorts by range start and can only
order equal-start ranges differently — and two nonempty equal-start ranges
always overlap, so in every observable use the two agree (either the list
has distinct starts, or `sort`'s overlap check fires either way). -/
def leStart {T : Type} (a b : CharRange × T) : Prop := a.1.start ≤ b.1.start

instance {T : Type} : DecidableRel (@leStart T) := fun a b => by
  unfold leStart; infer_instance

instance {T : Type} : IsTotal (CharRange × T) leStart :=
  ⟨fun a b => Nat.le_total a.1.start b.1.start⟩

instance {T : Type} : IsTrans (CharRange × T) leStart :=
  ⟨fun _ _ _ h1 h2 => Nat.le_trans h1 h2⟩

def sortRanges {T : Type} (l : List (CharRange × T)) : List (CharRange × T) :=
  List.insertionSort leStart l

/-- The `windows(2)` overlap scan of `CharMap::sort` (src/char_map.rs):
true iff some adjacent pair satisfies `win[0].0.end >= win[1].0.start`. -/
def windowsViolation {T : Type} : List (CharRange × T) → Bool
  | a :: b :: rest => decide (a.1.stop ≥ b.1.start) || windowsViolation (b :: rest)
  | _ => false

/-- `CharMap::sort` (src/char_map.rs): sort by range start, then panic
(modelled as an `Except.error`) if any adjacent sorted ranges overlap. -/
def sort {T : Type} (m : CharMap T) : Except String (CharMap T) :=
  let s := sortRanges m.elts
  if windowsViolation s then .error "overlapping ranges" else .ok ⟨s⟩

/-- `CharMap::get` (src/char_map.rs): binary search for a range containing
`ch`; returns the mapped value if found. -/
def get {T : Type} (m : CharMap T) (ch : Nat) : Option T :=
  match bsearchGo m.elts ch (m.elts.length + 1) 0 m.elts.length with
  | some i => (m.elts.get? i).map Prod.snd
  | none => none

end CharMap

/-- The merging loop of `CharMap::normalize` (src/char_map.rs): `cur` is the
last element of the output vector built so far; an incoming entry extends it
when adjacent with equal value, else is pushed. -/
def normLoop {T : Type} [DecidableEq T] : (CharRange × T) → List (CharRange × T) → List (CharRange × T)
  | cur, [] => [cur]
  | cur, e :: rest =>
    if e.1.start = cur.1.stop + 1 ∧ e.2 = cur.2
    then normLoop (⟨cur.1.start, e.1.stop⟩, cur.2) rest
    else cur :: normLoop e rest

/-- `CharMap::normalize` (src/char_map.rs): merge adjacent ranges mapping to
the same data. -/
def CharMap.normalize {T : Type} [DecidableEq T] (m : CharMap T) : CharMap T :=
  match m.elts with
  | [] => ⟨[]⟩
  | h :: t => ⟨normLoop h t⟩

/-- The inner `while` of `CharMap::intersect` (src/char_map.rs): one map
entry `(r, data)` against the remaining set slice; returns the emitted
intersections and the slice left for the next map entry (the slice is not
advanced past a set range that ends at or after `r`'s end). -/
def interInner {T : Type} (r : CharRange) (data : T) :
    List (CharRange × Unit) → List (CharRange × T) × List (CharRange × Unit)
  | [] => ([], [])
  | (s, u) :: tail =>
    let emitted :=
      if s.stop ≥ r.start ∧ s.start ≤ r.stop
      then [(CharRange.new (max s.start r.start) (min s.stop r.stop), data)]
      else []
    if s.stop ≥ r.stop then (emitted, (s, u) :: tail)
    else
      let (e2, rest) := interInner r data tail
      (emitted ++ e2, rest)

/-- The outer `for` of `CharMap::intersect` (src/char_map.rs). -/
def interGo {T : Type} : List (CharRange × T) → List (CharRange × Unit) → List (CharRange × T)
  | [], _ => []
  | (r, d) :: rs, other =>
    let (e, rest) := interInner r d other
    e ++ interGo rs rest

/-- A set of characters: a `CharMap` with unit payload (src/char_map.rs,
`CharSet`). -/
structure CharSet where
  map : CharMap Unit
deriving DecidableEq

/-- `CharMap::intersect` (src/char_map.rs): merge-style two-pointer scan
emitting the intersection of each map entry with each overlapping set range. -/
def CharMap.intersect {T : Type} (m : CharMap T) (other : CharSet) : CharMap T :=
  ⟨interGo m.elts other.map.elts⟩

namespace CharSet

/-- `CharSet::new` (src/char_map.rs). -/
def new : CharSet := ⟨CharMap.new Unit⟩

/-- `CharSet::sort` (src/char_map.rs). -/
def sort (s : CharSet) : Except String CharSet := (s.map.sort).map CharSet.mk

/-- `CharSet::is_empty` (src/char_map.rs). -/
def isEmptySet (s : CharSet) : Bool := s.map.isEmptyMap

/-- `CharSet::is_full` (src/char_map.rs). -/
def isFullSet (s : CharSet) : Bool := s.map.isFullMap

/-- `CharSet::from_vec` (src/char_map.rs): wrap and sort (the sort can
panic on overlapping ranges, hence the `Except`). -/
def fromVec (v : List (CharRange × Unit)) : Except String CharSet :=
  (CharMap.sort ⟨v⟩).map CharSet.mk

/-- `CharSet::full` (src/char_map.rs). -/
def full : Except String CharSet := fromVec [(CharRange.full, ())]

/-- `CharSet::single` (src/char_map.rs). -/
def single (ch : Nat) : Except String CharSet := fromVec [(CharRange.single ch, ())]

/-- `CharSet::contains` (src/char_map.rs): `self.map.get(ch).is_some()`. -/
def contains (s : CharSet) (ch : Nat) : Bool := (s.map.get ch).isSome

/-- `CharSet::intersect` (src/char_map.rs). -/
def intersect (s other : CharSet) : CharSet := ⟨s.map.intersect other⟩

/-- The start of the next unconsumed range of one side of `CharSet::union`
(src/char_map.rs): `u32::MAX` when the iterator is exhausted. -/
def headStart (l : List (CharRange × Unit)) : Nat :=
  match l with
  | [] => u32Max
  | (r, _) :: _ => r.start

/-- The next unconsumed range itself (junk when exhausted; the union loop
only uses it when the side is non-empty). -/
def headRange (l : List (CharRange × Unit)) : CharRange :=
  match l with
  | [] => ⟨1, 0⟩
  | (r, _) :: _ => r

/-- The merge loop of `CharSet::union` (src/char_map.rs): `cur` is the
running merged range (`CharRange::new(1, 0)` when none); when the next range
on both sides starts beyond `cur`'s end, `cur` is flushed; then the side
with the smaller start is consumed into `cur` via `cover`.  Fuel-structured;
one range is consumed per step, so fuel `|l1| + |l2| + 1` never runs out. -/
def unionLoop : Nat → List (CharRange × Unit) → List (CharRange × Unit) → CharRange →
    List (CharRange × Unit)
  | 0, _, _, _ => []
  | fuel + 1, l1, l2, cur =>
    if l1.isEmpty && l2.isEmpty then
      if cur.isEmptyRange then [] else [(cur, ())]
    else
      let s1 := headStart l1
      let s2 := headStart l2
      let fc :=
        if !cur.isEmptyRange && min s1 s2 > cur.stop
        then ([(cur, ())], (⟨1, 0⟩ : CharRange))
        else ([], cur)
      if s1 < s2 || l2.isEmpty then
        fc.1 ++ unionLoop fuel l1.tail l2 (fc.2.cover (headRange l1))
      else
        fc.1 ++ unionLoop fuel l1 l2.tail (fc.2.cover (headRange l2))

/-- `CharSet::union` (src/char_map.rs). -/
def union (a b : CharSet) : Except String CharSet :=
  if a.isEmptySet then .ok b
  else if b.isEmptySet then .ok a
  else fromVec
    (unionLoop (a.map.elts.length + b.map.elts.length + 1) a.map.elts b.map.elts ⟨1, 0⟩)

/-- The scan of `CharSet::negated` (src/char_map.rs): emit the gap before
each range (all such pushes are of non-empty ranges, so `CharSet::push`
cannot panic here), then the tail gap up to `u32::MAX` unless `last_end` has
already reached it. -/
def negLoop : List (CharRange × Unit) → Nat → List (CharRange × Unit)
  | [], lastEnd => if lastEnd < u32Max then [(⟨lastEnd, u32Max⟩, ())] else []
  | (r, _) :: rest, lastEnd =>
    (if r.start > lastEnd then [((⟨lastEnd, r.start - 1⟩ : CharRange), ())] else []) ++
      negLoop rest (satAdd1 r.stop)

/-- `CharSet::negated` (src/char_map.rs). -/
def negated (s : CharSet) : CharSet := ⟨⟨negLoop s.map.elts 0⟩⟩

/-- The `for c in chars` loop of `CharSet::except` (src/char_map.rs).  The
second argument is `next_allowed`, the third the running value of `n` (the
last examined code point); returns the pushed gap ranges and the final `n`.
Panics (`Except.error`) on unsorted input; breaks when `n` reaches
`u32::MAX`. -/
def exceptLoop : List Nat → Nat → Nat → Except String (List (CharRange × Unit) × Nat)
  | [], _, n => .ok ([], n)
  | c :: rest, na, _ =>
    if c < na then .error "input to CharSet::except must be sorted"
    else
      let gap := if c > na then [((⟨na, c - 1⟩ : CharRange), ())] else []
      if c < u32Max then
        match exceptLoop rest (c + 1) c with
        | .ok (l, n) => .ok (gap ++ l, n)
        | .error e => .error e
      else .ok (gap, c)

/-- `CharSet::except` (src/char_map.rs): all code points except the given
(sorted, duplicate-free) ones. -/
def except (chars : List Nat) : Except String CharSet :=
  if chars.isEmpty then full
  else
    match exceptLoop chars 0 0 with
    | .error e => .error e
    | .ok (ret, n) =>
      fromVec (ret ++ if n < u32Max then [((⟨n + 1, u32Max⟩ : CharRange), ())] else [])

end CharSet

/-- `u32` wrapping addition. -/
def u32add (a b : Nat) : Nat := (a + b) % 4294967296

/-- `u32` wrapping subtraction (callers keep `a`, `b` below `2^32`). -/
def u32sub (a b : Nat) : Nat := (a + 4294967296 - b % 4294967296) % 4294967296

/-- `CharSet::char_count` (src/char_map.rs):
`fold(0, |acc, range| acc + (range.0.end - range.0.start + 1))` in `u32`
arithmetic, i.e. modulo `2^32`. -/
def CharSet.charCount (s : CharSet) : Nat :=
  s.map.elts.foldl (fun acc e => u32add acc (u32add (u32sub e.1.stop e.1.start) 1)) 0

/-- A multi-valued mapping from chars to data: ranges may overlap and repeat
(src/char_map.rs, `CharMultiMap`). -/
structure CharMultiMap (T : Type) where
  elts : List (CharRange × T)
deriving DecidableEq

/-- `CharMultiMap::new` (src/char_map.rs). -/
def CharMultiMap.new (T : Type) : CharMultiMap T := ⟨[]⟩

/-- `CharMultiMap::from_vec` (src/char_map.rs). -/
def CharMultiMap.fromVec {T : Type} (v : List (CharRange × T)) : CharMultiMap T := ⟨v⟩

/-- The boundary points computed by `CharMultiMap::split` (src/char_map.rs):
each range contributes its start, and its end+1 unless at `u32::MAX`;
then `sort()` and `dedup()` (Rust's dedup removes consecutive duplicates,
which after sorting removes all duplicates). -/
def boundariesList {T : Type} (l : List (CharRange × T)) : List Nat :=
  (List.insertionSort (fun a b => a ≤ b)
      (l.flatMap (fun e => e.1.start :: (if e.1.stop < u32Max then [e.1.stop + 1] else [])))).dedup

/-- `<[u32]>::binary_search` as used by `CharMultiMap::split`
(src/char_map.rs): fuel-structured slice binary search on a sorted `Vec<u32>`;
`(true, i)` models `Ok(i)`, `(false, i)` models `Err(i)`. -/
def natBsearchGo (l : List Nat) (x : Nat) : Nat → Nat → Nat → Bool × Nat
  | 0, left, _ => (false, left)
  | fuel + 1, left, right =>
    if left < right then
      let mid := (left + right) / 2
      match compare (l.getD mid 0) x with
      | .lt => natBsearchGo l x fuel (mid + 1) right
      | .gt => natBsearchGo l x fuel left mid
      | .eq => (true, mid)
    else (false, left)

/-- The starting boundary index of one entry in `CharMultiMap::split`
(src/char_map.rs): `Ok(i) => i + 1, Err(i) => i`. -/
def splitIdx (B : List Nat) (x : Nat) : Nat :=
  match natBsearchGo B x (B.length + 1) 0 B.length with
  | (true, i) => i + 1
  | (false, i) => i

/-- The per-entry fragment walk of `CharMultiMap::split` (src/char_map.rs):
`last` is the current fragment start, the list is the not-yet-passed
boundary suffix, `rend` the entry's range end. -/
def fragGo : Nat → Nat → List Nat → List (Nat × Nat)
  | last, rend, [] => [(last, rend)]
  | last, rend, b :: bs =>
    if b > rend then [(last, rend)]
    else (last, b - 1) :: fragGo b rend bs

/-- The fragments `CharMultiMap::split` emits for one entry. -/
def fragsFor {T : Type} (B : List Nat) (e : CharRange × T) : List (CharRange × T) :=
  (fragGo e.1.start e.1.stop (B.drop (splitIdx B e.1.start))).map
    (fun p => ((⟨p.1, p.2⟩ : CharRange), e.2))

/-- `CharMultiMap::split` (src/char_map.rs): re-expresses every entry as
fragments aligned to the boundary set, so that any two output ranges are
identical or disjoint. -/
def CharMultiMap.split {T : Type} (m : CharMultiMap T) : CharMultiMap T :=
  ⟨m.elts.flatMap (fragsFor (boundariesList m.elts))⟩

/-- `CharMultiMap::group` (src/char_map.rs): split, then group the split
fragments by range into a `BitSet` of values per range, sorted by range
start. `BitSet`s are modelled throughout as strictly sorted lists of the
set bits, which is also the order a `BitSet` iterates in; the Rust code
groups through a `HashMap` and then sorts the collected pairs by range
start, so the result is the canonical list modelled here. -/
def CharMultiMap.group (m : CharMultiMap Nat) : CharMap (List Nat) :=
  let s := (m.split).elts
  let keys := (s.map (fun e => e.1)).dedup
  let sorted := List.insertionSort (fun a b => a.start ≤ b.start) keys
  ⟨sorted.map (fun r =>
    (r, (List.insertionSort (fun a b => a ≤ b)
          ((s.filter (fun e => decide (e.1 = r))).map (fun e => e.2))).dedup))⟩

/-- Proof-side notion for analysing `CharMultiMap::split`: a range is an
atomic fragment of the boundary set `B` if it starts at a boundary, is
non-empty and bounded, contains no boundary strictly inside `(start, stop]`,
and its right end abuts the next boundary (or the top of the code space).
Any two atomic fragments are identical or disjoint. -/
def atomicFrag (B : List Nat) (r : CharRange) : Prop :=
  r.start ∈ B ∧ r.start ≤ r.stop ∧ r.stop ≤ u32Max ∧
  (∀ b ∈ B, ¬ (r.start < b ∧ b ≤ r.stop)) ∧
  (r.stop + 1 ∈ B ∨ r.stop = u32Max)

/-- `BitSet::insert` under the sorted-list model of `BitSet`: ordered
insertion without duplication. -/
def bsInsert (x : Nat) : List Nat → List Nat
  | [] => [x]
  | y :: ys =>
    if x < y then x :: y :: ys
    else if x = y then y :: ys
    else y :: bsInsert x ys

/-- `BitSet::union_with` under the sorted-list model: insert every element
of the second set. -/
def bsUnion (a : List Nat) (b : List Nat) : List Nat :=
  b.foldl (fun acc x => bsInsert x acc) a

/-- Modelled from the spec: `transition::SymbRange` is a closed range of
`u32` symbols with the same two endpoint fields as `CharRange`; we identify
the two types. -/
abbrev SymbRange := CharRange

/-- `transition::NfaTransitions` (modelled from the spec: the transitions
of one NFA state are the consuming range transitions, the epsilon
transitions, and the predicate transitions; the predicate type `P` stays
abstract). -/
structure NfaTransitions (P : Type) where
  ranges : List (SymbRange × Nat)
  eps : List Nat
  predicates : List (P × Nat)
deriving DecidableEq

/-- `NfaTransitions::new` (modelled from the spec). -/
def NfaTransitions.new (P : Type) : NfaTransitions P := ⟨[], [], []⟩

/-- `NfaState` (src/nfa.rs). -/
structure NfaState (P : Type) where
  transitions : NfaTransitions P
  accepting : Bool
deriving DecidableEq

/-- `NfaState::new` (src/nfa.rs). -/
def NfaState.new (P : Type) (accepting : Bool) : NfaState P :=
  ⟨NfaTransitions.new P, accepting⟩

/-- `Nfa` (src/nfa.rs): a vector of states plus the `BitSet` of anchored
starting states (under the sorted-list model of `BitSet`). -/
structure Nfa (P : Type) where
  states : List (NfaState P)
  anchored_states : List Nat
deriving DecidableEq

/-- `Nfa::num_states` (src/nfa.rs). -/
def Nfa.numStates {P : Type} (n : Nfa P) : Nat := n.states.length

/-- `states[i].transitions.ranges.push(e)`: push a range transition onto
state `i`. An out-of-range `i` is an indexing panic in Rust; here it leaves
the vector unchanged, and the theorems below never exercise that case. -/
def pushRangeAt {P : Type} (sts : List (NfaState P)) (i : Nat) (e : SymbRange × Nat) :
    List (NfaState P) :=
  match sts.get? i with
  | none => sts
  | some st => sts.set i
      ⟨⟨st.transitions.ranges ++ [e], st.transitions.eps, st.transitions.predicates⟩,
       st.accepting⟩

/-- `states[i].transitions.eps.push(t)`; same out-of-range convention as
`pushRangeAt`. -/
def pushEpsAt {P : Type} (sts : List (NfaState P)) (i : Nat) (t : Nat) :
    List (NfaState P) :=
  match sts.get? i with
  | none => sts
  | some st => sts.set i
      ⟨⟨st.transitions.ranges, st.transitions.eps ++ [t], st.transitions.predicates⟩,
       st.accepting⟩

/-- `states[i].transitions.predicates.push(e)`; same out-of-range
convention as `pushRangeAt`. -/
def pushPredAt {P : Type} (sts : List (NfaState P)) (i : Nat) (e : P × Nat) :
    List (NfaState P) :=
  match sts.get? i with
  | none => sts
  | some st => sts.set i
      ⟨⟨st.transitions.ranges, st.transitions.eps, st.transitions.predicates ++ [e]⟩,
       st.accepting⟩

/-- `Nfa::add_transition` (src/nfa.rs). -/
def Nfa.addTransition {P : Type} (n : Nfa P) (src tgt : Nat) (r : SymbRange) : Nfa P :=
  ⟨pushRangeAt n.states src (r, tgt), n.anchored_states⟩

/-- `Nfa::add_eps` (src/nfa.rs). -/
def Nfa.addEps {P : Type} (n : Nfa P) (src tgt : Nat) : Nfa P :=
  ⟨pushEpsAt n.states src tgt, n.anchored_states⟩

/-- `Nfa::add_predicate` (src/nfa.rs). -/
def Nfa.addPredicate {P : Type} (n : Nfa P) (src tgt : Nat) (pred : P) : Nfa P :=
  ⟨pushPredAt n.states src (pred, tgt), n.anchored_states⟩

/-- One enumerated source state of `Nfa::reversed` (src/nfa.rs): re-attach
each range transition `(range, target)` at `target` pointing back at the
source index, likewise each epsilon transition; each predicate transition
`(pred, target)` is pushed at `states[target]` as `(pred, target)` — the
source writes the transition's original target, not the source index, as
the reversed edge's endpoint. -/
def revStep {P : Type} (acc : List (NfaState P)) (idxSt : Nat × NfaState P) :
    List (NfaState P) :=
  let acc1 := idxSt.2.transitions.ranges.foldl
    (fun a rt => pushRangeAt a rt.2 (rt.1, idxSt.1)) acc
  let acc2 := idxSt.2.transitions.eps.foldl
    (fun a t => pushEpsAt a t idxSt.1) acc1
  idxSt.2.transitions.predicates.foldl
    (fun a pt => pushPredAt a pt.2 (pt.1, pt.2)) acc2

/-- `Nfa::reversed` (src/nfa.rs): fresh states with the original accepting
flags (`Nfa::with_capacity` starts from an empty anchored set), then every
transition re-attached by `revStep`. -/
def Nfa.reversed {P : Type} (n : Nfa P) : Nfa P :=
  ⟨n.states.enum.foldl revStep (n.states.map (fun st => NfaState.new P st.accepting)),
   []⟩

/-- The inner double loop of `Nfa::eps_closure` (src/nfa.rs): collect the
epsilon successors of every state of `s` into a fresh set. A member at or
above the state count would be an indexing panic in Rust; here it
contributes nothing, and the theorems' well-formedness hypotheses exclude
it. -/
def epsStep {P : Type} (n : Nfa P) (s : List Nat) : List Nat :=
  s.foldl (fun acc i =>
    (((n.states.get? i).map (fun st => st.transitions.eps)).getD []).foldl
      (fun a t => bsInsert t a) acc) []

/-- The fixed-point loop of `Nfa::eps_closure` (src/nfa.rs): if the
successors of the newest states are all known, return; otherwise add the
genuinely new ones and continue. The Rust loop is unbounded but grows the
result set each iteration; the callers below pass fuel `numStates + 1`,
enough for any in-bounds automaton. -/
def epsClosureGo {P : Type} (n : Nfa P) : Nat → List Nat → List Nat → List Nat
  | 0, ret, _ => ret
  | fuel + 1, ret, newStates =>
    if (epsStep n newStates).all (fun t => decide (t ∈ ret)) then ret
    else
      epsClosureGo n fuel
        (bsUnion ret ((epsStep n newStates).filter (fun t => decide (t ∉ ret))))
        ((epsStep n newStates).filter (fun t => decide (t ∉ ret)))

/-- `Nfa::eps_closure` (src/nfa.rs). -/
def Nfa.epsClosure {P : Type} (n : Nfa P) (s : List Nat) : List Nat :=
  epsClosureGo n (n.numStates + 1) s s

/-- `Nfa::eps_closure_single` (src/nfa.rs). -/
def Nfa.epsClosureSingle {P : Type} (n : Nfa P) (st : Nat) : List Nat :=
  n.epsClosure (bsInsert st [])

/-- `Nfa::accepting` (src/nfa.rs): some member state accepts. Out-of-range
members (an indexing panic in Rust) read as non-accepting here and are
excluded by the theorems' well-formedness hypotheses. -/
def Nfa.acceptingB {P : Type} (n : Nfa P) (s : List Nat) : Bool :=
  s.any (fun i => ((n.states.get? i).map (fun st => st.accepting)).getD false)

/-- `Nfa::transitions` (src/nfa.rs): collect the range transitions of the
member states, group them into identical-or-disjoint ranges with `BitSet`
targets (`NfaTransitions::from_vec(..).collect_transition_pairs()`,
modelled from the spec through `CharMultiMap::group`), then epsilon-close
every target set. -/
def Nfa.transitionsOf {P : Type} (n : Nfa P) (s : List Nat) :
    List (SymbRange × List Nat) :=
  let collected := s.flatMap
    (fun i => ((n.states.get? i).map (fun st => st.transitions.ranges)).getD [])
  (CharMultiMap.group ⟨collected⟩).elts.map (fun e => (e.1, n.epsClosure e.2))

/-- `Nfa::predicates` (src/nfa.rs): all predicate transitions out of the
member states, in set order. -/
def Nfa.predicatesOf {P : Type} (n : Nfa P) (s : List Nat) : List (P × Nat) :=
  s.flatMap
    (fun i => ((n.states.get? i).map (fun st => st.transitions.predicates)).getD [])

/-- Modelled from the spec: the two operations of `transition::Predicate`
used by predicate elimination. `intersect` combines two predicates,
returning `none` when they are incompatible; `filterT` models
`filter_transitions`, splitting the transitions into and out of a predicate
edge into the pairs compatible with the predicate. The predicate type `P`
itself stays abstract. -/
structure PredOps (P : Type) where
  intersect : P → P → Option P
  filterT : P → List (SymbRange × List Nat) → List (SymbRange × List Nat) →
    List (SymbRange × List Nat) × List (SymbRange × List Nat)

/-- `Vec::remove(i)` (used on predicate lists by
`remove_predicates_once`): removing at an out-of-bounds index panics. -/
def listRemoveAt {A : Type} (l : List A) (i : Nat) : Except String (List A) :=
  if i < l.length then .ok (l.take i ++ l.drop (i + 1))
  else .error "removal index should be less than the length"

/-- The bookkeeping loop of `Nfa::remove_predicates_once` (src/nfa.rs):
for each predicate `(_, target)` of the source state, indexed by its
enumeration position, remove the entry at that position from
`reversed.states[target].transitions.predicates` (`Vec::remove`, a panic
when the position is out of bounds). -/
def removeRevPredsGo {P : Type} : List (P × Nat) → Nat → List (NfaState P) →
    Except String (List (NfaState P))
  | [], _, sts => .ok sts
  | pt :: rest, predIdx, sts =>
    match sts.get? pt.2 with
    | none => .error "state index out of bounds"
    | some st =>
      match listRemoveAt st.transitions.predicates predIdx with
      | .error e => .error e
      | .ok newPreds =>
        removeRevPredsGo rest (predIdx + 1)
          (sts.set pt.2
            ⟨⟨st.transitions.ranges, st.transitions.eps, newPreds⟩, st.accepting⟩)

/-- The body of the per-predicate loop of `Nfa::remove_predicates_once`
(src/nfa.rs), acting on the pair (self, reversed): push a fresh state to
both, then copy the filtered transitions and intersected predicates leading
into the source `idx` and out of the predicate's target around the new
state. -/
def predStep {P : Type} (ops : PredOps P) (idx : Nat)
    (sr : Nfa P × Nfa P) (pt : P × Nat) : Nfa P × Nfa P :=
  let self0 : Nfa P := ⟨sr.1.states ++ [NfaState.new P false], sr.1.anchored_states⟩
  let rev0 : Nfa P := ⟨sr.2.states ++ [NfaState.new P false], sr.2.anchored_states⟩
  let newIdx := self0.states.length - 1
  let inStates := rev0.epsClosureSingle idx
  let outStates := self0.epsClosureSingle pt.2
  let ft := ops.filterT pt.1 (rev0.transitionsOf inStates) (self0.transitionsOf outStates)
  let s1 := ft.1.foldl (fun (sr' : Nfa P × Nfa P) (rs : SymbRange × List Nat) =>
      rs.2.foldl (fun (sr'' : Nfa P × Nfa P) (source : Nat) =>
        (sr''.1.addTransition source newIdx rs.1,
         sr''.2.addTransition newIdx source rs.1)) sr')
    (self0, rev0)
  let s2 := (rev0.predicatesOf inStates).foldl
    (fun (sr' : Nfa P × Nfa P) (ps : P × Nat) =>
      match ops.intersect pt.1 ps.1 with
      | none => sr'
      | some p => (sr'.1.addPredicate ps.2 newIdx p,
                   sr'.2.addPredicate newIdx ps.2 p)) s1
  let s3 := ft.2.foldl (fun (sr' : Nfa P × Nfa P) (rt : SymbRange × List Nat) =>
      rt.2.foldl (fun (sr'' : Nfa P × Nfa P) (target : Nat) =>
        (sr''.1.addTransition newIdx target rt.1,
         sr''.2.addTransition target newIdx rt.1)) sr')
    s2
  (s3.1.predicatesOf outStates).foldl
    (fun (sr' : Nfa P × Nfa P) (ps : P × Nat) =>
      match ops.intersect pt.1 ps.1 with
      | none => sr'
      | some p => (sr'.1.addPredicate newIdx ps.2 p,
                   sr'.2.addPredicate ps.2 newIdx p)) s3

/-- One source state `idx` of `Nfa::remove_predicates_once` (src/nfa.rs):
clone its predicates, clear them, remove them from the reversed copy
(`removeRevPredsGo`), then run the per-predicate loop. -/
def stepIdx {P : Type} (ops : PredOps P) (sr : Nfa P × Nfa P) (idx : Nat) :
    Except String (Nfa P × Nfa P) :=
  match sr.1.states.get? idx with
  | none => .error "state index out of bounds"
  | some st =>
    match removeRevPredsGo st.transitions.predicates 0 sr.2.states with
    | .error e => .error e
    | .ok revSts =>
      .ok (st.transitions.predicates.foldl (predStep ops idx)
        (⟨sr.1.states.set idx
            ⟨⟨st.transitions.ranges, st.transitions.eps, []⟩, st.accepting⟩,
          sr.1.anchored_states⟩,
         ⟨revSts, sr.2.anchored_states⟩))

/-- The outer `for idx in 0..orig_len` loop of
`Nfa::remove_predicates_once` (src/nfa.rs). -/
def rpoGo {P : Type} (ops : PredOps P) : List Nat → Nfa P × Nfa P →
    Except String (Nfa P × Nfa P)
  | [], sr => .ok sr
  | idx :: rest, sr =>
    match stepIdx ops sr idx with
    | .error e => .error e
    | .ok sr' => rpoGo ops rest sr'

/-- `Nfa::remove_predicates_once` (src/nfa.rs): process every original
state, and report whether new states were created. -/
def removePredicatesOnce {P : Type} (ops : PredOps P) (n : Nfa P) :
    Except String (Nfa P × Bool) :=
  match rpoGo ops (List.range n.states.length) (n, n.reversed) with
  | .error e => .error e
  | .ok sr => .ok (sr.1, decide (sr.1.states.length > n.states.length))

/-- `Nfa::remove_predicates` (src/nfa.rs): run passes until one creates no
new state. The Rust `while` loop is unbounded; it takes explicit fuel here
and yields `none` when the fuel runs out before a fixed point. -/
def removePredicates {P : Type} (ops : PredOps P) : Nat → Nfa P →
    Option (Except String (Nfa P))
  | 0, _ => none
  | fuel + 1, n =>
    match removePredicatesOnce ops n with
    | .error e => some (.error e)
    | .ok (n', true) => removePredicates ops fuel n'
    | .ok (n', false) => some (.ok n')

/-- Modelled from the spec: the `Dfa` surface used by `Nfa::determinize`
(`Dfa::new`, `add_state`, `add_transition`, `sort_transitions`,
`num_states`): a DFA is a vector of states, each an accepting flag plus a
list of range-labelled transitions. -/
structure DfaState where
  accepting : Bool
  transitions : List (SymbRange × Nat)
deriving DecidableEq

/-- Modelled from the spec: the deterministic automaton produced by
`Nfa::determinize`. -/
structure Dfa where
  states : List DfaState
deriving DecidableEq

/-- Modelled from the spec: `Dfa::new`. -/
def Dfa.new : Dfa := ⟨[]⟩

/-- Modelled from the spec: `Dfa::num_states`. -/
def Dfa.numStates (d : Dfa) : Nat := d.states.length

/-- Modelled from the spec: `Dfa::add_state` appends a fresh state with no
transitions. -/
def Dfa.addState (d : Dfa) (acc : Bool) : Dfa := ⟨d.states ++ [⟨acc, []⟩]⟩

/-- Modelled from the spec: `Dfa::add_transition` pushes a transition onto
the source state; an out-of-range source (an indexing panic in Rust) leaves
the automaton unchanged and is excluded by the invariants proven below. -/
def Dfa.addTransition (d : Dfa) (src tgt : Nat) (r : SymbRange) : Dfa :=
  match d.states.get? src with
  | none => d
  | some st => ⟨d.states.set src ⟨st.accepting, st.transitions ++ [(r, tgt)]⟩⟩

/-- Modelled from the spec: `Dfa::sort_transitions` puts every state's
transition list in ascending range order and touches nothing else. -/
def Dfa.sortTransitions (d : Dfa) : Dfa :=
  ⟨d.states.map (fun st =>
    ⟨st.accepting, List.insertionSort (fun a b => a.1.start ≤ b.1.start) st.transitions⟩)⟩

/-- `state_map.get(&state)` (src/nfa.rs): assoc-list lookup modelling the
`HashMap<BitSet, usize>`. -/
def mapLookup (m : List (List Nat × Nat)) (k : List Nat) : Option Nat :=
  (m.find? (fun kv => decide (kv.1 = k))).map (fun kv => kv.2)

/-- The per-transition body of the `determinize` worklist loop
(src/nfa.rs): reuse the DFA index of a known target set, otherwise allocate
a fresh DFA state for it, enqueue it, and record it in the map; then add
the DFA transition. The state triple is (dfa, state_map, active_states). -/
def detStep {P : Type} (n : Nfa P) (stateIdx : Nat)
    (acc : Dfa × List (List Nat × Nat) × List (List Nat))
    (rt : SymbRange × List Nat) : Dfa × List (List Nat × Nat) × List (List Nat) :=
  match mapLookup acc.2.1 rt.2 with
  | some targetIdx => (acc.1.addTransition stateIdx targetIdx rt.1, acc.2.1, acc.2.2)
  | none =>
    let dfa' := acc.1.addState (n.acceptingB rt.2)
    (dfa'.addTransition stateIdx (dfa'.numStates - 1) rt.1,
     acc.2.1 ++ [(rt.2, dfa'.numStates - 1)],
     rt.2 :: acc.2.2)

/-- The worklist loop of `Nfa::determinize` (src/nfa.rs). `Vec::pop` takes
the most recently pushed set, modelled by keeping `active_states` as a
stack with its top at the head. The Rust loop is unbounded; it takes
explicit fuel here, and `none` covers both fuel exhaustion and a map miss
on a popped set (an `unwrap` panic in Rust, excluded by the invariants
proven below). -/
def detLoop {P : Type} (n : Nfa P) : Nat → Dfa → List (List Nat × Nat) →
    List (List Nat) → Option (Dfa × List (List Nat × Nat))
  | 0, _, _, _ => none
  | fuel + 1, dfa, stateMap, active =>
    match active with
    | [] => some (dfa, stateMap)
    | state :: restActive =>
      match mapLookup stateMap state with
      | none => none
      | some stateIdx =>
        let trans := n.transitionsOf state
        let acc := trans.foldl (detStep n stateIdx) (dfa, stateMap, restActive)
        detLoop n fuel acc.1 acc.2.1 acc.2.2

/-- `Nfa::determinize` (src/nfa.rs): seed the worklist with the epsilon
closure of state `0`, run the worklist loop (with fuel covering every
possible allocation, see the termination theorem), and sort the resulting
transition lists. Returns the DFA together with the final set-to-index
map. -/
def Nfa.determinize {P : Type} (n : Nfa P) : Option (Dfa × List (List Nat × Nat)) :=
  let startState := n.epsClosureSingle 0
  let dfa0 := Dfa.new.addState (n.acceptingB startState)
  match detLoop n (2 * 2 ^ n.numStates + 2) dfa0 [(startState, 0)] [startState] with
  | none => none
  | some (dfa, stateMap) => some (dfa.sortTransitions, stateMap)

/-- Proof-side notion: a well-formed `BitSet` model over an `N`-state
automaton — a strictly sorted list of bits below `N`. -/
def bsCanon (N : Nat) (s : List Nat) : Prop :=
  List.Pairwise (fun a b => a < b) s ∧ ∀ j ∈ s, j < N

/-- Proof-side invariant of the `determinize` worklist loop: the map keys
are distinct well-formed sets, DFA indices are allocated consecutively, the
worklist only holds known sets, every allocated DFA state's accepting flag
matches `Nfa::accepting` of its set, and every key is the start closure or
a transition target of another key. -/
def DetInv {P : Type} (n : Nfa P) (dfa : Dfa) (m : List (List Nat × Nat))
    (active : List (List Nat)) : Prop :=
  (m.map Prod.fst).Nodup ∧
  (∀ k ∈ m.map Prod.fst, bsCanon n.numStates k) ∧
  m.map Prod.snd = List.range m.length ∧
  dfa.states.length = m.length ∧
  (∀ k ∈ active, k ∈ m.map Prod.fst) ∧
  (∀ ki ∈ m, ∃ hi : ki.2 < dfa.states.length,
    (dfa.states.get ⟨ki.2, hi⟩).accepting = n.acceptingB ki.1) ∧
  (∀ k ∈ m.map Prod.fst, k = n.epsClosureSingle 0 ∨
    ∃ k' ∈ m.map Prod.fst, ∃ r, (r, k) ∈ n.transitionsOf k')

/-- Proof-side helper: the effect of one `stepIdx` on `self` when the state
at `idx` carries no predicates — its predicate list is (re)set to empty and
nothing else changes. -/
def clearAt {P : Type} (sts : List (NfaState P)) (i : Nat) : List (NfaState P) :=
  match sts.get? i with
  | none => sts
  | some st =>
    sts.set i ⟨⟨st.transitions.ranges, st.transitions.eps, []⟩, st.accepting⟩

instance : IsAntisymm Nat (fun a b => a < b) :=
  ⟨fun _ _ h1 h2 => absurd h2 (Nat.lt_asymm h1)⟩

-- ===================== THEOREMS =====================

theorem inRanges_nil {T : Type} (ch : Nat) : ¬ inRanges ([] : List (CharRange × T)) ch := by
  rintro ⟨e, h, -⟩; exact absurd h (List.not_mem_nil e)

theorem inRanges_cons {T : Type} (e : CharRange × T) (l : List (CharRange × T)) (ch : Nat) :
    inRanges (e :: l) ch ↔ e.1.containsChar ch = true ∨ inRanges l ch := by
  constructor
  · rintro ⟨f, hf, hc⟩
    rcases List.mem_cons.mp hf with h | h
    · exact Or.inl (h ▸ hc)
    · exact Or.inr ⟨f, h, hc⟩
  · rintro (h | ⟨f, hf, hc⟩)
    · exact ⟨e, List.mem_cons_self e l, h⟩
    · exact ⟨f, List.mem_cons_of_mem e hf, hc⟩

theorem inRanges_append {T : Type} (l₁ l₂ : List (CharRange × T)) (ch : Nat) :
    inRanges (l₁ ++ l₂) ch ↔ inRanges l₁ ch ∨ inRanges l₂ ch := by
  constructor
  · rintro ⟨e, he, hc⟩
    rcases List.mem_append.mp he with h | h
    · exact Or.inl ⟨e, h, hc⟩
    · exact Or.inr ⟨e, h, hc⟩
  · rintro (⟨e, he, hc⟩ | ⟨e, he, hc⟩)
    · exact ⟨e, List.mem_append.mpr (Or.inl he), hc⟩
    · exact ⟨e, List.mem_append.mpr (Or.inr he), hc⟩

theorem rangeAt_eq {T : Type} (l : List (CharRange × T)) (i : Nat) (h : i < l.length) :
    rangeAt l i = l[i].1 := by
  simp [rangeAt, List.get?_eq_getElem?, List.getElem?_eq_getElem h]

/-- Index-based reformulation of `rangesValid`. -/
theorem rangesValid_getElem {T : Type} {l : List (CharRange × T)} (h : rangesValid l) :
    (∀ i (_ : i < l.length), l[i].1.start ≤ l[i].1.stop) ∧
    (∀ i j (_ : i < l.length) (_ : j < l.length), i < j → l[i].1.stop < l[j].1.start) := by
  obtain ⟨hne, hpw⟩ := h
  refine ⟨fun i hi => hne _ (List.getElem_mem hi), ?_⟩
  intro i j hi hj hij
  exact (List.pairwise_iff_getElem.mp hpw) i j hi hj hij

theorem bsearchGo_mid_lower {left right : Nat} (h : left < right) :
    left ≤ (left + right) / 2 := by
  omega

theorem bsearchGo_mid_upper {left right : Nat} (h : left < right) :
    (left + right) / 2 < right := by
  omega

/-- Soundness of the binary search: a returned index is in bounds and its
range contains `ch`. -/
theorem bsearchGo_sound {T : Type} (l : List (CharRange × T)) (ch : Nat) :
    ∀ fuel left right, right ≤ l.length →
      ∀ j, bsearchGo l ch fuel left right = some j →
        ∃ (hj : j < l.length), l[j].1.containsChar ch = true := by
  intro fuel
  induction fuel with
  | zero => intro left right _ j h; simp [bsearchGo] at h
  | succ fuel ih =>
    intro left right hr j h
    rw [bsearchGo] at h
    by_cases hlr : left < right
    · simp only [if_pos hlr] at h
      have hmidr : (left + right) / 2 < right := bsearchGo_mid_upper hlr
      have hmidlen : (left + right) / 2 < l.length := Nat.lt_of_lt_of_le hmidr hr
      rcases hcmp : (rangeAt l ((left + right) / 2)).cmpChar ch with _ | _ | _
      · rw [hcmp] at h; exact ih _ _ hr j h
      · rw [hcmp] at h
        have hj : (left + right) / 2 = j := Option.some.inj h
        subst hj
        refine ⟨hmidlen, ?_⟩
        rw [rangeAt_eq l _ hmidlen] at hcmp
        unfold CharRange.cmpChar at hcmp
        by_cases h1 : l[(left + right) / 2].1.stop < ch
        · simp [h1] at hcmp
        · by_cases h2 : l[(left + right) / 2].1.start > ch
          · simp [h1, h2] at hcmp
          · simp [CharRange.containsChar]; omega
      · rw [hcmp] at h
        exact ih _ _ (Nat.le_trans (Nat.le_of_lt hmidr) hr) j h
    · simp [if_neg hlr] at h

/-- Completeness of the binary search: on a valid entry list, if some entry
in the window contains `ch` and the fuel covers the window, the search
succeeds. -/
theorem bsearchGo_complete {T : Type} (l : List (CharRange × T)) (ch : Nat)
    (hv : rangesValid l) :
    ∀ fuel left right, right ≤ l.length → right - left ≤ fuel →
      ∀ i (hi : i < l.length), left ≤ i → i < right →
        l[i].1.containsChar ch = true →
        ∃ j, bsearchGo l ch fuel left right = some j := by
  obtain ⟨hne, hord⟩ := rangesValid_getElem hv
  intro fuel
  induction fuel with
  | zero =>
    intro left right _ hf i _ hli hir _
    omega
  | succ fuel ih =>
    intro left right hr hf i hi hli hir hcont
    have hlr : left < right := Nat.lt_of_le_of_lt hli hir
    rw [bsearchGo]
    simp only [if_pos hlr]
    have hmidl : left ≤ (left + right) / 2 := bsearchGo_mid_lower hlr
    have hmidr : (left + right) / 2 < right := bsearchGo_mid_upper hlr
    have hmidlen : (left + right) / 2 < l.length := Nat.lt_of_lt_of_le hmidr hr
    set mid := (left + right) / 2 with hmid
    rcases hcmp : (rangeAt l mid).cmpChar ch with _ | _ | _
    · -- Less: the range at mid ends before ch; the witness must be above mid
      rw [rangeAt_eq l mid hmidlen] at hcmp
      unfold CharRange.cmpChar at hcmp
      have hlt : l[mid].1.stop < ch := by
        by_cases h1 : l[mid].1.stop < ch
        · exact h1
        · by_cases h2 : l[mid].1.start > ch <;> simp [h1, h2] at hcmp
      have hgt : mid < i := by
        rcases Nat.lt_trichotomy i mid with h | h | h
        · have := hord i mid hi hmidlen h
          have hc := hcont
          simp [CharRange.containsChar] at hc
          have := hne mid hmidlen
          omega
        · subst h
          have hc := hcont
          simp [CharRange.containsChar] at hc
          omega
        · exact h
      exact ih (mid + 1) right hr (by omega) i hi (by omega) hir hcont
    · -- Equal
      exact ⟨mid, rfl⟩
    · -- Greater: the range at mid starts after ch; the witness must be below
      rw [rangeAt_eq l mid hmidlen] at hcmp
      unfold CharRange.cmpChar at hcmp
      have hgt : l[mid].1.start > ch ∧ ¬ l[mid].1.stop < ch := by
        by_cases h1 : l[mid].1.stop < ch
        · simp [h1] at hcmp
        · by_cases h2 : l[mid].1.start > ch
          · exact ⟨h2, h1⟩
          · simp [h1, h2] at hcmp
      have hlt : i < mid := by
        rcases Nat.lt_trichotomy i mid with h | h | h
        · exact h
        · subst h
          have hc := hcont
          simp [CharRange.containsChar] at hc
          omega
        · have := hord mid i hmidlen hi h
          have hc := hcont
          simp [CharRange.containsChar] at hc
          omega
      exact ih left mid (Nat.le_trans (Nat.le_of_lt hmidr) hr) (by omega) i hi hli hlt hcont

/-- On a valid entry list, at most one entry contains a given point. -/
theorem containsChar_unique {T : Type} {l : List (CharRange × T)} (hv : rangesValid l)
    {ch i j : Nat} (hi : i < l.length) (hj : j < l.length)
    (hci : l[i].1.containsChar ch = true) (hcj : l[j].1.containsChar ch = true) :
    i = j := by
  obtain ⟨-, hord⟩ := rangesValid_getElem hv
  simp [CharRange.containsChar] at hci hcj
  rcases Nat.lt_trichotomy i j with h | h | h
  · have := hord i j hi hj h; omega
  · exact h
  · have := hord j i hj hi h; omega

/-- Characterization of `CharMap::get` on a valid map: it returns exactly the
value of the (unique) entry whose range contains `ch`. -/
theorem CharMap.get_eq_some {T : Type} (m : CharMap T) (hv : rangesValid m.elts)
    (ch : Nat) (v : T) :
    m.get ch = some v ↔ ∃ r, (r, v) ∈ m.elts ∧ r.containsChar ch = true := by
  constructor
  · intro h
    unfold CharMap.get at h
    rcases hb : bsearchGo m.elts ch (m.elts.length + 1) 0 m.elts.length with _ | i
    · rw [hb] at h; simp at h
    · rw [hb] at h
      obtain ⟨hi, hc⟩ := bsearchGo_sound m.elts ch _ 0 m.elts.length (Nat.le_refl _) i hb
      have hvs : (m.elts.get? i).map Prod.snd = some v := h
      rw [List.get?_eq_getElem?, List.getElem?_eq_getElem hi] at hvs
      simp at hvs
      refine ⟨m.elts[i].1, ?_, hc⟩
      rw [← hvs]
      exact List.getElem_mem hi
  · rintro ⟨r, hrv, hc⟩
    obtain ⟨i, hi, hg⟩ := List.getElem_of_mem hrv
    unfold CharMap.get
    have hcont : m.elts[i].1.containsChar ch = true := by rw [hg]; exact hc
    obtain ⟨j, hj⟩ := bsearchGo_complete m.elts ch hv (m.elts.length + 1) 0
      m.elts.length (Nat.le_refl _) (by omega) i hi (Nat.zero_le _) hi hcont
    rw [hj]
    obtain ⟨hjl, hcj⟩ := bsearchGo_sound m.elts ch _ 0 m.elts.length (Nat.le_refl _) j hj
    have hij : i = j := containsChar_unique hv hi hjl hcont hcj
    subst hij
    show (m.elts.get? i).map Prod.snd = some v
    rw [List.get?_eq_getElem?, List.getElem?_eq_getElem hi]
    simp
    rw [hg]

/-- `CharMap::get` is `none` exactly on points outside every range. -/
theorem CharMap.get_isSome_iff {T : Type} (m : CharMap T) (hv : rangesValid m.elts)
    (ch : Nat) : (m.get ch).isSome = true ↔ inRanges m.elts ch := by
  constructor
  · intro h
    rcases hg : m.get ch with _ | v
    · rw [hg] at h; simp at h
    · obtain ⟨r, hrv, hc⟩ := (CharMap.get_eq_some m hv ch v).mp hg
      exact ⟨(r, v), hrv, hc⟩
  · rintro ⟨⟨r, v⟩, hrv, hc⟩
    have := (CharMap.get_eq_some m hv ch v).mpr ⟨r, hrv, hc⟩
    rw [this]
    rfl

theorem rangesValid_cons_tail {T : Type} {e : CharRange × T} {l : List (CharRange × T)}
    (h : rangesValid (e :: l)) : rangesValid l :=
  ⟨fun f hf => h.1 f (List.mem_cons_of_mem e hf), (List.pairwise_cons.mp h.2).2⟩

theorem rangesValid_cons_head {T : Type} {e : CharRange × T} {l : List (CharRange × T)}
    (h : rangesValid (e :: l)) :
    e.1.start ≤ e.1.stop ∧ ∀ f ∈ l, e.1.stop < f.1.start :=
  ⟨h.1 e (List.mem_cons_self e l), (List.pairwise_cons.mp h.2).1⟩

theorem u32_term_eq (a b : Nat) (hab : b ≤ a) (ha : a ≤ u32Max) :
    u32add (u32sub a b) 1 = (a - b + 1) % 4294967296 := by
  unfold u32add u32sub u32Max at *
  have hb : b % 4294967296 = b := Nat.mod_eq_of_lt (by omega)
  rw [hb]
  have h1 : a + 4294967296 - b = 4294967296 + (a - b) := by omega
  rw [h1]
  have h2 : (4294967296 + (a - b)) % 4294967296 = (a - b) % 4294967296 := by
    omega
  rw [h2]
  have h3 : (a - b) % 4294967296 = a - b := Nat.mod_eq_of_lt (by omega)
  rw [h3]

theorem charCount_foldl (l : List (CharRange × Unit))
    (hv : ∀ e ∈ l, e.1.start ≤ e.1.stop) (hb : ∀ e ∈ l, e.1.stop ≤ u32Max) :
    ∀ a, a < 4294967296 →
      l.foldl (fun acc e => u32add acc (u32add (u32sub e.1.stop e.1.start) 1)) a =
        (a + (l.map (fun e => e.1.stop - e.1.start + 1)).sum) % 4294967296 := by
  induction l with
  | nil =>
    intro a ha
    simp [Nat.mod_eq_of_lt ha]
  | cons e l ih =>
    intro a ha
    have he1 : e.1.start ≤ e.1.stop := hv e (List.mem_cons_self e l)
    have he2 : e.1.stop ≤ u32Max := hb e (List.mem_cons_self e l)
    simp only [List.foldl_cons, List.map_cons, List.sum_cons]
    rw [u32_term_eq _ _ he1 he2]
    have hstep : u32add a ((e.1.stop - e.1.start + 1) % 4294967296) =
        (a + (e.1.stop - e.1.start + 1)) % 4294967296 := by
      unfold u32add
      conv_rhs => rw [Nat.add_mod]
      rw [Nat.mod_eq_of_lt ha]
    rw [hstep]
    rw [ih (fun f hf => hv f (List.mem_cons_of_mem e hf))
          (fun f hf => hb f (List.mem_cons_of_mem e hf)) _
          (Nat.mod_lt _ (by norm_num))]
    rw [Nat.mod_add_mod, Nat.add_assoc]


/-- C10: `CharSet::char_count` computes the number of contained code points
modulo `2^32` — the per-range term `end - start + 1` and the running sum are
`u32` arithmetic — and in particular for `CharSet::full()` (the single range
`0..=u32::MAX`) it evaluates to `0` under wraparound rather than the true
count `2^32`. -/
theorem claim_C10 (s : CharSet) (hv : rangesValid s.map.elts)
    (hb : rangesBounded s.map.elts) :
    CharSet.charCount s =
      ((s.map.elts.map (fun e => e.1.stop - e.1.start + 1)).sum) % 4294967296 ∧
    ∃ f, CharSet.full = Except.ok f ∧
      (f.map.elts.map (fun e => e.1.stop - e.1.start + 1)).sum = 4294967296 ∧
      CharSet.charCount f = 0 := by
  constructor
  · unfold CharSet.charCount
    rw [charCount_foldl s.map.elts hv.1 hb _ (by norm_num)]
    rw [Nat.zero_add]
  · exact ⟨⟨⟨[(CharRange.full, ())]⟩⟩, rfl, by decide, by decide⟩

/-- Witness for C10 at the concrete set `{(5, 10)}`. -/
theorem claim_C10_witness :
    rangesValid [((⟨5, 10⟩ : CharRange), ())] ∧
    rangesBounded [((⟨5, 10⟩ : CharRange), ())] ∧
    CharSet.charCount ⟨⟨[((⟨5, 10⟩ : CharRange), ())]⟩⟩ =
      (([((⟨5, 10⟩ : CharRange), ())].map
          (fun e => e.1.stop - e.1.start + 1)).sum) % 4294967296 :=
  ⟨by decide, by decide,
    (claim_C10 ⟨⟨[((⟨5, 10⟩ : CharRange), ())]⟩⟩ (by decide) (by decide)).1⟩

theorem windowsViolation_false_iff {T : Type} (l : List (CharRange × T)) :
    CharMap.windowsViolation l = false ↔
      List.Chain' (fun a b => a.1.stop < b.1.start) l := by
  induction l with
  | nil => simp [CharMap.windowsViolation]
  | cons a l ih =>
    cases l with
    | nil => simp [CharMap.windowsViolation]
    | cons b rest =>
      rw [CharMap.windowsViolation]
      rw [List.chain'_cons]
      constructor
      · intro h
        have h2 := Bool.or_eq_false_iff.mp h
        refine ⟨?_, ih.mp h2.2⟩
        have := h2.1
        simp at this
        omega
      · rintro ⟨h1, h2⟩
        apply Bool.or_eq_false_iff.mpr
        refine ⟨by simp; omega, ih.mpr h2⟩

theorem chain_disjoint_pairwise {T : Type} {l : List (CharRange × T)}
    (hne : ∀ e ∈ l, e.1.start ≤ e.1.stop)
    (hc : List.Chain' (fun a b => a.1.stop < b.1.start) l) :
    List.Pairwise (fun a b => a.1.stop < b.1.start) l := by
  induction l with
  | nil => exact List.Pairwise.nil
  | cons a l ih =>
    rw [List.chain'_cons'] at hc
    rw [List.pairwise_cons]
    have hpl := ih (fun e he => hne e (List.mem_cons_of_mem a he)) hc.2
    refine ⟨?_, hpl⟩
    intro b hb
    -- the head of l bounds everything in l
    cases l with
    | nil => exact absurd hb (List.not_mem_nil b)
    | cons c rest =>
      have hac : a.1.stop < c.1.start := hc.1 c rfl
      rcases List.mem_cons.mp hb with h | h
      · subst h; exact hac
      · have hcb : c.1.stop < b.1.start ∨ c = b := by
          rw [List.pairwise_cons] at hpl
          exact Or.inl (hpl.1 b h)
        rcases hcb with h2 | h2
        · have hcc : c.1.start ≤ c.1.stop :=
            hne c (List.mem_cons_of_mem a (List.mem_cons_self c rest))
          omega
        · subst h2; exact hac

/-- Two ranges overlap: their intersection is non-empty. -/
def rangesOverlap (a b : CharRange) : Prop :=
  max a.start b.start ≤ min a.stop b.stop

instance (a b : CharRange) : Decidable (rangesOverlap a b) := by
  unfold rangesOverlap; infer_instance

theorem rangesOverlap_symm {a b : CharRange} (h : rangesOverlap a b) :
    rangesOverlap b a := by
  unfold rangesOverlap at *; omega

theorem windowsViolation_true_elim {T : Type} {l : List (CharRange × T)}
    (h : CharMap.windowsViolation l = true) :
    ∃ a b, List.Sublist [a, b] l ∧ a.1.stop ≥ b.1.start := by
  induction l with
  | nil => simp [CharMap.windowsViolation] at h
  | cons a l ih =>
    cases l with
    | nil => simp [CharMap.windowsViolation] at h
    | cons b rest =>
      rw [CharMap.windowsViolation] at h
      rcases Bool.or_eq_true_iff.mp h with h1 | h1
      · refine ⟨a, b, ?_, by simpa using h1⟩
        exact List.Sublist.cons₂ a (List.Sublist.cons₂ b (List.nil_sublist rest))
      · obtain ⟨x, y, hs, hxy⟩ := ih h1
        exact ⟨x, y, hs.trans (List.sublist_cons_self a (b :: rest)), hxy⟩

theorem pair_perm_cases {α : Type} {x y p q : α} (h : List.Perm [x, y] [p, q]) :
    (x = p ∧ y = q) ∨ (x = q ∧ y = p) := by
  have hx : x ∈ [p, q] := h.subset (by simp)
  rcases List.mem_cons.mp hx with h1 | h1
  · subst h1
    have h2 := h.cons_inv
    rw [List.perm_singleton] at h2
    have h3 : y = q := by simpa using h2
    exact Or.inl ⟨rfl, h3⟩
  · simp at h1
    subst h1
    have h2 := (h.trans (List.Perm.swap x p [])).cons_inv
    rw [List.perm_singleton] at h2
    have h3 : y = p := by simpa using h2
    exact Or.inr ⟨rfl, h3⟩

/-- C8: `CharMap::push` panics exactly when the pushed range is empty and
otherwise appends the new entry, leaving prior entries unchanged;
`CharMap::sort` panics exactly when (among all-non-empty pushed ranges) some
two ranges overlap, and on normal return the entries are in ascending order
of range start.  Neither returns a recoverable error. -/
theorem claim_C8 {T : Type} (m : CharMap T) (r : CharRange) (t : T)
    (hne : ∀ e ∈ m.elts, e.1.start ≤ e.1.stop) :
    ((∃ msg, CharMap.push m r t = Except.error msg) ↔ r.start > r.stop) ∧
    (r.start ≤ r.stop → CharMap.push m r t = Except.ok ⟨m.elts ++ [(r, t)]⟩) ∧
    ((∃ msg, CharMap.sort m = Except.error msg) ↔
      ∃ p q, List.Subperm [p, q] m.elts ∧ rangesOverlap p.1 q.1) ∧
    (∀ m', CharMap.sort m = Except.ok m' →
      List.Pairwise (fun (a b : CharRange × T) => a.1.start ≤ b.1.start) m'.elts) := by
  have hperm : List.Perm (CharMap.sortRanges m.elts) m.elts :=
    List.perm_insertionSort _ _
  have hsorted : List.Pairwise CharMap.leStart (CharMap.sortRanges m.elts) :=
    List.sorted_insertionSort _ _
  have hnes : ∀ e ∈ CharMap.sortRanges m.elts, e.1.start ≤ e.1.stop :=
    fun e he => hne e (hperm.subset he)
  refine ⟨?_, ?_, ?_, ?_⟩
  · constructor
    · rintro ⟨msg, hmsg⟩
      unfold CharMap.push at hmsg
      by_cases hr : r.isEmptyRange
      · unfold CharRange.isEmptyRange at hr
        exact of_decide_eq_true hr
      · rw [if_neg hr] at hmsg
        exact absurd hmsg (by simp)
    · intro h
      refine ⟨"ranges must be non-empty", ?_⟩
      unfold CharMap.push
      rw [if_pos]
      unfold CharRange.isEmptyRange
      exact decide_eq_true h
  · intro h
    unfold CharMap.push
    rw [if_neg]
    unfold CharRange.isEmptyRange
    simp
    omega
  · constructor
    · rintro ⟨msg, hmsg⟩
      unfold CharMap.sort at hmsg
      by_cases hw : CharMap.windowsViolation (CharMap.sortRanges m.elts)
      · obtain ⟨a, b, hsub, hab⟩ := windowsViolation_true_elim hw
        have hle : a.1.start ≤ b.1.start := by
          have := hsorted.sublist hsub
          rw [List.pairwise_cons] at this
          exact this.1 b (List.mem_cons_self b [])
        have hbne : b.1.start ≤ b.1.stop :=
          hnes b (hsub.subset (by simp))
        refine ⟨a, b, ?_, ?_⟩
        · exact (hsub.subperm).trans hperm.subperm
        · unfold rangesOverlap; omega
      · rw [if_neg hw] at hmsg
        exact absurd hmsg (by simp)
    · rintro ⟨p, q, hsub, hover⟩
      unfold CharMap.sort
      by_cases hw : CharMap.windowsViolation (CharMap.sortRanges m.elts)
      · exact ⟨"overlapping ranges", by rw [if_pos hw]⟩
      · exfalso
        have hchain := (windowsViolation_false_iff (CharMap.sortRanges m.elts)).mp
          (Bool.of_not_eq_true hw ▸ rfl)
        have hpw := chain_disjoint_pairwise hnes hchain
        have hsub2 : List.Subperm [p, q] (CharMap.sortRanges m.elts) :=
          hsub.trans hperm.symm.subperm
        obtain ⟨l', hl'perm, hl'sub⟩ := hsub2
        obtain ⟨x, y, hxy⟩ := List.length_eq_two.mp
          (by rw [hl'perm.length_eq]; rfl)
        subst hxy
        have hRxy : x.1.stop < y.1.start := by
          have := hpw.sublist hl'sub
          rw [List.pairwise_cons] at this
          exact this.1 y (List.mem_cons_self y [])
        rcases pair_perm_cases hl'perm with ⟨h1, h2⟩ | ⟨h1, h2⟩
        · subst h1; subst h2
          unfold rangesOverlap at hover
          omega
        · subst h1; subst h2
          unfold rangesOverlap at hover
          omega
  · intro m' hm'
    unfold CharMap.sort at hm'
    by_cases hw : CharMap.windowsViolation (CharMap.sortRanges m.elts)
    · rw [if_pos hw] at hm'
      exact absurd hm' (by simp)
    · rw [if_neg hw] at hm'
      have : m' = ⟨CharMap.sortRanges m.elts⟩ := by
        have := Except.ok.inj hm'
        exact this.symm
      subst this
      exact hsorted

/-- Witness for C8 at a concrete map and range. -/
theorem claim_C8_witness :
    (∀ e ∈ ([((⟨3, 5⟩ : CharRange), 0), ((⟨1, 2⟩ : CharRange), 1)] :
        List (CharRange × Nat)), e.1.start ≤ e.1.stop) ∧
    (∃ msg, CharMap.push ⟨[((⟨3, 5⟩ : CharRange), 0), ((⟨1, 2⟩ : CharRange), 1)]⟩
        (⟨7, 6⟩ : CharRange) 2 = Except.error msg) :=
  ⟨by decide,
    (claim_C8 ⟨[((⟨3, 5⟩ : CharRange), 0), ((⟨1, 2⟩ : CharRange), 1)]⟩
      (⟨7, 6⟩ : CharRange) 2 (by decide)).1.mpr (by decide)⟩

theorem rangesValid_cons_intro {T : Type} {c : CharRange × T} {l : List (CharRange × T)}
    (h1 : c.1.start ≤ c.1.stop) (h2 : ∀ f ∈ l, c.1.stop < f.1.start)
    (h3 : rangesValid l) : rangesValid (c :: l) := by
  refine ⟨?_, List.pairwise_cons.mpr ⟨h2, h3.2⟩⟩
  intro e he
  rcases List.mem_cons.mp he with h | h
  · subst h; exact h1
  · exact h3.1 e h

theorem normLoop_merge_valid {T : Type} {cur e : CharRange × T}
    {rest : List (CharRange × T)} (hv : rangesValid (cur :: e :: rest))
    (hc : e.1.start = cur.1.stop + 1) :
    rangesValid ((((⟨cur.1.start, e.1.stop⟩ : CharRange), cur.2) : CharRange × T) :: rest) := by
  obtain ⟨hcur, hcur2⟩ := rangesValid_cons_head hv
  have hv2 := rangesValid_cons_tail hv
  obtain ⟨he, he2⟩ := rangesValid_cons_head hv2
  refine rangesValid_cons_intro ?_ ?_ (rangesValid_cons_tail hv2)
  · simp; omega
  · intro f hf
    exact he2 f hf

theorem normLoop_start_lb {T : Type} [DecidableEq T] :
    ∀ (rest : List (CharRange × T)) (cur : CharRange × T),
      rangesValid (cur :: rest) → ∀ f ∈ normLoop cur rest, cur.1.start ≤ f.1.start := by
  intro rest
  induction rest with
  | nil =>
    intro cur _ f hf
    rw [normLoop] at hf
    simp at hf
    subst hf; exact Nat.le_refl _
  | cons e rest ih =>
    intro cur hv f hf
    rw [normLoop] at hf
    by_cases hc : e.1.start = cur.1.stop + 1 ∧ e.2 = cur.2
    · rw [if_pos hc] at hf
      have := ih (⟨cur.1.start, e.1.stop⟩, cur.2) (normLoop_merge_valid hv hc.1) f hf
      simpa using this
    · rw [if_neg hc] at hf
      rcases List.mem_cons.mp hf with h | h
      · subst h; exact Nat.le_refl _
      · obtain ⟨hcur, hcur2⟩ := rangesValid_cons_head hv
        have he : cur.1.stop < e.1.start := hcur2 e (List.mem_cons_self e rest)
        have := ih e (rangesValid_cons_tail hv) f h
        omega

theorem normLoop_valid {T : Type} [DecidableEq T] :
    ∀ (rest : List (CharRange × T)) (cur : CharRange × T),
      rangesValid (cur :: rest) → rangesValid (normLoop cur rest) := by
  intro rest
  induction rest with
  | nil =>
    intro cur hv
    rw [normLoop]
    refine ⟨?_, List.pairwise_singleton _ _⟩
    intro f hf
    simp at hf
    subst hf
    exact hv.1 f (by simp)
  | cons e rest ih =>
    intro cur hv
    rw [normLoop]
    by_cases hc : e.1.start = cur.1.stop + 1 ∧ e.2 = cur.2
    · rw [if_pos hc]
      exact ih _ (normLoop_merge_valid hv hc.1)
    · rw [if_neg hc]
      obtain ⟨hcur, hcur2⟩ := rangesValid_cons_head hv
      have hv2 := rangesValid_cons_tail hv
      refine rangesValid_cons_intro hcur ?_ (ih e hv2)
      intro f hf
      have hfs : e.1.start ≤ f.1.start := normLoop_start_lb rest e hv2 f hf
      have he : cur.1.stop < e.1.start := hcur2 e (List.mem_cons_self e rest)
      omega

theorem CharMap.get_ext {T : Type} (m1 m2 : CharMap T)
    (h1 : rangesValid m1.elts) (h2 : rangesValid m2.elts)
    (h : ∀ ch v, ((∃ r, (r, v) ∈ m1.elts ∧ r.containsChar ch = true) ↔
      (∃ r, (r, v) ∈ m2.elts ∧ r.containsChar ch = true))) :
    ∀ ch, m1.get ch = m2.get ch := by
  intro ch
  rcases hg1 : m1.get ch with _ | v
  · rcases hg2 : m2.get ch with _ | w
    · rfl
    · exfalso
      have ha := (CharMap.get_eq_some m2 h2 ch w).mp hg2
      have hb := (CharMap.get_eq_some m1 h1 ch w).mpr ((h ch w).mpr ha)
      rw [hg1] at hb
      exact absurd hb (by simp)
  · have ha := (CharMap.get_eq_some m1 h1 ch v).mp hg1
    exact ((CharMap.get_eq_some m2 h2 ch v).mpr ((h ch v).mp ha)).symm

theorem normLoop_pointwise {T : Type} [DecidableEq T] :
    ∀ (rest : List (CharRange × T)) (cur : CharRange × T),
      rangesValid (cur :: rest) → ∀ ch v,
      ((∃ r, (r, v) ∈ normLoop cur rest ∧ r.containsChar ch = true) ↔
       (∃ r, (r, v) ∈ cur :: rest ∧ r.containsChar ch = true)) := by
  intro rest
  induction rest with
  | nil =>
    intro cur _ ch v
    rw [normLoop]
  | cons e rest ih =>
    intro cur hv ch v
    rw [normLoop]
    by_cases hc : e.1.start = cur.1.stop + 1 ∧ e.2 = cur.2
    · rw [if_pos hc]
      rw [ih _ (normLoop_merge_valid hv hc.1) ch v]
      obtain ⟨hcne, -⟩ := rangesValid_cons_head hv
      obtain ⟨hene, -⟩ := rangesValid_cons_head (rangesValid_cons_tail hv)
      constructor
      · rintro ⟨r, hr, hcont⟩
        rcases List.mem_cons.mp hr with h | h
        · -- the merged entry covers cur and e
          have hval : v = cur.2 := by
            have := congrArg Prod.snd h; simpa using this
          have hrr : r = ⟨cur.1.start, e.1.stop⟩ := by
            have := congrArg Prod.fst h; simpa using this
          subst hrr
          subst hval
          simp [CharRange.containsChar] at hcont
          by_cases hs : ch ≤ cur.1.stop
          · refine ⟨cur.1, by simp, ?_⟩
            simp [CharRange.containsChar]
            omega
          · refine ⟨e.1, ?_, ?_⟩
            · have he : ((e.1, cur.2) : CharRange × T) = e := by rw [← hc.2]
              rw [he]
              simp
            · simp [CharRange.containsChar]
              omega
        · exact ⟨r, by simp [List.mem_cons_of_mem, h], hcont⟩
      · rintro ⟨r, hr, hcont⟩
        rcases List.mem_cons.mp hr with h | h
        · have hval : v = cur.2 := by
            have := congrArg Prod.snd h; simpa using this
          have hrr : r = cur.1 := by
            have := congrArg Prod.fst h; simpa using this
          subst hrr; subst hval
          refine ⟨⟨cur.1.start, e.1.stop⟩, by simp, ?_⟩
          simp [CharRange.containsChar] at hcont ⊢
          omega
        · rcases List.mem_cons.mp h with h2 | h2
          · have hval : v = e.2 := by
              have := congrArg Prod.snd h2; simpa using this
            have hrr : r = e.1 := by
              have := congrArg Prod.fst h2; simpa using this
            subst hrr
            have hval2 : v = cur.2 := by rw [hval, hc.2]
            subst hval2
            refine ⟨⟨cur.1.start, e.1.stop⟩, by simp, ?_⟩
            simp [CharRange.containsChar] at hcont ⊢
            omega
          · exact ⟨r, by simp [List.mem_cons_of_mem, h2], hcont⟩
    · rw [if_neg hc]
      have ihe := ih e (rangesValid_cons_tail hv) ch v
      constructor
      · rintro ⟨r, hr, hcont⟩
        rcases List.mem_cons.mp hr with h | h
        · exact ⟨r, by simp [h], hcont⟩
        · obtain ⟨r2, hr2, hcont2⟩ := ihe.mp ⟨r, h, hcont⟩
          exact ⟨r2, List.mem_cons_of_mem cur hr2, hcont2⟩
      · rintro ⟨r, hr, hcont⟩
        rcases List.mem_cons.mp hr with h | h
        · exact ⟨r, by simp [h], hcont⟩
        · obtain ⟨r2, hr2, hcont2⟩ := ihe.mpr ⟨r, h, hcont⟩
          exact ⟨r2, List.mem_cons_of_mem cur hr2, hcont2⟩

theorem normLoop_head_shape {T : Type} [DecidableEq T] :
    ∀ (rest : List (CharRange × T)) (cur : CharRange × T),
      ∃ s t', normLoop cur rest = (((⟨cur.1.start, s⟩ : CharRange), cur.2)) :: t' := by
  intro rest
  induction rest with
  | nil =>
    intro cur
    exact ⟨cur.1.stop, [], rfl⟩
  | cons e rest ih =>
    intro cur
    rw [normLoop]
    by_cases hc : e.1.start = cur.1.stop + 1 ∧ e.2 = cur.2
    · rw [if_pos hc]
      obtain ⟨s, t', ht⟩ := ih (⟨cur.1.start, e.1.stop⟩, cur.2)
      exact ⟨s, t', ht⟩
    · rw [if_neg hc]
      exact ⟨cur.1.stop, normLoop e rest, rfl⟩

theorem normLoop_noMerge {T : Type} [DecidableEq T] :
    ∀ (rest : List (CharRange × T)) (cur : CharRange × T),
      List.Chain' (fun a b => ¬(b.1.start = a.1.stop + 1 ∧ b.2 = a.2))
        (normLoop cur rest) := by
  intro rest
  induction rest with
  | nil =>
    intro cur
    rw [normLoop]
    exact List.chain'_singleton _
  | cons e rest ih =>
    intro cur
    rw [normLoop]
    by_cases hc : e.1.start = cur.1.stop + 1 ∧ e.2 = cur.2
    · rw [if_pos hc]
      exact ih _
    · rw [if_neg hc]
      rw [List.chain'_cons']
      refine ⟨?_, ih e⟩
      intro b hb
      obtain ⟨s, t', ht⟩ := normLoop_head_shape rest e
      rw [ht] at hb
      simp at hb
      subst hb
      simpa using hc

theorem normLoop_eq_self {T : Type} [DecidableEq T] :
    ∀ (rest : List (CharRange × T)) (cur : CharRange × T),
      List.Chain' (fun a b => ¬(b.1.start = a.1.stop + 1 ∧ b.2 = a.2)) (cur :: rest) →
      normLoop cur rest = cur :: rest := by
  intro rest
  induction rest with
  | nil => intro cur _; rw [normLoop]
  | cons e rest ih =>
    intro cur hch
    rw [List.chain'_cons] at hch
    rw [normLoop, if_neg hch.1]
    rw [ih e hch.2]

/-- C6: for a valid (sorted, non-overlapping, non-empty) `CharMap`,
`normalize` never changes the represented point-to-value mapping (`get` is
unchanged at every point), it is idempotent, and the spec's concrete
scenario normalizes as stated. -/
theorem claim_C6 {T : Type} [DecidableEq T] (m : CharMap T) (hv : rangesValid m.elts) :
    (∀ ch, (CharMap.normalize m).get ch = m.get ch) ∧
    CharMap.normalize (CharMap.normalize m) = CharMap.normalize m ∧
    CharMap.normalize
      ⟨[((⟨0, 3⟩ : CharRange), (0 : Nat)), (⟨5, 6⟩, 0), (⟨7, 9⟩, 0),
        (⟨15, 16⟩, 0), (⟨17, 20⟩, 1), (⟨21, 23⟩, 1)]⟩ =
      ⟨[(⟨0, 3⟩, 0), (⟨5, 9⟩, 0), (⟨15, 16⟩, 0), (⟨17, 23⟩, 1)]⟩ := by
  refine ⟨?_, ?_, by rfl⟩
  · intro ch
    rcases he : m.elts with _ | ⟨h, t⟩
    · have hm : m = ⟨[]⟩ := by cases m with | mk l => simp at he; simp [he]
      subst hm
      rfl
    · have hm : m = ⟨h :: t⟩ := by cases m with | mk l => simp at he; simp [he]
      subst hm
      show (CharMap.get ⟨normLoop h t⟩ ch) = CharMap.get ⟨h :: t⟩ ch
      exact CharMap.get_ext ⟨normLoop h t⟩ ⟨h :: t⟩
        (normLoop_valid t h hv) hv
        (fun ch v => normLoop_pointwise t h hv ch v) ch
  · rcases he : m.elts with _ | ⟨h, t⟩
    · have hm : m = ⟨[]⟩ := by cases m with | mk l => simp at he; simp [he]
      subst hm
      rfl
    · have hm : m = ⟨h :: t⟩ := by cases m with | mk l => simp at he; simp [he]
      subst hm
      show CharMap.normalize ⟨normLoop h t⟩ = ⟨normLoop h t⟩
      obtain ⟨s, t', ht⟩ := normLoop_head_shape t h
      rw [ht]
      have hred : CharMap.normalize (⟨((⟨h.1.start, s⟩ : CharRange), h.2) :: t'⟩ : CharMap T) =
          ⟨normLoop ((⟨h.1.start, s⟩ : CharRange), h.2) t'⟩ := rfl
      rw [hred]
      have hch := normLoop_noMerge t h
      rw [ht] at hch
      rw [normLoop_eq_self t' _ hch]

/-- Witness for C6 at the spec's concrete scenario map. -/
theorem claim_C6_witness :
    rangesValid ([((⟨0, 3⟩ : CharRange), (0 : Nat)), (⟨5, 6⟩, 0), (⟨7, 9⟩, 0),
        (⟨15, 16⟩, 0), (⟨17, 20⟩, 1), (⟨21, 23⟩, 1)]) ∧
    CharMap.normalize (CharMap.normalize
      (⟨[((⟨0, 3⟩ : CharRange), (0 : Nat)), (⟨5, 6⟩, 0), (⟨7, 9⟩, 0),
        (⟨15, 16⟩, 0), (⟨17, 20⟩, 1), (⟨21, 23⟩, 1)]⟩ : CharMap Nat)) =
      CharMap.normalize
      ⟨[((⟨0, 3⟩ : CharRange), (0 : Nat)), (⟨5, 6⟩, 0), (⟨7, 9⟩, 0),
        (⟨15, 16⟩, 0), (⟨17, 20⟩, 1), (⟨21, 23⟩, 1)]⟩ :=
  ⟨by decide,
    (claim_C6 ⟨[((⟨0, 3⟩ : CharRange), (0 : Nat)), (⟨5, 6⟩, 0), (⟨7, 9⟩, 0),
        (⟨15, 16⟩, 0), (⟨17, 20⟩, 1), (⟨21, 23⟩, 1)]⟩ (by decide)).2.1⟩

theorem cover_self {r : CharRange} (h : r.start ≤ r.stop) : r.cover r = r := by
  unfold CharRange.cover CharRange.isEmptyRange
  have : ¬ r.start > r.stop := by omega
  simp [this]

theorem cover_empty_left (r : CharRange) : ((⟨1, 0⟩ : CharRange)).cover r = r := by
  unfold CharRange.cover CharRange.isEmptyRange
  simp

theorem unionLoop_diag :
    ∀ (l : List (CharRange × Unit)), rangesValid l →
      ((∀ (cur : CharRange) (fuel : Nat), 2 * l.length + 1 ≤ fuel →
          cur.start ≤ cur.stop → (∀ f ∈ l, cur.stop < f.1.start) →
          CharSet.unionLoop fuel l l cur = (cur, ()) :: l) ∧
       (∀ (h : CharRange × Unit) (t : List (CharRange × Unit)) (fuel : Nat),
          l = h :: t → 2 * t.length + 2 ≤ fuel →
          CharSet.unionLoop fuel (h :: t) t h.1 = h :: t)) := by
  intro l
  induction l with
  | nil =>
    intro _
    constructor
    · intro cur fuel hf hcur _
      cases fuel with
      | zero => omega
      | succ f =>
        rw [CharSet.unionLoop]
        have hne : ¬ cur.isEmptyRange = true := by
          unfold CharRange.isEmptyRange; simp; omega
        simp [hne]
    · intro h t fuel hl _
      exact absurd hl (by simp)
  | cons h t ih =>
    intro hv
    have iht := ih (rangesValid_cons_tail hv)
    obtain ⟨hne, hlt⟩ := rangesValid_cons_head hv
    have hEmpF : h.1.isEmptyRange = false := by
      unfold CharRange.isEmptyRange; simp; omega
    have hM2 : ∀ (fuel : Nat), 2 * t.length + 2 ≤ fuel →
        CharSet.unionLoop fuel (h :: t) t h.1 = h :: t := by
      intro fuel hf
      cases fuel with
      | zero => omega
      | succ f =>
        rw [CharSet.unionLoop]
        cases t with
        | nil =>
          -- l2 is exhausted: consume h into cur, then exit with cur = h.1
          simp [CharSet.headStart, CharSet.headRange]
          rw [if_neg (by rintro ⟨-, h2, -⟩; omega :
            ¬(h.1.isEmptyRange = false ∧ h.1.stop < h.1.start ∧ h.1.stop < u32Max))]
          simp
          rw [cover_self hne]
          cases f with
          | zero => omega
          | succ f2 =>
            rw [CharSet.unionLoop]
            have hcne : ¬ h.1.isEmptyRange = true := by
              unfold CharRange.isEmptyRange; simp; omega
            simp [hcne]
        | cons e t2 =>
          have hes : h.1.stop < e.1.start := hlt e (List.mem_cons_self e t2)
          simp [CharSet.headStart, CharSet.headRange, hes]
          rw [if_pos (by omega : h.1.start < e.1.start)]
          rw [if_neg (by rintro ⟨-, h2⟩; omega :
            ¬(h.1.isEmptyRange = false ∧ h.1.stop < h.1.start))]
          simp
          rw [cover_self hne]
          rw [iht.1 h.1 f (by simp at hf ⊢; omega) hne
            (fun g hg => hlt g hg)]
    refine ⟨?_, fun h2 t2 fuel hl hf => by
      injection hl with hl1 hl2
      subst hl1; subst hl2
      exact hM2 fuel hf⟩
    intro cur fuel hf hcur hcurlt
    cases fuel with
    | zero => omega
    | succ f =>
      rw [CharSet.unionLoop]
      have hhs : cur.stop < h.1.start := hcurlt h (List.mem_cons_self h t)
      have hcEmpF : cur.isEmptyRange = false := by
        unfold CharRange.isEmptyRange; simp; omega
      simp [CharSet.headStart, CharSet.headRange]
      rw [if_pos (⟨hcEmpF, hhs⟩ : cur.isEmptyRange = false ∧ cur.stop < h.1.start)]
      simp
      rw [cover_empty_left]
      rw [hM2 f (by simp at hf ⊢; omega)]

theorem sortRanges_of_valid {T : Type} (l : List (CharRange × T)) (hv : rangesValid l) :
    CharMap.sortRanges l = l := by
  apply List.Sorted.insertionSort_eq
  exact List.Pairwise.imp_of_mem
    (fun ha _ h => Nat.le_of_lt (Nat.lt_of_le_of_lt (hv.1 _ ha) h)) hv.2

theorem sort_of_valid {T : Type} (l : List (CharRange × T)) (hv : rangesValid l) :
    CharMap.sort ⟨l⟩ = Except.ok ⟨l⟩ := by
  unfold CharMap.sort
  rw [show (⟨l⟩ : CharMap T).elts = l from rfl]
  rw [sortRanges_of_valid l hv]
  rw [if_neg ?_]
  rw [Bool.not_eq_true]
  rw [windowsViolation_false_iff]
  exact List.Pairwise.chain' hv.2

theorem fromVec_of_valid (v : List (CharRange × Unit)) (hv : rangesValid v) :
    CharSet.fromVec v = Except.ok ⟨⟨v⟩⟩ := by
  unfold CharSet.fromVec
  rw [sort_of_valid v hv]
  rfl

/-- C9: union is idempotent on valid sets: `A.union(A)` returns exactly `A`,
with the same sequence of ranges (adjacent-but-not-overlapping ranges stay
unmerged). -/
theorem claim_C9 (A : CharSet) (hv : rangesValid A.map.elts) :
    CharSet.union A A = Except.ok A := by
  unfold CharSet.union
  by_cases hemp : A.isEmptySet
  · rw [if_pos hemp]
  · rw [if_neg hemp, if_neg hemp]
    rcases he : A.map.elts with _ | ⟨h, t⟩
    · exfalso
      apply hemp
      unfold CharSet.isEmptySet CharMap.isEmptyMap
      rw [he]
      rfl
    · have hvl : rangesValid (h :: t) := by rw [← he]; exact hv
      obtain ⟨hne, hlt⟩ := rangesValid_cons_head hvl
      have hstep : CharSet.unionLoop ((h :: t).length + (h :: t).length + 1)
          (h :: t) (h :: t) ⟨1, 0⟩ = h :: t := by
        rw [CharSet.unionLoop]
        simp [CharSet.headStart, CharSet.headRange]
        rw [if_neg (by rintro ⟨h1, -⟩; exact absurd h1 (by decide) :
          ¬((⟨1, 0⟩ : CharRange).isEmptyRange = false ∧ 0 < h.1.start))]
        simp
        rw [cover_empty_left]
        exact (unionLoop_diag (h :: t) hvl).2 h t _ rfl (by omega)
      rw [hstep]
      rw [fromVec_of_valid (h :: t) hvl]
      congr 1
      cases A with
      | mk m =>
        cases m with
        | mk l => simp at he; rw [he]

/-- Witness for C9 at a set with adjacent (but not overlapping) ranges. -/
theorem claim_C9_witness :
    rangesValid ([((⟨1, 4⟩ : CharRange), ()), (⟨5, 6⟩, ())]) ∧
    CharSet.union ⟨⟨[((⟨1, 4⟩ : CharRange), ()), (⟨5, 6⟩, ())]⟩⟩
        ⟨⟨[((⟨1, 4⟩ : CharRange), ()), (⟨5, 6⟩, ())]⟩⟩ =
      Except.ok ⟨⟨[((⟨1, 4⟩ : CharRange), ()), (⟨5, 6⟩, ())]⟩⟩ :=
  ⟨by decide, claim_C9 ⟨⟨[((⟨1, 4⟩ : CharRange), ()), (⟨5, 6⟩, ())]⟩⟩ (by decide)⟩

theorem negLoop_restEmpty {l : List (CharRange × Unit)} {r : CharRange × Unit}
    (hv : rangesValid (r :: l)) (hb : rangesBounded (r :: l))
    (hm : r.1.stop = u32Max) : l = [] := by
  rcases l with _ | ⟨f, l2⟩
  · rfl
  · exfalso
    obtain ⟨-, hlt⟩ := rangesValid_cons_head hv
    have h1 := hlt f (List.mem_cons_self f l2)
    have h2 := (rangesValid_cons_tail hv).1 f (List.mem_cons_self f l2)
    have h3 := hb f (List.mem_cons_of_mem r (List.mem_cons_self f l2))
    omega

theorem negLoop_sub :
    ∀ (l : List (CharRange × Unit)) (le ch : Nat),
      rangesValid l → rangesBounded l → (∀ r ∈ l, le ≤ r.1.start) →
      inRanges (CharSet.negLoop l le) ch → le ≤ ch ∧ ¬ inRanges l ch := by
  intro l
  induction l with
  | nil =>
    intro le ch _ _ _ hin
    rw [CharSet.negLoop] at hin
    by_cases hle : le < u32Max
    · rw [if_pos hle] at hin
      obtain ⟨e, he, hc⟩ := hin
      simp at he
      subst he
      simp [CharRange.containsChar] at hc
      exact ⟨hc.1, inRanges_nil ch⟩
    · rw [if_neg hle] at hin
      exact absurd hin (inRanges_nil ch)
  | cons r rest ih =>
    intro le ch hv hb hlb hin
    obtain ⟨hrne, hrlt⟩ := rangesValid_cons_head hv
    have hrb : r.1.stop ≤ u32Max := hb r (List.mem_cons_self r rest)
    have hrecb : rangesBounded rest := fun f hf => hb f (List.mem_cons_of_mem r hf)
    have hreclb : ∀ f ∈ rest, satAdd1 r.1.stop ≤ f.1.start := by
      intro f hf
      have := hrlt f hf
      unfold satAdd1
      by_cases hm : r.1.stop < u32Max
      · omega
      · have hfb := hrecb f hf
        have hfne := (rangesValid_cons_tail hv).1 f hf
        omega
    rw [CharSet.negLoop] at hin
    rw [inRanges_append] at hin
    rcases hin with hgap | hrec
    · by_cases hg : r.1.start > le
      · rw [if_pos hg] at hgap
        obtain ⟨e, he, hc⟩ := hgap
        simp at he
        subst he
        simp [CharRange.containsChar] at hc
        refine ⟨hc.1, ?_⟩
        rw [inRanges_cons]
        rintro (h | ⟨f, hf, hcf⟩)
        · simp [CharRange.containsChar] at h
          omega
        · have := hrlt f hf
          simp [CharRange.containsChar] at hcf
          omega
      · rw [if_neg hg] at hgap
        exact absurd hgap (inRanges_nil ch)
    · have := ih (satAdd1 r.1.stop) ch (rangesValid_cons_tail hv) hrecb hreclb hrec
      obtain ⟨hle2, hnin⟩ := this
      by_cases hm : r.1.stop < u32Max
      · have hle' : satAdd1 r.1.stop = r.1.stop + 1 := by unfold satAdd1; omega
        rw [hle'] at hle2
        refine ⟨by have := hlb r (List.mem_cons_self r rest); omega, ?_⟩
        rw [inRanges_cons]
        rintro (h | h)
        · simp [CharRange.containsChar] at h
          omega
        · exact hnin h
      · have hmm : r.1.stop = u32Max := by omega
        have hrest : rest = [] := negLoop_restEmpty hv hb hmm
        subst hrest
        rw [CharSet.negLoop] at hrec
        have hsat : satAdd1 r.1.stop = u32Max := by unfold satAdd1; omega
        rw [hsat] at hrec
        rw [if_neg (by omega)] at hrec
        exact absurd hrec (inRanges_nil ch)

theorem negLoop_complete :
    ∀ (l : List (CharRange × Unit)) (le ch : Nat),
      rangesValid l → rangesBounded l → (∀ r ∈ l, le ≤ r.1.start) →
      le ≤ ch → ch < u32Max → ¬ inRanges l ch →
      inRanges (CharSet.negLoop l le) ch := by
  intro l
  induction l with
  | nil =>
    intro le ch _ _ _ hle hch _
    rw [CharSet.negLoop]
    rw [if_pos (by omega)]
    exact ⟨(⟨le, u32Max⟩, ()), by simp, by simp [CharRange.containsChar]; omega⟩
  | cons r rest ih =>
    intro le ch hv hb hlb hle hch hnin
    obtain ⟨hrne, hrlt⟩ := rangesValid_cons_head hv
    have hrb : r.1.stop ≤ u32Max := hb r (List.mem_cons_self r rest)
    have hrecb : rangesBounded rest := fun f hf => hb f (List.mem_cons_of_mem r hf)
    have hreclb : ∀ f ∈ rest, satAdd1 r.1.stop ≤ f.1.start := by
      intro f hf
      have := hrlt f hf
      unfold satAdd1
      by_cases hm : r.1.stop < u32Max
      · omega
      · have hfb := hrecb f hf
        have hfne := (rangesValid_cons_tail hv).1 f hf
        omega
    have hninr : ¬ (r.1.containsChar ch = true) := by
      intro h
      exact hnin ⟨r, List.mem_cons_self r rest, h⟩
    have hninrest : ¬ inRanges rest ch := by
      rintro ⟨f, hf, hcf⟩
      exact hnin ⟨f, List.mem_cons_of_mem r hf, hcf⟩
    simp [CharRange.containsChar] at hninr
    rw [CharSet.negLoop]
    rw [inRanges_append]
    by_cases hcase : ch < r.1.start
    · left
      rw [if_pos (by omega)]
      exact ⟨(⟨le, r.1.start - 1⟩, ()), by simp, by simp [CharRange.containsChar]; omega⟩
    · right
      have hgt : r.1.stop < ch := by omega
      have hsat : satAdd1 r.1.stop ≤ ch := by unfold satAdd1; omega
      exact ih (satAdd1 r.1.stop) ch (rangesValid_cons_tail hv) hrecb hreclb hsat hch hninrest

theorem negLoop_validB :
    ∀ (l : List (CharRange × Unit)) (le : Nat),
      rangesValid l → rangesBounded l → (∀ r ∈ l, le ≤ r.1.start) →
      rangesValid (CharSet.negLoop l le) ∧ rangesBounded (CharSet.negLoop l le) ∧
      (∀ g ∈ CharSet.negLoop l le, le ≤ g.1.start) := by
  intro l
  induction l with
  | nil =>
    intro le _ _ _
    rw [CharSet.negLoop]
    by_cases hle : le < u32Max
    · rw [if_pos hle]
      refine ⟨⟨?_, List.pairwise_singleton _ _⟩, ?_, ?_⟩
      · intro e he; simp at he; subst he; simp; omega
      · intro e he; simp at he; subst he; simp [u32Max]
      · intro e he; simp at he; subst he; simp
    · rw [if_neg hle]
      exact ⟨⟨by simp, List.Pairwise.nil⟩, by intro e he; simp at he, by intro e he; simp at he⟩
  | cons r rest ih =>
    intro le hv hb hlb
    obtain ⟨hrne, hrlt⟩ := rangesValid_cons_head hv
    have hrb : r.1.stop ≤ u32Max := hb r (List.mem_cons_self r rest)
    have hrle : le ≤ r.1.start := hlb r (List.mem_cons_self r rest)
    have hrecb : rangesBounded rest := fun f hf => hb f (List.mem_cons_of_mem r hf)
    have hreclb : ∀ f ∈ rest, satAdd1 r.1.stop ≤ f.1.start := by
      intro f hf
      have := hrlt f hf
      unfold satAdd1
      by_cases hm : r.1.stop < u32Max
      · omega
      · have hfb := hrecb f hf
        have hfne := (rangesValid_cons_tail hv).1 f hf
        omega
    obtain ⟨ihv, ihb, ihlb⟩ := ih (satAdd1 r.1.stop) (rangesValid_cons_tail hv) hrecb hreclb
    rw [CharSet.negLoop]
    by_cases hg : r.1.start > le
    · rw [if_pos hg]
      refine ⟨⟨?_, ?_⟩, ?_, ?_⟩
      · intro e he
        rcases List.mem_append.mp he with h | h
        · simp at h; subst h; simp; omega
        · exact ihv.1 e h
      · rw [List.pairwise_append]
        refine ⟨List.pairwise_singleton _ _, ihv.2, ?_⟩
        intro a ha b hb2
        simp at ha
        subst ha
        have := ihlb b hb2
        simp
        unfold satAdd1 at this
        omega
      · intro e he
        rcases List.mem_append.mp he with h | h
        · simp at h; subst h; simp; omega
        · exact ihb e h
      · intro e he
        rcases List.mem_append.mp he with h | h
        · simp at h; subst h; simp
        · have := ihlb e h
          unfold satAdd1 at this
          omega
    · rw [if_neg hg]
      rw [List.nil_append]
      refine ⟨ihv, ihb, ?_⟩
      intro e he
      have := ihlb e he
      unfold satAdd1 at this
      omega

theorem isEmptyRange_false_iff (r : CharRange) :
    r.isEmptyRange = false ↔ r.start ≤ r.stop := by
  unfold CharRange.isEmptyRange; simp

theorem cover_of_empty {cur : CharRange} (h : cur.isEmptyRange = true) (r : CharRange) :
    cur.cover r = r := by
  unfold CharRange.cover; rw [if_pos h]

theorem cover_nonempty_eq {cur r : CharRange} (hc : cur.isEmptyRange = false)
    (hr : r.start ≤ r.stop) :
    cur.cover r = ⟨min cur.start r.start, max cur.stop r.stop⟩ := by
  have hrne : r.isEmptyRange = false := (isEmptyRange_false_iff r).mpr hr
  unfold CharRange.cover
  rw [if_neg (by rw [hc]; simp), if_neg (by rw [hrne]; simp)]

theorem cover_nonempty_pointwise {cur r : CharRange} (hc : cur.isEmptyRange = false)
    (hr : r.start ≤ r.stop) (h1 : cur.start ≤ r.start) (h2 : r.start ≤ cur.stop) :
    (cur.cover r).isEmptyRange = false ∧ (cur.cover r).start = cur.start ∧
    (∀ ch, ((cur.cover r).containsChar ch = true ↔
      (cur.containsChar ch = true ∨ r.containsChar ch = true))) := by
  rw [cover_nonempty_eq hc hr]
  rw [isEmptyRange_false_iff] at hc ⊢
  simp only [CharRange.containsChar]
  refine ⟨by simp; omega, by simp; omega, ?_⟩
  intro ch
  simp
  omega

theorem unionLoop_cover :
    ∀ (fuel : Nat) (l1 l2 : List (CharRange × Unit)) (cur : CharRange),
      l1.length + l2.length < fuel →
      rangesValid l1 → rangesValid l2 → rangesBounded l1 → rangesBounded l2 →
      (cur.isEmptyRange = false →
        cur.start ≤ CharSet.headStart l1 ∧ cur.start ≤ CharSet.headStart l2) →
      ∀ ch, (inRanges (CharSet.unionLoop fuel l1 l2 cur) ch ↔
        (inRanges l1 ch ∨ inRanges l2 ch ∨
          (cur.isEmptyRange = false ∧ cur.containsChar ch = true))) := by
  intro fuel
  induction fuel with
  | zero => intro l1 l2 cur hf; omega
  | succ f ih =>
    intro l1 l2 cur hf hv1 hv2 hb1 hb2 hinv ch
    rw [CharSet.unionLoop]
    rcases l1 with _ | ⟨h1, t1⟩ <;> rcases l2 with _ | ⟨h2, t2⟩
    · -- both empty
      simp only [List.isEmpty_nil, Bool.and_self, if_pos]
      by_cases hc : cur.isEmptyRange
      · rw [if_pos hc]
        constructor
        · intro h; exact absurd h (inRanges_nil ch)
        · rintro (h | h | ⟨hcf, -⟩)
          · exact absurd h (inRanges_nil ch)
          · exact absurd h (inRanges_nil ch)
          · rw [hc] at hcf; exact absurd hcf (by simp)
      · rw [if_neg hc]
        rw [Bool.not_eq_true] at hc
        constructor
        · intro h
          rw [inRanges_cons] at h
          rcases h with h | h
          · exact Or.inr (Or.inr ⟨hc, h⟩)
          · exact absurd h (inRanges_nil ch)
        · rintro (h | h | ⟨-, hcf⟩)
          · exact absurd h (inRanges_nil ch)
          · exact absurd h (inRanges_nil ch)
          · rw [inRanges_cons]; exact Or.inl hcf
    · -- l1 = [], l2 = h2 :: t2 : always the else branch (consume l2)
      obtain ⟨h2ne, h2lt⟩ := rangesValid_cons_head hv2
      have h2b : h2.1.stop ≤ u32Max := hb2 h2 (List.mem_cons_self h2 t2)
      simp only [List.isEmpty_nil, List.isEmpty_cons, Bool.and_false, Bool.false_and,
        if_neg, Bool.false_eq_true, not_false_iff]
      simp only [CharSet.headStart, CharSet.headRange]
      have hbr : ¬ ((decide (u32Max < h2.1.start) || false) = true) := by
        simp
        omega
      rw [if_neg hbr]
      have hrecArgs : rangesValid t2 ∧ rangesBounded t2 := by
        exact ⟨rangesValid_cons_tail hv2, fun e he => hb2 e (List.mem_cons_of_mem h2 he)⟩
      have ht2lb : ∀ e ∈ t2, h2.1.start < e.1.start := by
        intro e he
        exact Nat.lt_of_le_of_lt h2ne (h2lt e he)
      have hinvStep : ∀ (c : CharRange), c.isEmptyRange = false → c.start ≤ h2.1.start →
          c.start ≤ CharSet.headStart ([] : List (CharRange × Unit)) ∧
            c.start ≤ CharSet.headStart t2 := by
        intro c _ hcs
        refine ⟨by simp [CharSet.headStart]; omega, ?_⟩
        cases t2 with
        | nil => simp [CharSet.headStart]; omega
        | cons e t3 =>
          simp only [CharSet.headStart]
          exact Nat.le_trans hcs (Nat.le_of_lt (ht2lb e (List.mem_cons_self e t3)))
      have h2nemp : h2.1.isEmptyRange = false := (isEmptyRange_false_iff _).mpr h2ne
      by_cases hc : cur.isEmptyRange
      · -- cur empty: no flush, cover gives h2.1
        have hfl : ¬ ((!cur.isEmptyRange &&
            decide (min u32Max h2.1.start > cur.stop)) = true) := by
          rw [hc]; simp
        rw [if_neg hfl]
        simp only [List.nil_append]
        rw [cover_of_empty hc]
        have hrec := ih [] t2 h2.1 (by simp at hf ⊢; omega)
          ⟨by simp, List.Pairwise.nil⟩ hrecArgs.1
          (by intro e he; simp at he) hrecArgs.2
          (fun hne => hinvStep h2.1 hne (Nat.le_refl _)) ch
        rw [List.tail_cons, hrec, inRanges_cons]
        constructor
        · rintro (h | h | ⟨-, h⟩)
          · exact absurd h (inRanges_nil ch)
          · exact Or.inr (Or.inl (Or.inr h))
          · exact Or.inr (Or.inl (Or.inl h))
        · rintro (h | h | ⟨hne, -⟩)
          · exact absurd h (inRanges_nil ch)
          · rcases h with h | h
            · exact Or.inr (Or.inr ⟨h2nemp, h⟩)
            · exact Or.inr (Or.inl h)
          · rw [hc] at hne; exact absurd hne (by simp)
      · -- cur nonempty
        rw [Bool.not_eq_true] at hc
        have hcur2 : cur.start ≤ h2.1.start := (hinv hc).2
        by_cases hmin : min u32Max h2.1.start > cur.stop
        · -- flush
          have hfl : ((!cur.isEmptyRange &&
              decide (min u32Max h2.1.start > cur.stop)) = true) := by
            rw [hc]; simp; omega
          rw [if_pos hfl]
          simp only [List.cons_append, List.nil_append]
          rw [cover_empty_left]
          have hrec := ih [] t2 h2.1 (by simp at hf ⊢; omega)
            ⟨by simp, List.Pairwise.nil⟩ hrecArgs.1
            (by intro e he; simp at he) hrecArgs.2
            (fun hne => hinvStep h2.1 hne (Nat.le_refl _)) ch
          rw [List.tail_cons, inRanges_cons, hrec, inRanges_cons]
          constructor
          · rintro (h | h | h | ⟨-, h⟩)
            · exact Or.inr (Or.inr ⟨hc, h⟩)
            · exact absurd h (inRanges_nil ch)
            · exact Or.inr (Or.inl (Or.inr h))
            · exact Or.inr (Or.inl (Or.inl h))
          · rintro (h | h | ⟨-, h⟩)
            · exact absurd h (inRanges_nil ch)
            · rcases h with h | h
              · exact Or.inr (Or.inr (Or.inr ⟨h2nemp, h⟩))
              · exact Or.inr (Or.inr (Or.inl h))
            · exact Or.inl h
        · -- no flush: h2 is merged into cur
          have hfl : ¬ ((!cur.isEmptyRange &&
              decide (min u32Max h2.1.start > cur.stop)) = true) := by
            rw [hc]; simp; omega
          rw [if_neg hfl]
          simp only [List.nil_append]
          have hstart : h2.1.start ≤ cur.stop := by omega
          obtain ⟨hcov1, hcov2, hcov3⟩ := cover_nonempty_pointwise hc h2ne hcur2 hstart
          have hrec := ih [] t2 (cur.cover h2.1) (by simp at hf ⊢; omega)
            ⟨by simp, List.Pairwise.nil⟩ hrecArgs.1
            (by intro e he; simp at he) hrecArgs.2
            (fun _ => by rw [hcov2]; exact hinvStep cur hc hcur2) ch
          rw [List.tail_cons, hrec, inRanges_cons]
          constructor
          · rintro (h | h | ⟨-, h⟩)
            · exact absurd h (inRanges_nil ch)
            · exact Or.inr (Or.inl (Or.inr h))
            · rcases (hcov3 ch).mp h with h | h
              · exact Or.inr (Or.inr ⟨hc, h⟩)
              · exact Or.inr (Or.inl (Or.inl h))
          · rintro (h | h | ⟨-, h⟩)
            · exact absurd h (inRanges_nil ch)
            · rcases h with h | h
              · exact Or.inr (Or.inr ⟨hcov1, (hcov3 ch).mpr (Or.inr h)⟩)
              · exact Or.inr (Or.inl h)
            · exact Or.inr (Or.inr ⟨hcov1, (hcov3 ch).mpr (Or.inl h)⟩)
    · -- l1 = h1 :: t1, l2 = [] : always the then branch (consume l1)
      obtain ⟨h1ne, h1lt⟩ := rangesValid_cons_head hv1
      have h1b : h1.1.stop ≤ u32Max := hb1 h1 (List.mem_cons_self h1 t1)
      simp only [List.isEmpty_nil, List.isEmpty_cons, Bool.and_false, Bool.false_and,
        if_neg, Bool.false_eq_true, not_false_iff]
      simp only [CharSet.headStart, CharSet.headRange]
      rw [if_pos (by simp : (decide (h1.1.start < u32Max) || true) = true)]
      have hrecArgs : rangesValid t1 ∧ rangesBounded t1 :=
        ⟨rangesValid_cons_tail hv1, fun e he => hb1 e (List.mem_cons_of_mem h1 he)⟩
      have ht1lb : ∀ e ∈ t1, h1.1.start < e.1.start := by
        intro e he
        exact Nat.lt_of_le_of_lt h1ne (h1lt e he)
      have hinvStep : ∀ (c : CharRange), c.isEmptyRange = false → c.start ≤ h1.1.start →
          c.start ≤ CharSet.headStart t1 ∧
            c.start ≤ CharSet.headStart ([] : List (CharRange × Unit)) := by
        intro c _ hcs
        refine ⟨?_, by simp [CharSet.headStart]; omega⟩
        cases t1 with
        | nil => simp [CharSet.headStart]; omega
        | cons e t3 =>
          simp only [CharSet.headStart]
          exact Nat.le_trans hcs (Nat.le_of_lt (ht1lb e (List.mem_cons_self e t3)))
      have h1nemp : h1.1.isEmptyRange = false := (isEmptyRange_false_iff _).mpr h1ne
      by_cases hc : cur.isEmptyRange
      · have hfl : ¬ ((!cur.isEmptyRange &&
            decide (min h1.1.start u32Max > cur.stop)) = true) := by
          rw [hc]; simp
        rw [if_neg hfl]
        simp only [List.nil_append]
        rw [cover_of_empty hc]
        have hrec := ih t1 [] h1.1 (by simp at hf ⊢; omega)
          hrecArgs.1 ⟨by simp, List.Pairwise.nil⟩
          hrecArgs.2 (by intro e he; simp at he)
          (fun hne => hinvStep h1.1 hne (Nat.le_refl _)) ch
        rw [List.tail_cons, hrec, inRanges_cons]
        constructor
        · rintro (h | h | ⟨-, h⟩)
          · exact Or.inl (Or.inr h)
          · exact absurd h (inRanges_nil ch)
          · exact Or.inl (Or.inl h)
        · rintro (h | h | ⟨hne, -⟩)
          · rcases h with h | h
            · exact Or.inr (Or.inr ⟨h1nemp, h⟩)
            · exact Or.inl h
          · exact absurd h (inRanges_nil ch)
          · rw [hc] at hne; exact absurd hne (by simp)
      · rw [Bool.not_eq_true] at hc
        have hcur1 : cur.start ≤ h1.1.start := (hinv hc).1
        by_cases hmin : min h1.1.start u32Max > cur.stop
        · have hfl : ((!cur.isEmptyRange &&
              decide (min h1.1.start u32Max > cur.stop)) = true) := by
            rw [hc]; simp; omega
          rw [if_pos hfl]
          simp only [List.cons_append, List.nil_append]
          rw [cover_empty_left]
          have hrec := ih t1 [] h1.1 (by simp at hf ⊢; omega)
            hrecArgs.1 ⟨by simp, List.Pairwise.nil⟩
            hrecArgs.2 (by intro e he; simp at he)
            (fun hne => hinvStep h1.1 hne (Nat.le_refl _)) ch
          rw [List.tail_cons, inRanges_cons, hrec, inRanges_cons]
          constructor
          · rintro (h | h | h | ⟨-, h⟩)
            · exact Or.inr (Or.inr ⟨hc, h⟩)
            · exact Or.inl (Or.inr h)
            · exact absurd h (inRanges_nil ch)
            · exact Or.inl (Or.inl h)
          · rintro (h | h | ⟨-, h⟩)
            · rcases h with h | h
              · exact Or.inr (Or.inr (Or.inr ⟨h1nemp, h⟩))
              · exact Or.inr (Or.inl h)
            · exact absurd h (inRanges_nil ch)
            · exact Or.inl h
        · have hfl : ¬ ((!cur.isEmptyRange &&
              decide (min h1.1.start u32Max > cur.stop)) = true) := by
            rw [hc]; simp; omega
          rw [if_neg hfl]
          simp only [List.nil_append]
          have hstart : h1.1.start ≤ cur.stop := by omega
          obtain ⟨hcov1, hcov2, hcov3⟩ := cover_nonempty_pointwise hc h1ne hcur1 hstart
          have hrec := ih t1 [] (cur.cover h1.1) (by simp at hf ⊢; omega)
            hrecArgs.1 ⟨by simp, List.Pairwise.nil⟩
            hrecArgs.2 (by intro e he; simp at he)
            (fun _ => by rw [hcov2]; exact hinvStep cur hc hcur1) ch
          rw [List.tail_cons, hrec, inRanges_cons]
          constructor
          · rintro (h | h | ⟨-, h⟩)
            · exact Or.inl (Or.inr h)
            · exact absurd h (inRanges_nil ch)
            · rcases (hcov3 ch).mp h with h | h
              · exact Or.inr (Or.inr ⟨hc, h⟩)
              · exact Or.inl (Or.inl h)
          · rintro (h | h | ⟨-, h⟩)
            · rcases h with h | h
              · exact Or.inr (Or.inr ⟨hcov1, (hcov3 ch).mpr (Or.inr h)⟩)
              · exact Or.inl h
            · exact absurd h (inRanges_nil ch)
            · exact Or.inr (Or.inr ⟨hcov1, (hcov3 ch).mpr (Or.inl h)⟩)
    · -- both non-empty
      obtain ⟨h1ne, h1lt⟩ := rangesValid_cons_head hv1
      obtain ⟨h2ne, h2lt⟩ := rangesValid_cons_head hv2
      have h1b : h1.1.stop ≤ u32Max := hb1 h1 (List.mem_cons_self h1 t1)
      have h2b : h2.1.stop ≤ u32Max := hb2 h2 (List.mem_cons_self h2 t2)
      simp only [List.isEmpty_cons, Bool.false_and, if_neg, Bool.false_eq_true,
        not_false_iff]
      simp only [CharSet.headStart, CharSet.headRange]
      have hrecArgs1 : rangesValid t1 ∧ rangesBounded t1 :=
        ⟨rangesValid_cons_tail hv1, fun e he => hb1 e (List.mem_cons_of_mem h1 he)⟩
      have hrecArgs2 : rangesValid t2 ∧ rangesBounded t2 :=
        ⟨rangesValid_cons_tail hv2, fun e he => hb2 e (List.mem_cons_of_mem h2 he)⟩
      have h1nemp : h1.1.isEmptyRange = false := (isEmptyRange_false_iff _).mpr h1ne
      have h2nemp : h2.1.isEmptyRange = false := (isEmptyRange_false_iff _).mpr h2ne
      by_cases hbr : h1.1.start < h2.1.start
      · -- consume l1
        rw [if_pos (by simp [hbr] : (decide (h1.1.start < h2.1.start) || false) = true)]
        have hinvStep : ∀ (c : CharRange), c.isEmptyRange = false → c.start ≤ h1.1.start →
            c.start ≤ CharSet.headStart t1 ∧ c.start ≤ CharSet.headStart (h2 :: t2) := by
          intro c _ hcs
          refine ⟨?_, by simp only [CharSet.headStart]; omega⟩
          cases t1 with
          | nil => simp [CharSet.headStart]; omega
          | cons e t3 =>
            simp only [CharSet.headStart]
            have := h1lt e (List.mem_cons_self e t3)
            omega
        by_cases hc : cur.isEmptyRange
        · have hfl : ¬ ((!cur.isEmptyRange &&
              decide (min h1.1.start h2.1.start > cur.stop)) = true) := by
            rw [hc]; simp
          rw [if_neg hfl]
          simp only [List.nil_append]
          rw [cover_of_empty hc]
          have hrec := ih t1 (h2 :: t2) h1.1 (by simp at hf ⊢; omega)
            hrecArgs1.1 hv2 hrecArgs1.2 hb2
            (fun hne => hinvStep h1.1 hne (Nat.le_refl _)) ch
          rw [List.tail_cons, hrec, inRanges_cons h1 t1 ch]
          constructor
          · rintro (h | h | ⟨-, h⟩)
            · exact Or.inl (Or.inr h)
            · exact Or.inr (Or.inl h)
            · exact Or.inl (Or.inl h)
          · rintro (h | h | ⟨hne, -⟩)
            · rcases h with h | h
              · exact Or.inr (Or.inr ⟨h1nemp, h⟩)
              · exact Or.inl h
            · exact Or.inr (Or.inl h)
            · rw [hc] at hne; exact absurd hne (by simp)
        · rw [Bool.not_eq_true] at hc
          have hcur1 : cur.start ≤ h1.1.start := (hinv hc).1
          by_cases hmin : min h1.1.start h2.1.start > cur.stop
          · have hfl : ((!cur.isEmptyRange &&
                decide (min h1.1.start h2.1.start > cur.stop)) = true) := by
              rw [hc]; simp; omega
            rw [if_pos hfl]
            simp only [List.cons_append, List.nil_append]
            rw [cover_empty_left]
            have hrec := ih t1 (h2 :: t2) h1.1 (by simp at hf ⊢; omega)
              hrecArgs1.1 hv2 hrecArgs1.2 hb2
              (fun hne => hinvStep h1.1 hne (Nat.le_refl _)) ch
            rw [List.tail_cons, inRanges_cons (cur, ()), hrec, inRanges_cons h1 t1 ch]
            constructor
            · rintro (h | h | h | ⟨-, h⟩)
              · exact Or.inr (Or.inr ⟨hc, h⟩)
              · exact Or.inl (Or.inr h)
              · exact Or.inr (Or.inl h)
              · exact Or.inl (Or.inl h)
            · rintro (h | h | ⟨-, h⟩)
              · rcases h with h | h
                · exact Or.inr (Or.inr (Or.inr ⟨h1nemp, h⟩))
                · exact Or.inr (Or.inl h)
              · exact Or.inr (Or.inr (Or.inl h))
              · exact Or.inl h
          · have hfl : ¬ ((!cur.isEmptyRange &&
                decide (min h1.1.start h2.1.start > cur.stop)) = true) := by
              rw [hc]; simp; omega
            rw [if_neg hfl]
            simp only [List.nil_append]
            have hstart : h1.1.start ≤ cur.stop := by omega
            obtain ⟨hcov1, hcov2, hcov3⟩ := cover_nonempty_pointwise hc h1ne hcur1 hstart
            have hrec := ih t1 (h2 :: t2) (cur.cover h1.1) (by simp at hf ⊢; omega)
              hrecArgs1.1 hv2 hrecArgs1.2 hb2
              (fun _ => by rw [hcov2]; exact hinvStep cur hc hcur1) ch
            rw [List.tail_cons, hrec, inRanges_cons h1 t1 ch]
            constructor
            · rintro (h | h | ⟨-, h⟩)
              · exact Or.inl (Or.inr h)
              · exact Or.inr (Or.inl h)
              · rcases (hcov3 ch).mp h with h | h
                · exact Or.inr (Or.inr ⟨hc, h⟩)
                · exact Or.inl (Or.inl h)
            · rintro (h | h | ⟨-, h⟩)
              · rcases h with h | h
                · exact Or.inr (Or.inr ⟨hcov1, (hcov3 ch).mpr (Or.inr h)⟩)
                · exact Or.inl h
              · exact Or.inr (Or.inl h)
              · exact Or.inr (Or.inr ⟨hcov1, (hcov3 ch).mpr (Or.inl h)⟩)
      · -- consume l2
        rw [if_neg (by simp [hbr] : ¬ ((decide (h1.1.start < h2.1.start) || false) = true))]
        have hs21 : h2.1.start ≤ h1.1.start := by omega
        have hinvStep : ∀ (c : CharRange), c.isEmptyRange = false → c.start ≤ h2.1.start →
            c.start ≤ CharSet.headStart (h1 :: t1) ∧ c.start ≤ CharSet.headStart t2 := by
          intro c _ hcs
          refine ⟨by simp only [CharSet.headStart]; omega, ?_⟩
          cases t2 with
          | nil => simp [CharSet.headStart]; omega
          | cons e t3 =>
            simp only [CharSet.headStart]
            have := h2lt e (List.mem_cons_self e t3)
            omega
        by_cases hc : cur.isEmptyRange
        · have hfl : ¬ ((!cur.isEmptyRange &&
              decide (min h1.1.start h2.1.start > cur.stop)) = true) := by
            rw [hc]; simp
          rw [if_neg hfl]
          simp only [List.nil_append]
          rw [cover_of_empty hc]
          have hrec := ih (h1 :: t1) t2 h2.1 (by simp at hf ⊢; omega)
            hv1 hrecArgs2.1 hb1 hrecArgs2.2
            (fun hne => hinvStep h2.1 hne (Nat.le_refl _)) ch
          rw [List.tail_cons, hrec, inRanges_cons h2 t2 ch]
          constructor
          · rintro (h | h | ⟨-, h⟩)
            · exact Or.inl h
            · exact Or.inr (Or.inl (Or.inr h))
            · exact Or.inr (Or.inl (Or.inl h))
          · rintro (h | h | ⟨hne, -⟩)
            · exact Or.inl h
            · rcases h with h | h
              · exact Or.inr (Or.inr ⟨h2nemp, h⟩)
              · exact Or.inr (Or.inl h)
            · rw [hc] at hne; exact absurd hne (by simp)
        · rw [Bool.not_eq_true] at hc
          have hcur2 : cur.start ≤ h2.1.start := by
            have := (hinv hc).2
            simp only [CharSet.headStart] at this
            exact this
          by_cases hmin : min h1.1.start h2.1.start > cur.stop
          · have hfl : ((!cur.isEmptyRange &&
                decide (min h1.1.start h2.1.start > cur.stop)) = true) := by
              rw [hc]; simp; omega
            rw [if_pos hfl]
            simp only [List.cons_append, List.nil_append]
            rw [cover_empty_left]
            have hrec := ih (h1 :: t1) t2 h2.1 (by simp at hf ⊢; omega)
              hv1 hrecArgs2.1 hb1 hrecArgs2.2
              (fun hne => hinvStep h2.1 hne (Nat.le_refl _)) ch
            rw [List.tail_cons, inRanges_cons (cur, ()), hrec, inRanges_cons h2 t2 ch]
            constructor
            · rintro (h | h | h | ⟨-, h⟩)
              · exact Or.inr (Or.inr ⟨hc, h⟩)
              · exact Or.inl h
              · exact Or.inr (Or.inl (Or.inr h))
              · exact Or.inr (Or.inl (Or.inl h))
            · rintro (h | h | ⟨-, h⟩)
              · exact Or.inr (Or.inl h)
              · rcases h with h | h
                · exact Or.inr (Or.inr (Or.inr ⟨h2nemp, h⟩))
                · exact Or.inr (Or.inr (Or.inl h))
              · exact Or.inl h
          · have hfl : ¬ ((!cur.isEmptyRange &&
                decide (min h1.1.start h2.1.start > cur.stop)) = true) := by
              rw [hc]; simp; omega
            rw [if_neg hfl]
            simp only [List.nil_append]
            have hstart : h2.1.start ≤ cur.stop := by omega
            obtain ⟨hcov1, hcov2, hcov3⟩ := cover_nonempty_pointwise hc h2ne hcur2 hstart
            have hrec := ih (h1 :: t1) t2 (cur.cover h2.1) (by simp at hf ⊢; omega)
              hv1 hrecArgs2.1 hb1 hrecArgs2.2
              (fun _ => by rw [hcov2]; exact hinvStep cur hc hcur2) ch
            rw [List.tail_cons, hrec, inRanges_cons h2 t2 ch]
            constructor
            · rintro (h | h | ⟨-, h⟩)
              · exact Or.inl h
              · exact Or.inr (Or.inl (Or.inr h))
              · rcases (hcov3 ch).mp h with h | h
                · exact Or.inr (Or.inr ⟨hc, h⟩)
                · exact Or.inr (Or.inl (Or.inl h))
            · rintro (h | h | ⟨-, h⟩)
              · exact Or.inl h
              · rcases h with h | h
                · exact Or.inr (Or.inr ⟨hcov1, (hcov3 ch).mpr (Or.inr h)⟩)
                · exact Or.inr (Or.inl h)
              · exact Or.inr (Or.inr ⟨hcov1, (hcov3 ch).mpr (Or.inl h)⟩)

theorem unionLoop_validB :
    ∀ (fuel : Nat) (l1 l2 : List (CharRange × Unit)) (cur : CharRange),
      l1.length + l2.length < fuel →
      rangesValid l1 → rangesValid l2 → rangesBounded l1 → rangesBounded l2 →
      (cur.isEmptyRange = false →
        cur.start ≤ CharSet.headStart l1 ∧ cur.start ≤ CharSet.headStart l2 ∧
        cur.start ≤ cur.stop ∧ cur.stop ≤ u32Max) →
      rangesValid (CharSet.unionLoop fuel l1 l2 cur) ∧
      rangesBounded (CharSet.unionLoop fuel l1 l2 cur) ∧
      (cur.isEmptyRange = false →
        ∀ g ∈ CharSet.unionLoop fuel l1 l2 cur, cur.start ≤ g.1.start) := by
  intro fuel
  induction fuel with
  | zero => intro l1 l2 cur hf; omega
  | succ f ih =>
    intro l1 l2 cur hf hv1 hv2 hb1 hb2 hinv
    rw [CharSet.unionLoop]
    rcases l1 with _ | ⟨h1, t1⟩ <;> rcases l2 with _ | ⟨h2, t2⟩
    · -- both empty: exit
      simp only [List.isEmpty_nil, Bool.and_self, if_pos]
      by_cases hc : cur.isEmptyRange
      · rw [if_pos hc]
        exact ⟨⟨by simp, List.Pairwise.nil⟩, by intro e he; simp at he,
          fun hne => by rw [hc] at hne; exact absurd hne (by simp)⟩
      · rw [if_neg hc]
        rw [Bool.not_eq_true] at hc
        obtain ⟨-, -, hcne, hcb⟩ := hinv hc
        refine ⟨⟨?_, List.pairwise_singleton _ _⟩, ?_, ?_⟩
        · intro e he; simp at he; subst he; exact hcne
        · intro e he; simp at he; subst he; exact hcb
        · intro _ g hg; simp at hg; subst hg; exact Nat.le_refl _
    · -- l1 = [], consume l2
      obtain ⟨h2ne, h2lt⟩ := rangesValid_cons_head hv2
      have h2b : h2.1.stop ≤ u32Max := hb2 h2 (List.mem_cons_self h2 t2)
      simp only [List.isEmpty_nil, List.isEmpty_cons, Bool.and_false, Bool.false_and,
        if_neg, Bool.false_eq_true, not_false_iff]
      simp only [CharSet.headStart, CharSet.headRange]
      have hbr : ¬ ((decide (u32Max < h2.1.start) || false) = true) := by
        simp; omega
      rw [if_neg hbr]
      have hrv : rangesValid t2 := rangesValid_cons_tail hv2
      have hrb : rangesBounded t2 := fun e he => hb2 e (List.mem_cons_of_mem h2 he)
      have ht2lb : ∀ e ∈ t2, h2.1.start < e.1.start :=
        fun e he => Nat.lt_of_le_of_lt h2ne (h2lt e he)
      have hinvStep : ∀ (c : CharRange), c.isEmptyRange = false →
          c.start ≤ h2.1.start → c.stop ≤ u32Max → c.start ≤ c.stop →
          (c.start ≤ CharSet.headStart ([] : List (CharRange × Unit)) ∧
            c.start ≤ CharSet.headStart t2 ∧ c.start ≤ c.stop ∧ c.stop ≤ u32Max) := by
        intro c _ hcs hcb hcne
        refine ⟨by simp [CharSet.headStart]; omega, ?_, hcne, hcb⟩
        cases t2 with
        | nil => simp [CharSet.headStart]; omega
        | cons e t3 =>
          simp only [CharSet.headStart]
          have := ht2lb e (List.mem_cons_self e t3)
          omega
      have h2nemp : h2.1.isEmptyRange = false := (isEmptyRange_false_iff _).mpr h2ne
      by_cases hc : cur.isEmptyRange
      · have hfl : ¬ ((!cur.isEmptyRange &&
            decide (min u32Max h2.1.start > cur.stop)) = true) := by rw [hc]; simp
        rw [if_neg hfl]
        simp only [List.nil_append]
        rw [cover_of_empty hc]
        have hrec := ih [] t2 h2.1 (by simp at hf ⊢; omega)
          ⟨by simp, List.Pairwise.nil⟩ hrv (by intro e he; simp at he) hrb
          (fun hne => hinvStep h2.1 hne (Nat.le_refl _) h2b h2ne)
        rw [List.tail_cons]
        exact ⟨hrec.1, hrec.2.1,
          fun hne => by rw [hc] at hne; exact absurd hne (by simp)⟩
      · rw [Bool.not_eq_true] at hc
        obtain ⟨-, hcur2, hcne, hcb⟩ := hinv hc
        simp only [CharSet.headStart] at hcur2
        by_cases hmin : min u32Max h2.1.start > cur.stop
        · have hfl : ((!cur.isEmptyRange &&
              decide (min u32Max h2.1.start > cur.stop)) = true) := by
            rw [hc]; simp; omega
          rw [if_pos hfl]
          simp only [List.cons_append, List.nil_append]
          rw [cover_empty_left]
          have hrec := ih [] t2 h2.1 (by simp at hf ⊢; omega)
            ⟨by simp, List.Pairwise.nil⟩ hrv (by intro e he; simp at he) hrb
            (fun hne => hinvStep h2.1 hne (Nat.le_refl _) h2b h2ne)
          rw [List.tail_cons]
          have hlbrec := hrec.2.2 h2nemp
          refine ⟨rangesValid_cons_intro hcne ?_ hrec.1, ?_, ?_⟩
          · intro g hg
            have := hlbrec g hg
            show cur.stop < g.1.start
            omega
          · intro e he
            rcases List.mem_cons.mp he with h | h
            · subst h; exact hcb
            · exact hrec.2.1 e h
          · intro _ g hg
            rcases List.mem_cons.mp hg with h | h
            · subst h; exact Nat.le_refl _
            · have := hlbrec g h
              omega
        · have hfl : ¬ ((!cur.isEmptyRange &&
              decide (min u32Max h2.1.start > cur.stop)) = true) := by
            rw [hc]; simp; omega
          rw [if_neg hfl]
          simp only [List.nil_append]
          have hstart : h2.1.start ≤ cur.stop := by omega
          obtain ⟨hcov1, hcov2, -⟩ := cover_nonempty_pointwise hc h2ne hcur2 hstart
          have hcovstop : (cur.cover h2.1).stop = max cur.stop h2.1.stop := by
            rw [cover_nonempty_eq hc h2ne]
          have hrec := ih [] t2 (cur.cover h2.1) (by simp at hf ⊢; omega)
            ⟨by simp, List.Pairwise.nil⟩ hrv (by intro e he; simp at he) hrb
            (fun _ => by
              rw [hcov2, hcovstop]
              have hx := hinvStep cur hc hcur2 hcb hcne
              refine ⟨hx.1, hx.2.1, by omega, by omega⟩)
          rw [List.tail_cons]
          refine ⟨hrec.1, hrec.2.1, ?_⟩
          intro _ g hg
          have := hrec.2.2 hcov1 g hg
          rw [hcov2] at this
          exact this
    · -- l2 = [], consume l1
      obtain ⟨h1ne, h1lt⟩ := rangesValid_cons_head hv1
      have h1b : h1.1.stop ≤ u32Max := hb1 h1 (List.mem_cons_self h1 t1)
      simp only [List.isEmpty_nil, List.isEmpty_cons, Bool.and_false, Bool.false_and,
        if_neg, Bool.false_eq_true, not_false_iff]
      simp only [CharSet.headStart, CharSet.headRange]
      rw [if_pos (by simp : (decide (h1.1.start < u32Max) || true) = true)]
      have hrv : rangesValid t1 := rangesValid_cons_tail hv1
      have hrb : rangesBounded t1 := fun e he => hb1 e (List.mem_cons_of_mem h1 he)
      have ht1lb : ∀ e ∈ t1, h1.1.start < e.1.start :=
        fun e he => Nat.lt_of_le_of_lt h1ne (h1lt e he)
      have hinvStep : ∀ (c : CharRange), c.isEmptyRange = false →
          c.start ≤ h1.1.start → c.stop ≤ u32Max → c.start ≤ c.stop →
          (c.start ≤ CharSet.headStart t1 ∧
            c.start ≤ CharSet.headStart ([] : List (CharRange × Unit)) ∧
            c.start ≤ c.stop ∧ c.stop ≤ u32Max) := by
        intro c _ hcs hcb hcne
        refine ⟨?_, by simp [CharSet.headStart]; omega, hcne, hcb⟩
        cases t1 with
        | nil => simp [CharSet.headStart]; omega
        | cons e t3 =>
          simp only [CharSet.headStart]
          have := ht1lb e (List.mem_cons_self e t3)
          omega
      have h1nemp : h1.1.isEmptyRange = false := (isEmptyRange_false_iff _).mpr h1ne
      by_cases hc : cur.isEmptyRange
      · have hfl : ¬ ((!cur.isEmptyRange &&
            decide (min h1.1.start u32Max > cur.stop)) = true) := by rw [hc]; simp
        rw [if_neg hfl]
        simp only [List.nil_append]
        rw [cover_of_empty hc]
        have hrec := ih t1 [] h1.1 (by simp at hf ⊢; omega)
          hrv ⟨by simp, List.Pairwise.nil⟩ hrb (by intro e he; simp at he)
          (fun hne => hinvStep h1.1 hne (Nat.le_refl _) h1b h1ne)
        rw [List.tail_cons]
        exact ⟨hrec.1, hrec.2.1,
          fun hne => by rw [hc] at hne; exact absurd hne (by simp)⟩
      · rw [Bool.not_eq_true] at hc
        obtain ⟨hcur1, -, hcne, hcb⟩ := hinv hc
        simp only [CharSet.headStart] at hcur1
        by_cases hmin : min h1.1.start u32Max > cur.stop
        · have hfl : ((!cur.isEmptyRange &&
              decide (min h1.1.start u32Max > cur.stop)) = true) := by
            rw [hc]; simp; omega
          rw [if_pos hfl]
          simp only [List.cons_append, List.nil_append]
          rw [cover_empty_left]
          have hrec := ih t1 [] h1.1 (by simp at hf ⊢; omega)
            hrv ⟨by simp, List.Pairwise.nil⟩ hrb (by intro e he; simp at he)
            (fun hne => hinvStep h1.1 hne (Nat.le_refl _) h1b h1ne)
          rw [List.tail_cons]
          have hlbrec := hrec.2.2 h1nemp
          refine ⟨rangesValid_cons_intro hcne ?_ hrec.1, ?_, ?_⟩
          · intro g hg
            have := hlbrec g hg
            show cur.stop < g.1.start
            omega
          · intro e he
            rcases List.mem_cons.mp he with h | h
            · subst h; exact hcb
            · exact hrec.2.1 e h
          · intro _ g hg
            rcases List.mem_cons.mp hg with h | h
            · subst h; exact Nat.le_refl _
            · have := hlbrec g h
              omega
        · have hfl : ¬ ((!cur.isEmptyRange &&
              decide (min h1.1.start u32Max > cur.stop)) = true) := by
            rw [hc]; simp; omega
          rw [if_neg hfl]
          simp only [List.nil_append]
          have hstart : h1.1.start ≤ cur.stop := by omega
          obtain ⟨hcov1, hcov2, -⟩ := cover_nonempty_pointwise hc h1ne hcur1 hstart
          have hcovstop : (cur.cover h1.1).stop = max cur.stop h1.1.stop := by
            rw [cover_nonempty_eq hc h1ne]
          have hrec := ih t1 [] (cur.cover h1.1) (by simp at hf ⊢; omega)
            hrv ⟨by simp, List.Pairwise.nil⟩ hrb (by intro e he; simp at he)
            (fun _ => by
              rw [hcov2, hcovstop]
              have hx := hinvStep cur hc hcur1 hcb hcne
              refine ⟨hx.1, hx.2.1, by omega, by omega⟩)
          rw [List.tail_cons]
          refine ⟨hrec.1, hrec.2.1, ?_⟩
          intro _ g hg
          have := hrec.2.2 hcov1 g hg
          rw [hcov2] at this
          exact this
    · -- both non-empty
      obtain ⟨h1ne, h1lt⟩ := rangesValid_cons_head hv1
      obtain ⟨h2ne, h2lt⟩ := rangesValid_cons_head hv2
      have h1b : h1.1.stop ≤ u32Max := hb1 h1 (List.mem_cons_self h1 t1)
      have h2b : h2.1.stop ≤ u32Max := hb2 h2 (List.mem_cons_self h2 t2)
      simp only [List.isEmpty_cons, Bool.false_and, if_neg, Bool.false_eq_true,
        not_false_iff]
      simp only [CharSet.headStart, CharSet.headRange]
      have hrv1 : rangesValid t1 := rangesValid_cons_tail hv1
      have hrv2 : rangesValid t2 := rangesValid_cons_tail hv2
      have hrb1 : rangesBounded t1 := fun e he => hb1 e (List.mem_cons_of_mem h1 he)
      have hrb2 : rangesBounded t2 := fun e he => hb2 e (List.mem_cons_of_mem h2 he)
      have h1nemp : h1.1.isEmptyRange = false := (isEmptyRange_false_iff _).mpr h1ne
      have h2nemp : h2.1.isEmptyRange = false := (isEmptyRange_false_iff _).mpr h2ne
      by_cases hbr : h1.1.start < h2.1.start
      · rw [if_pos (by simp [hbr] : (decide (h1.1.start < h2.1.start) || false) = true)]
        have hinvStep : ∀ (c : CharRange), c.isEmptyRange = false →
            c.start ≤ h1.1.start → c.stop ≤ u32Max → c.start ≤ c.stop →
            (c.start ≤ CharSet.headStart t1 ∧ c.start ≤ CharSet.headStart (h2 :: t2) ∧
              c.start ≤ c.stop ∧ c.stop ≤ u32Max) := by
          intro c _ hcs hcb hcne
          refine ⟨?_, by simp only [CharSet.headStart]; omega, hcne, hcb⟩
          cases t1 with
          | nil => simp [CharSet.headStart]; omega
          | cons e t3 =>
            simp only [CharSet.headStart]
            have := h1lt e (List.mem_cons_self e t3)
            omega
        by_cases hc : cur.isEmptyRange
        · have hfl : ¬ ((!cur.isEmptyRange &&
              decide (min h1.1.start h2.1.start > cur.stop)) = true) := by rw [hc]; simp
          rw [if_neg hfl]
          simp only [List.nil_append]
          rw [cover_of_empty hc]
          have hrec := ih t1 (h2 :: t2) h1.1 (by simp at hf ⊢; omega)
            hrv1 hv2 hrb1 hb2
            (fun hne => hinvStep h1.1 hne (Nat.le_refl _) h1b h1ne)
          rw [List.tail_cons]
          exact ⟨hrec.1, hrec.2.1,
            fun hne => by rw [hc] at hne; exact absurd hne (by simp)⟩
        · rw [Bool.not_eq_true] at hc
          obtain ⟨hcur1, hcur2, hcne, hcb⟩ := hinv hc
          simp only [CharSet.headStart] at hcur1 hcur2
          by_cases hmin : min h1.1.start h2.1.start > cur.stop
          · have hfl : ((!cur.isEmptyRange &&
                decide (min h1.1.start h2.1.start > cur.stop)) = true) := by
              rw [hc]; simp; omega
            rw [if_pos hfl]
            simp only [List.cons_append, List.nil_append]
            rw [cover_empty_left]
            have hrec := ih t1 (h2 :: t2) h1.1 (by simp at hf ⊢; omega)
              hrv1 hv2 hrb1 hb2
              (fun hne => hinvStep h1.1 hne (Nat.le_refl _) h1b h1ne)
            rw [List.tail_cons]
            have hlbrec := hrec.2.2 h1nemp
            refine ⟨rangesValid_cons_intro hcne ?_ hrec.1, ?_, ?_⟩
            · intro g hg
              have := hlbrec g hg
              show cur.stop < g.1.start
              omega
            · intro e he
              rcases List.mem_cons.mp he with h | h
              · subst h; exact hcb
              · exact hrec.2.1 e h
            · intro _ g hg
              rcases List.mem_cons.mp hg with h | h
              · subst h; exact Nat.le_refl _
              · have := hlbrec g h
                omega
          · have hfl : ¬ ((!cur.isEmptyRange &&
                decide (min h1.1.start h2.1.start > cur.stop)) = true) := by
              rw [hc]; simp; omega
            rw [if_neg hfl]
            simp only [List.nil_append]
            have hstart : h1.1.start ≤ cur.stop := by omega
            obtain ⟨hcov1, hcov2, -⟩ := cover_nonempty_pointwise hc h1ne hcur1 hstart
            have hcovstop : (cur.cover h1.1).stop = max cur.stop h1.1.stop := by
              rw [cover_nonempty_eq hc h1ne]
            have hrec := ih t1 (h2 :: t2) (cur.cover h1.1) (by simp at hf ⊢; omega)
              hrv1 hv2 hrb1 hb2
              (fun _ => by
                rw [hcov2, hcovstop]
                have hx := hinvStep cur hc hcur1 hcb hcne
                refine ⟨hx.1, hx.2.1, by omega, by omega⟩)
            rw [List.tail_cons]
            refine ⟨hrec.1, hrec.2.1, ?_⟩
            intro _ g hg
            have := hrec.2.2 hcov1 g hg
            rw [hcov2] at this
            exact this
      · rw [if_neg (by simp [hbr] : ¬ ((decide (h1.1.start < h2.1.start) || false) = true))]
        have hs21 : h2.1.start ≤ h1.1.start := by omega
        have hinvStep : ∀ (c : CharRange), c.isEmptyRange = false →
            c.start ≤ h2.1.start → c.stop ≤ u32Max → c.start ≤ c.stop →
            (c.start ≤ CharSet.headStart (h1 :: t1) ∧ c.start ≤ CharSet.headStart t2 ∧
              c.start ≤ c.stop ∧ c.stop ≤ u32Max) := by
          intro c _ hcs hcb hcne
          refine ⟨by simp only [CharSet.headStart]; omega, ?_, hcne, hcb⟩
          cases t2 with
          | nil => simp [CharSet.headStart]; omega
          | cons e t3 =>
            simp only [CharSet.headStart]
            have := h2lt e (List.mem_cons_self e t3)
            omega
        by_cases hc : cur.isEmptyRange
        · have hfl : ¬ ((!cur.isEmptyRange &&
              decide (min h1.1.start h2.1.start > cur.stop)) = true) := by rw [hc]; simp
          rw [if_neg hfl]
          simp only [List.nil_append]
          rw [cover_of_empty hc]
          have hrec := ih (h1 :: t1) t2 h2.1 (by simp at hf ⊢; omega)
            hv1 hrv2 hb1 hrb2
            (fun hne => hinvStep h2.1 hne (Nat.le_refl _) h2b h2ne)
          rw [List.tail_cons]
          exact ⟨hrec.1, hrec.2.1,
            fun hne => by rw [hc] at hne; exact absurd hne (by simp)⟩
        · rw [Bool.not_eq_true] at hc
          obtain ⟨hcur1, hcur2, hcne, hcb⟩ := hinv hc
          simp only [CharSet.headStart] at hcur1 hcur2
          by_cases hmin : min h1.1.start h2.1.start > cur.stop
          · have hfl : ((!cur.isEmptyRange &&
                decide (min h1.1.start h2.1.start > cur.stop)) = true) := by
              rw [hc]; simp; omega
            rw [if_pos hfl]
            simp only [List.cons_append, List.nil_append]
            rw [cover_empty_left]
            have hrec := ih (h1 :: t1) t2 h2.1 (by simp at hf ⊢; omega)
              hv1 hrv2 hb1 hrb2
              (fun hne => hinvStep h2.1 hne (Nat.le_refl _) h2b h2ne)
            rw [List.tail_cons]
            have hlbrec := hrec.2.2 h2nemp
            refine ⟨rangesValid_cons_intro hcne ?_ hrec.1, ?_, ?_⟩
            · intro g hg
              have := hlbrec g hg
              show cur.stop < g.1.start
              omega
            · intro e he
              rcases List.mem_cons.mp he with h | h
              · subst h; exact hcb
              · exact hrec.2.1 e h
            · intro _ g hg
              rcases List.mem_cons.mp hg with h | h
              · subst h; exact Nat.le_refl _
              · have := hlbrec g h
                omega
          · have hfl : ¬ ((!cur.isEmptyRange &&
                decide (min h1.1.start h2.1.start > cur.stop)) = true) := by
              rw [hc]; simp; omega
            rw [if_neg hfl]
            simp only [List.nil_append]
            have hstart : h2.1.start ≤ cur.stop := by omega
            obtain ⟨hcov1, hcov2, -⟩ := cover_nonempty_pointwise hc h2ne hcur2 hstart
            have hcovstop : (cur.cover h2.1).stop = max cur.stop h2.1.stop := by
              rw [cover_nonempty_eq hc h2ne]
            have hrec := ih (h1 :: t1) t2 (cur.cover h2.1) (by simp at hf ⊢; omega)
              hv1 hrv2 hb1 hrb2
              (fun _ => by
                rw [hcov2, hcovstop]
                have hx := hinvStep cur hc hcur2 hcb hcne
                refine ⟨hx.1, hx.2.1, by omega, by omega⟩)
            rw [List.tail_cons]
            refine ⟨hrec.1, hrec.2.1, ?_⟩
            intro _ g hg
            have := hrec.2.2 hcov1 g hg
            rw [hcov2] at this
            exact this

theorem interInner_no_overlap {T : Type} (r : CharRange) (d : T) :
    ∀ (l2 : List (CharRange × Unit)),
      (∀ s ∈ l2, ¬(s.1.stop ≥ r.start ∧ s.1.start ≤ r.stop)) →
      (interInner r d l2).1 = [] ∧ ∀ x ∈ (interInner r d l2).2, x ∈ l2 := by
  intro l2
  induction l2 with
  | nil => intro _; exact ⟨rfl, fun x hx => hx⟩
  | cons s tail ih =>
    intro hno
    rcases s with ⟨sr, su⟩
    rw [interInner]
    have hns : ¬(sr.stop ≥ r.start ∧ sr.start ≤ r.stop) :=
      hno (sr, su) (List.mem_cons_self _ _)
    simp only [if_neg hns]
    by_cases hs : sr.stop ≥ r.stop
    · rw [if_pos hs]
      exact ⟨rfl, fun x hx => hx⟩
    · rw [if_neg hs]
      have := ih (fun s2 hs2 => hno s2 (List.mem_cons_of_mem _ hs2))
      rcases hrec : interInner r d tail with ⟨e2, rest⟩
      rw [hrec] at this
      have h1 : e2 = [] := this.1
      have h2 : ∀ x ∈ rest, x ∈ tail := this.2
      simp only []
      refine ⟨by rw [h1]; rfl, ?_⟩
      intro x hx
      exact List.mem_cons_of_mem _ (h2 x hx)

theorem interGo_no_overlap {T : Type} :
    ∀ (l1 : List (CharRange × T)) (l2 : List (CharRange × Unit)),
      (∀ e ∈ l1, ∀ s ∈ l2, ¬(s.1.stop ≥ e.1.start ∧ s.1.start ≤ e.1.stop)) →
      interGo l1 l2 = [] := by
  intro l1
  induction l1 with
  | nil => intro l2 _; rfl
  | cons e rs ih =>
    intro l2 hno
    rcases e with ⟨r, d⟩
    rw [interGo]
    have hinner := interInner_no_overlap r d l2
      (fun s hs => hno (r, d) (List.mem_cons_self _ _) s hs)
    rcases hrec : interInner r d l2 with ⟨em, rest⟩
    rw [hrec] at hinner
    have h1 : em = [] := hinner.1
    have h2 : ∀ x ∈ rest, x ∈ l2 := hinner.2
    simp only []
    rw [h1, List.nil_append]
    exact ih rest (fun e2 he2 s hs => hno e2 (List.mem_cons_of_mem _ he2) s (h2 s hs))

theorem negated_disjoint (A : CharSet) (hv : rangesValid A.map.elts)
    (hb : rangesBounded A.map.elts) :
    ∀ e ∈ A.map.elts, ∀ s ∈ (CharSet.negated A).map.elts,
      ¬(s.1.stop ≥ e.1.start ∧ s.1.start ≤ e.1.stop) := by
  intro e he s hs
  rintro ⟨hh1, hh2⟩
  obtain ⟨hnv, -, -⟩ := negLoop_validB A.map.elts 0 hv hb (fun r _ => Nat.zero_le _)
  have hsne : s.1.start ≤ s.1.stop := hnv.1 s hs
  have hene : e.1.start ≤ e.1.stop := hv.1 e he
  have hchs : s.1.containsChar (max e.1.start s.1.start) = true := by
    simp [CharRange.containsChar]; omega
  have hche : e.1.containsChar (max e.1.start s.1.start) = true := by
    simp [CharRange.containsChar]; omega
  have hneg : inRanges (CharSet.negLoop A.map.elts 0) (max e.1.start s.1.start) :=
    ⟨s, hs, hchs⟩
  obtain ⟨-, hnot⟩ := negLoop_sub A.map.elts 0 (max e.1.start s.1.start) hv hb
    (fun r _ => Nat.zero_le _) hneg
  exact hnot ⟨e, he, hche⟩

/-- C2 counterexample: for `A = {0 ..= u32::MAX - 1}`, `A.negated()` is the
empty set (the final tail push is skipped because `last_end` saturates to
`u32::MAX`), so `A.union(A.negated())` is just `A` and does NOT contain the
code point `u32::MAX`, contradicting the claim that the union covers every
code point from 0 through `u32::MAX`. -/
theorem claim_C2_counterexample :
    CharSet.negated ⟨⟨[((⟨0, 4294967294⟩ : CharRange), ())]⟩⟩ = ⟨⟨[]⟩⟩ ∧
    CharSet.union ⟨⟨[((⟨0, 4294967294⟩ : CharRange), ())]⟩⟩
        (CharSet.negated ⟨⟨[((⟨0, 4294967294⟩ : CharRange), ())]⟩⟩) =
      Except.ok ⟨⟨[((⟨0, 4294967294⟩ : CharRange), ())]⟩⟩ ∧
    CharSet.contains ⟨⟨[((⟨0, 4294967294⟩ : CharRange), ())]⟩⟩ u32Max = false :=
  ⟨rfl, rfl, by decide⟩

/-- C2 (amended): for every valid `CharSet` `A`, `A.union(A.negated())`
succeeds and contains every code point strictly below `u32::MAX` (the point
`u32::MAX` itself can be missed: see the counterexample), and
`A.intersect(A.negated())` is the empty set. -/
theorem claim_C2 (A : CharSet) (hv : rangesValid A.map.elts)
    (hb : rangesBounded A.map.elts) :
    (∃ u, CharSet.union A (CharSet.negated A) = Except.ok u ∧
      ∀ ch, ch < u32Max → u.contains ch = true) ∧
    (CharSet.intersect A (CharSet.negated A)).map.elts = [] := by
  obtain ⟨hnv, hnb, -⟩ := negLoop_validB A.map.elts 0 hv hb (fun r _ => Nat.zero_le _)
  have hnegE : (CharSet.negated A).map.elts = CharSet.negLoop A.map.elts 0 := rfl
  constructor
  · unfold CharSet.union
    by_cases hemp : A.isEmptySet
    · rw [if_pos hemp]
      refine ⟨CharSet.negated A, rfl, ?_⟩
      intro ch hch
      have hAe : A.map.elts = [] := by
        unfold CharSet.isEmptySet CharMap.isEmptyMap at hemp
        exact List.isEmpty_iff.mp hemp
      have hin : inRanges (CharSet.negLoop A.map.elts 0) ch := by
        apply negLoop_complete A.map.elts 0 ch hv hb (fun r _ => Nat.zero_le _)
          (Nat.zero_le _) hch
        rw [hAe]
        exact inRanges_nil ch
      unfold CharSet.contains
      exact (CharMap.get_isSome_iff (CharSet.negated A).map (by rw [hnegE]; exact hnv)
        ch).mpr (by rw [hnegE]; exact hin)
    · rw [if_neg hemp]
      by_cases hnemp : (CharSet.negated A).isEmptySet
      · rw [if_pos hnemp]
        refine ⟨A, rfl, ?_⟩
        intro ch hch
        have hnege : (CharSet.negated A).map.elts = [] := by
          unfold CharSet.isEmptySet CharMap.isEmptyMap at hnemp
          exact List.isEmpty_iff.mp hnemp
        have hin : inRanges A.map.elts ch := by
          by_contra hcon
          have := negLoop_complete A.map.elts 0 ch hv hb (fun r _ => Nat.zero_le _)
            (Nat.zero_le _) hch hcon
          rw [← hnegE, hnege] at this
          exact inRanges_nil ch this
        unfold CharSet.contains
        exact (CharMap.get_isSome_iff A.map hv ch).mpr hin
      · rw [if_neg hnemp]
        have hfuel : A.map.elts.length + (CharSet.negated A).map.elts.length <
            A.map.elts.length + (CharSet.negated A).map.elts.length + 1 := by omega
        have hcurinv : ((⟨1, 0⟩ : CharRange)).isEmptyRange = true := by decide
        obtain ⟨hov, hob, -⟩ := unionLoop_validB
          (A.map.elts.length + (CharSet.negated A).map.elts.length + 1)
          A.map.elts (CharSet.negated A).map.elts ⟨1, 0⟩ hfuel hv
          (by rw [hnegE]; exact hnv) hb (by rw [hnegE]; exact hnb)
          (by intro hcon; rw [hcurinv] at hcon; exact absurd hcon (by simp))
        rw [fromVec_of_valid _ hov]
        refine ⟨_, rfl, ?_⟩
        intro ch hch
        have hcov := unionLoop_cover
          (A.map.elts.length + (CharSet.negated A).map.elts.length + 1)
          A.map.elts (CharSet.negated A).map.elts ⟨1, 0⟩ hfuel hv
          (by rw [hnegE]; exact hnv) hb (by rw [hnegE]; exact hnb)
          (by intro hcon; rw [hcurinv] at hcon; exact absurd hcon (by simp)) ch
        have hin : inRanges (CharSet.unionLoop
            (A.map.elts.length + (CharSet.negated A).map.elts.length + 1)
            A.map.elts (CharSet.negated A).map.elts ⟨1, 0⟩) ch := by
          rw [hcov]
          by_cases hA : inRanges A.map.elts ch
          · exact Or.inl hA
          · refine Or.inr (Or.inl ?_)
            rw [hnegE]
            exact negLoop_complete A.map.elts 0 ch hv hb (fun r _ => Nat.zero_le _)
              (Nat.zero_le _) hch hA
        unfold CharSet.contains
        exact (CharMap.get_isSome_iff _ hov ch).mpr hin
  · show interGo A.map.elts (CharSet.negated A).map.elts = []
    exact interGo_no_overlap A.map.elts (CharSet.negated A).map.elts
      (fun e he s hs => negated_disjoint A hv hb e he s hs)

/-- Witness for C2 at the concrete set `{5 ..= 10}`. -/
theorem claim_C2_witness :
    rangesValid [((⟨5, 10⟩ : CharRange), ())] ∧
    ((∃ u, CharSet.union ⟨⟨[((⟨5, 10⟩ : CharRange), ())]⟩⟩
        (CharSet.negated ⟨⟨[((⟨5, 10⟩ : CharRange), ())]⟩⟩) = Except.ok u ∧
      ∀ ch, ch < u32Max → u.contains ch = true) ∧
    (CharSet.intersect ⟨⟨[((⟨5, 10⟩ : CharRange), ())]⟩⟩
        (CharSet.negated ⟨⟨[((⟨5, 10⟩ : CharRange), ())]⟩⟩)).map.elts = []) :=
  ⟨by decide, claim_C2 ⟨⟨[((⟨5, 10⟩ : CharRange), ())]⟩⟩ (by decide) (by decide)⟩

theorem exceptLoop_spec :
    ∀ (chars : List Nat) (na n0 : Nat),
      List.Pairwise (fun a b => a < b) chars → (∀ c ∈ chars, c ≤ u32Max) →
      (∀ c ∈ chars, na ≤ c) → chars ≠ [] →
      ∃ ret n, CharSet.exceptLoop chars na n0 = Except.ok (ret, n) ∧
        n ∈ chars ∧ (∀ c ∈ chars, c ≤ n) ∧
        rangesValid ret ∧ rangesBounded ret ∧
        (∀ g ∈ ret, na ≤ g.1.start ∧ g.1.stop < n) ∧
        (∀ ch, inRanges ret ch ↔ (na ≤ ch ∧ ch < n ∧ ch ∉ chars)) := by
  intro chars
  induction chars with
  | nil => intro na n0 _ _ _ hne; exact absurd rfl hne
  | cons c rest ih =>
    intro na n0 hsort hbd hlb _
    have hna : na ≤ c := hlb c (List.mem_cons_self c rest)
    have hcb : c ≤ u32Max := hbd c (List.mem_cons_self c rest)
    have hlt : ∀ d ∈ rest, c < d := (List.pairwise_cons.mp hsort).1
    have gapSpec : rangesValid (if c > na then
          [((⟨na, c - 1⟩ : CharRange), ())] else []) ∧
        rangesBounded (if c > na then [((⟨na, c - 1⟩ : CharRange), ())] else []) ∧
        (∀ g ∈ (if c > na then [((⟨na, c - 1⟩ : CharRange), ())] else []),
          na ≤ g.1.start ∧ g.1.stop < c) ∧
        (∀ ch, inRanges (if c > na then [((⟨na, c - 1⟩ : CharRange), ())] else []) ch ↔
          (na ≤ ch ∧ ch < c)) := by
      by_cases hg : c > na
      · rw [if_pos hg]
        refine ⟨⟨?_, List.pairwise_singleton _ _⟩, ?_, ?_, ?_⟩
        · intro e he; simp at he; subst he; simp; omega
        · intro e he; simp at he; subst he; simp; omega
        · intro g hg2; simp at hg2; subst hg2; simp; omega
        · intro ch
          constructor
          · rintro ⟨e, he, hce⟩
            simp at he; subst he
            simp [CharRange.containsChar] at hce
            omega
          · rintro ⟨hh1, hh2⟩
            exact ⟨(⟨na, c - 1⟩, ()), by simp, by simp [CharRange.containsChar]; omega⟩
      · rw [if_neg hg]
        refine ⟨⟨by simp, List.Pairwise.nil⟩, by intro e he; simp at he,
          by intro g hg2; simp at hg2, ?_⟩
        intro ch
        constructor
        · intro h; exact absurd h (inRanges_nil ch)
        · rintro ⟨hh1, hh2⟩; omega
    rcases rest with _ | ⟨d, rest2⟩
    · -- last character
      refine ⟨(if c > na then [((⟨na, c - 1⟩ : CharRange), ())] else []), c, ?_, by simp,
        by intro e he; simp at he; omega, gapSpec.1, gapSpec.2.1, gapSpec.2.2.1, ?_⟩
      · rw [CharSet.exceptLoop]
        rw [if_neg (by omega : ¬ c < na)]
        by_cases hcm : c < u32Max
        · rw [if_pos hcm]
          rw [CharSet.exceptLoop]
          simp
        · rw [if_neg hcm]
      · intro ch
        rw [gapSpec.2.2.2 ch]
        constructor
        · rintro ⟨hh1, hh2⟩
          exact ⟨hh1, hh2, by simp; omega⟩
        · rintro ⟨hh1, hh2, -⟩
          exact ⟨hh1, hh2⟩
    · -- more characters follow: c < u32Max
      have hdb : d ≤ u32Max := hbd d (by simp)
      have hcd : c < d := hlt d (by simp)
      have hcm : c < u32Max := by omega
      obtain ⟨ret2, n2, hrec, hn2, hub2, hv2, hb2, hgb2, hcov2⟩ :=
        ih (c + 1) c (List.pairwise_cons.mp hsort).2
          (fun e he => hbd e (List.mem_cons_of_mem c he))
          (fun e he => hlt e he) (by simp)
      have hcn2 : c < n2 := hlt n2 hn2
      refine ⟨(if c > na then [((⟨na, c - 1⟩ : CharRange), ())] else []) ++ ret2, n2,
        ?_, by simp [hn2], ?_, ?_, ?_, ?_, ?_⟩
      · rw [CharSet.exceptLoop]
        rw [if_neg (by omega : ¬ c < na)]
        rw [if_pos hcm, hrec]
      · intro e he
        rcases List.mem_cons.mp he with h | h
        · subst h; omega
        · exact hub2 e h
      · refine ⟨?_, ?_⟩
        · intro e he
          rcases List.mem_append.mp he with h | h
          · exact (gapSpec.1).1 e h
          · exact hv2.1 e h
        · rw [List.pairwise_append]
          refine ⟨(gapSpec.1).2, hv2.2, ?_⟩
          intro a ha b hb
          have h1 := gapSpec.2.2.1 a ha
          have h2 := hgb2 b hb
          omega
      · intro e he
        rcases List.mem_append.mp he with h | h
        · exact (gapSpec.2.1) e h
        · exact hb2 e h
      · intro g hg
        rcases List.mem_append.mp hg with h | h
        · have := gapSpec.2.2.1 g h
          omega
        · have := hgb2 g h
          omega
      · intro ch
        rw [inRanges_append, gapSpec.2.2.2 ch, hcov2 ch]
        have hmemiff : ch ∉ (c :: d :: rest2) ↔ (ch ≠ c ∧ ch ∉ (d :: rest2)) := by
          rw [List.mem_cons]
          tauto
        constructor
        · rintro (⟨hh1, hh2⟩ | ⟨hh1, hh2, hh3⟩)
          · refine ⟨hh1, by omega, hmemiff.mpr ⟨by omega, ?_⟩⟩
            intro hmem
            have := hlt ch hmem
            omega
          · exact ⟨by omega, hh2, hmemiff.mpr ⟨by omega, hh3⟩⟩
        · rintro ⟨hh1, hh2, hh3⟩
          rcases hmemiff.mp hh3 with ⟨hne, hnin⟩
          by_cases hchc : ch < c
          · exact Or.inl ⟨hh1, hchc⟩
          · exact Or.inr ⟨by omega, hh2, hnin⟩

/-- C7: for a strictly increasing list of code points, `CharSet::except`
returns a set containing exactly the code points that are not listed
(`0..=u32::MAX` minus the given ones), and `except("")` equals
`CharSet::full()`. -/
theorem claim_C7 (chars : List Nat) (hsort : List.Pairwise (fun a b => a < b) chars)
    (hbd : ∀ c ∈ chars, c ≤ u32Max) :
    (∃ cs, CharSet.except chars = Except.ok cs ∧
      ∀ ch, ch ≤ u32Max → (cs.contains ch = true ↔ ch ∉ chars)) ∧
    CharSet.except [] = CharSet.full := by
  refine ⟨?_, rfl⟩
  rcases chars with _ | ⟨c, rest⟩
  · refine ⟨⟨⟨[(CharRange.full, ())]⟩⟩, rfl, ?_⟩
    intro ch hch
    constructor
    · intro _; simp
    · intro _
      unfold CharSet.contains
      apply (CharMap.get_isSome_iff _ (by decide) ch).mpr
      refine ⟨(CharRange.full, ()), by simp, ?_⟩
      simp [CharRange.containsChar, CharRange.full]
      exact hch
  · obtain ⟨ret, n, hloop, hn, hub, hv, hb, hgb, hcov⟩ :=
      exceptLoop_spec (c :: rest) 0 0 hsort hbd (fun e _ => Nat.zero_le _) (by simp)
    have hnb : n ≤ u32Max := hbd n hn
    unfold CharSet.except
    rw [if_neg (by simp)]
    rw [hloop]
    have htail : rangesValid (ret ++ (if n < u32Max
          then [((⟨n + 1, u32Max⟩ : CharRange), ())] else [])) := by
      refine ⟨?_, ?_⟩
      · intro e he
        rcases List.mem_append.mp he with h | h
        · exact hv.1 e h
        · by_cases hm : n < u32Max
          · rw [if_pos hm] at h
            simp at h; subst h; simp; omega
          · rw [if_neg hm] at h
            simp at h
      · rw [List.pairwise_append]
        refine ⟨hv.2, ?_, ?_⟩
        · by_cases hm : n < u32Max
          · rw [if_pos hm]; exact List.pairwise_singleton _ _
          · rw [if_neg hm]; exact List.Pairwise.nil
        · intro a ha b hbm
          by_cases hm : n < u32Max
          · rw [if_pos hm] at hbm
            simp at hbm; subst hbm
            have := hgb a ha
            simp
            omega
          · rw [if_neg hm] at hbm
            simp at hbm
    refine ⟨_, fromVec_of_valid _ htail, ?_⟩
    intro ch hch
    unfold CharSet.contains
    rw [CharMap.get_isSome_iff _ htail ch]
    rw [inRanges_append, hcov ch]
    constructor
    · rintro (⟨-, -, hnin⟩ | hin)
      · exact hnin
      · intro hmem
        have hle := hub ch hmem
        by_cases hm : n < u32Max
        · rw [if_pos hm] at hin
          obtain ⟨e, he, hce⟩ := hin
          simp at he; subst he
          simp [CharRange.containsChar] at hce
          omega
        · rw [if_neg hm] at hin
          exact inRanges_nil ch hin
    · intro hnin
      rcases Nat.lt_trichotomy ch n with h | h | h
      · exact Or.inl ⟨Nat.zero_le _, h, hnin⟩
      · subst h; exact absurd hn hnin
      · right
        have hm : n < u32Max := by omega
        rw [if_pos hm]
        exact ⟨(⟨n + 1, u32Max⟩, ()), by simp, by simp [CharRange.containsChar]; omega⟩

/-- Witness for C7 at the spec's `except("\n\r")` scenario (code points 10
and 13). -/
theorem claim_C7_witness :
    List.Pairwise (fun a b => a < b) [10, 13] ∧
    (∃ cs, CharSet.except [10, 13] = Except.ok cs ∧
      ∀ ch, ch ≤ u32Max → (cs.contains ch = true ↔ ch ∉ ([10, 13] : List Nat))) :=
  ⟨by decide, (claim_C7 [10, 13] (by decide) (by decide)).1⟩

/-- Strictly sorted lists have strictly monotone entries. -/
theorem sortedNat_get_lt {B : List Nat} (hs : List.Pairwise (fun a b => a < b) B)
    {i j : Nat} (hi : i < B.length) (hj : j < B.length) (hij : i < j) :
    B[i] < B[j] :=
  (List.pairwise_iff_getElem.mp hs) i j hi hj hij

/-- One-step unfolding of the boundary binary search on a non-empty window. -/
theorem natBsearchGo_succ (l : List Nat) (x fuel left right : Nat) (h : left < right) :
    natBsearchGo l x (fuel + 1) left right =
      match compare (l.getD ((left + right) / 2) 0) x with
      | .lt => natBsearchGo l x fuel ((left + right) / 2 + 1) right
      | .gt => natBsearchGo l x fuel left ((left + right) / 2)
      | .eq => (true, (left + right) / 2) := by
  rw [natBsearchGo, if_pos h]

/-- Full characterisation of the `u32` slice binary search used by
`CharMultiMap::split` on a strictly sorted boundary list: `Ok(i)` finds the
key, `Err(i)` is the insertion point separating smaller from larger
boundaries. -/
theorem natBsearchGo_spec (B : List Nat) (x : Nat)
    (hs : List.Pairwise (fun a b => a < b) B) :
    ∀ fuel left right, right ≤ B.length → left ≤ right → right - left < fuel →
    (∀ j (hj : j < B.length), j < left → B[j] < x) →
    (∀ j (hj : j < B.length), right ≤ j → x < B[j]) →
    (∀ i, natBsearchGo B x fuel left right = (true, i) →
        ∃ h : i < B.length, B[i] = x) ∧
    (∀ i, natBsearchGo B x fuel left right = (false, i) →
        i ≤ B.length ∧ ∀ j (hj : j < B.length),
          (j < i → B[j] < x) ∧ (i ≤ j → x < B[j])) := by
  intro fuel
  induction fuel with
  | zero =>
    intro left right _ _ hf _ _
    exact absurd hf (Nat.not_lt_zero _)
  | succ fuel ih =>
    intro left right hr hlr0 hf hlo hhi
    by_cases hlr : left < right
    · have hmidr : (left + right) / 2 < right := by omega
      have hmidl : left ≤ (left + right) / 2 := by omega
      have hmidlen : (left + right) / 2 < B.length := by omega
      rw [natBsearchGo_succ B x fuel left right hlr]
      have hgd : B.getD ((left + right) / 2) 0 = B[(left + right) / 2] :=
        List.getD_eq_getElem B 0 hmidlen
      rcases hcmp : compare (B.getD ((left + right) / 2) 0) x with _ | _ | _
      · have hml : B[(left + right) / 2] < x := by
          rw [hgd] at hcmp; exact Nat.compare_eq_lt.mp hcmp
        exact ih ((left + right) / 2 + 1) right hr (by omega) (by omega)
          (fun j hj hjm => by
            rcases Nat.lt_or_ge j ((left + right) / 2) with h | h
            · exact Nat.lt_trans (sortedNat_get_lt hs hj hmidlen h) hml
            · have hje : j = (left + right) / 2 := by omega
              subst hje; exact hml)
          hhi
      · have hme : B[(left + right) / 2] = x := by
          rw [hgd] at hcmp; exact Nat.compare_eq_eq.mp hcmp
        constructor
        · intro i hEq
          have : (left + right) / 2 = i := congrArg Prod.snd hEq
          subst this
          exact ⟨hmidlen, hme⟩
        · intro i hEq
          simp at hEq
      · have hmg : x < B[(left + right) / 2] := by
          rw [hgd] at hcmp; exact Nat.compare_eq_gt.mp hcmp
        exact ih left ((left + right) / 2) (by omega) (by omega) (by omega)
          hlo
          (fun j hj hjm => by
            rcases Nat.lt_or_ge ((left + right) / 2) j with h | h
            · exact Nat.lt_trans hmg (sortedNat_get_lt hs hmidlen hj h)
            · have hje : j = (left + right) / 2 := by omega
              subst hje; exact hmg)
    · rw [natBsearchGo, if_neg hlr]
      constructor
      · intro i hEq
        simp at hEq
      · intro i hEq
        have hEq' : left = i := by
          have := congrArg Prod.snd hEq; exact this
        subst hEq'
        refine ⟨by omega, ?_⟩
        intro j hj
        refine ⟨fun h => hlo j hj h, fun h => hhi j hj (by omega)⟩

/-- Characterisation of the boundary index `CharMultiMap::split` starts one
entry from: the boundaries strictly below it are exactly those `≤ x`. -/
theorem splitIdx_spec (B : List Nat) (x : Nat)
    (hs : List.Pairwise (fun a b => a < b) B) :
    splitIdx B x ≤ B.length ∧
    ∀ j (hj : j < B.length), (j < splitIdx B x ↔ B[j] ≤ x) := by
  have hspec := natBsearchGo_spec B x hs (B.length + 1) 0 B.length (le_refl _)
    (Nat.zero_le _) (by omega)
    (fun j hj h => absurd h (Nat.not_lt_zero j))
    (fun j hj h => absurd hj (by omega))
  rcases hres : natBsearchGo B x (B.length + 1) 0 B.length with ⟨b, i⟩
  cases b
  · have hsplit : splitIdx B x = i := by unfold splitIdx; rw [hres]
    rw [hsplit]
    obtain ⟨hle, hchar⟩ := hspec.2 i hres
    refine ⟨hle, ?_⟩
    intro j hj
    constructor
    · intro hji; exact Nat.le_of_lt ((hchar j hj).1 hji)
    · intro hjx
      by_contra hn
      exact absurd hjx (Nat.not_le_of_lt ((hchar j hj).2 (Nat.le_of_not_lt hn)))
  · have hsplit : splitIdx B x = i + 1 := by unfold splitIdx; rw [hres]
    rw [hsplit]
    obtain ⟨hi, hieq⟩ := hspec.1 i hres
    refine ⟨by omega, ?_⟩
    intro j hj
    constructor
    · intro hji
      rcases Nat.lt_or_ge j i with h | h
      · have := sortedNat_get_lt hs hj hi h
        omega
      · have hje : j = i := by omega
        subst hje; exact Nat.le_of_eq hieq
    · intro hjx
      by_contra hn
      have hij : i < j := by omega
      have := sortedNat_get_lt hs hi hj hij
      omega

/-- Boundaries kept before the split index are at most `x`. -/
theorem mem_take_splitIdx_le (B : List Nat) (x : Nat)
    (hs : List.Pairwise (fun a b => a < b) B) :
    ∀ b ∈ B.take (splitIdx B x), b ≤ x := by
  obtain ⟨hK, hchar⟩ := splitIdx_spec B x hs
  intro b hb
  obtain ⟨j, hj, hEq⟩ := List.mem_iff_getElem.mp hb
  have hjlen : j < B.length := by
    simp [List.length_take] at hj; omega
  have hjK : j < splitIdx B x := by
    simp [List.length_take] at hj; omega
  rw [List.getElem_take] at hEq
  rw [← hEq]
  exact (hchar j hjlen).mp hjK

/-- Boundaries in the dropped suffix are strictly above `x`. -/
theorem mem_drop_splitIdx_gt (B : List Nat) (x : Nat)
    (hs : List.Pairwise (fun a b => a < b) B) :
    ∀ b ∈ B.drop (splitIdx B x), x < b := by
  obtain ⟨hK, hchar⟩ := splitIdx_spec B x hs
  intro b hb
  obtain ⟨j, hj, hEq⟩ := List.mem_iff_getElem.mp hb
  have hjlen : splitIdx B x + j < B.length := by
    simp [List.length_drop] at hj; omega
  rw [List.getElem_drop] at hEq
  rw [← hEq]
  by_contra hn
  have h2 := (hchar (splitIdx B x + j) hjlen).mpr (Nat.le_of_not_lt hn)
  omega

/-- A boundary strictly above `x` lies in the dropped suffix. -/
theorem mem_drop_splitIdx_of_gt (B : List Nat) (x : Nat)
    (hs : List.Pairwise (fun a b => a < b) B) (b : Nat) (hb : b ∈ B) (hx : x < b) :
    b ∈ B.drop (splitIdx B x) := by
  have hsplit : b ∈ B.take (splitIdx B x) ++ B.drop (splitIdx B x) := by
    rw [List.take_append_drop]; exact hb
  rcases List.mem_append.mp hsplit with h | h
  · have := mem_take_splitIdx_le B x hs b h
    omega
  · exact h

/-- The boundary list of `CharMultiMap::split` is strictly sorted. -/
theorem boundariesList_sorted {T : Type} (l : List (CharRange × T)) :
    List.Pairwise (fun a b => a < b) (boundariesList l) := by
  unfold boundariesList
  have hsorted : List.Pairwise (fun a b : Nat => a ≤ b)
      (List.insertionSort (fun a b => a ≤ b)
        (l.flatMap (fun e => e.1.start ::
          (if e.1.stop < u32Max then [e.1.stop + 1] else [])))) :=
    List.sorted_insertionSort _ _
  have hle := hsorted.sublist (List.dedup_sublist _)
  have hnd := List.nodup_dedup (List.insertionSort (fun a b => a ≤ b)
    (l.flatMap (fun e => e.1.start ::
      (if e.1.stop < u32Max then [e.1.stop + 1] else []))))
  exact (hle.and hnd).imp (fun h => lt_of_le_of_ne h.1 h.2)

/-- Membership in the boundary list: the boundaries are exactly the range
starts, plus the successors of range ends that are below `u32::MAX`. -/
theorem mem_boundariesList {T : Type} (l : List (CharRange × T)) (b : Nat) :
    b ∈ boundariesList l ↔
      ∃ e ∈ l, b = e.1.start ∨ (e.1.stop < u32Max ∧ b = e.1.stop + 1) := by
  unfold boundariesList
  rw [List.mem_dedup, (List.perm_insertionSort _ _).mem_iff, List.mem_flatMap]
  constructor
  · rintro ⟨e, he, hb⟩
    refine ⟨e, he, ?_⟩
    rcases List.mem_cons.mp hb with h | h
    · exact Or.inl h
    · by_cases hm : e.1.stop < u32Max
      · rw [if_pos hm] at h; simp at h; exact Or.inr ⟨hm, h⟩
      · rw [if_neg hm] at h; simp at h
  · rintro ⟨e, he, h | ⟨hm, h⟩⟩
    · exact ⟨e, he, h ▸ List.mem_cons_self _ _⟩
    · exact ⟨e, he, by rw [if_pos hm]; simp [h]⟩

/-- Master invariant of the fragment walk in `CharMultiMap::split`: the
fragments are non-empty and within `[last, rend]`, chained strictly left to
right, cover exactly `[last, rend]`, and each fragment starts at `last` or
at a boundary, contains no boundary strictly inside `(start, stop]`, and
ends at `rend` or flush against a boundary. -/
theorem fragGo_spec : ∀ (bs : List Nat) (last rend : Nat),
    List.Pairwise (fun a b => a < b) bs → (∀ b ∈ bs, last < b) → last ≤ rend →
    (∀ p ∈ fragGo last rend bs, last ≤ p.1 ∧ p.1 ≤ p.2 ∧ p.2 ≤ rend) ∧
    List.Pairwise (fun p q : Nat × Nat => p.2 < q.1) (fragGo last rend bs) ∧
    (∀ ch, (∃ p ∈ fragGo last rend bs, p.1 ≤ ch ∧ ch ≤ p.2) ↔
      last ≤ ch ∧ ch ≤ rend) ∧
    (∀ p ∈ fragGo last rend bs,
      (p.1 = last ∨ p.1 ∈ bs) ∧ (∀ b ∈ bs, ¬ (p.1 < b ∧ b ≤ p.2)) ∧
      (p.2 = rend ∨ p.2 + 1 ∈ bs)) := by
  intro bs
  induction bs with
  | nil =>
    intro last rend _ _ hlr
    have hfg : fragGo last rend [] = [(last, rend)] := by rw [fragGo]
    rw [hfg]
    refine ⟨?_, List.pairwise_singleton _ _, ?_, ?_⟩
    · intro p hp
      simp at hp; subst hp
      exact ⟨le_refl _, hlr, le_refl _⟩
    · intro ch
      constructor
      · rintro ⟨p, hp, h1, h2⟩
        simp at hp; subst hp
        exact ⟨h1, h2⟩
      · rintro ⟨h1, h2⟩
        exact ⟨(last, rend), by simp, h1, h2⟩
    · intro p hp
      simp at hp; subst hp
      exact ⟨Or.inl rfl, by simp, Or.inl rfl⟩
  | cons b bs ih =>
    intro last rend hs hlast hlr
    have hlb : last < b := hlast b (List.mem_cons_self _ _)
    rw [List.pairwise_cons] at hs
    obtain ⟨hb_bs, hs'⟩ := hs
    by_cases hbr : b > rend
    · have hfg : fragGo last rend (b :: bs) = [(last, rend)] := by
        rw [fragGo, if_pos hbr]
      rw [hfg]
      refine ⟨?_, List.pairwise_singleton _ _, ?_, ?_⟩
      · intro p hp; simp at hp; subst hp
        exact ⟨le_refl _, hlr, le_refl _⟩
      · intro ch
        constructor
        · rintro ⟨p, hp, h1, h2⟩; simp at hp; subst hp; exact ⟨h1, h2⟩
        · rintro ⟨h1, h2⟩; exact ⟨(last, rend), by simp, h1, h2⟩
      · intro p hp; simp at hp; subst hp
        refine ⟨Or.inl rfl, ?_, Or.inl rfl⟩
        intro c hc
        rcases List.mem_cons.mp hc with h | h
        · subst h; rintro ⟨-, h2⟩
          have h2' : c ≤ rend := h2
          omega
        · have := hb_bs c h
          rintro ⟨-, h2⟩
          have h2' : c ≤ rend := h2
          omega
    · have hble : b ≤ rend := Nat.le_of_not_lt hbr
      have hfg : fragGo last rend (b :: bs) = (last, b - 1) :: fragGo b rend bs := by
        rw [fragGo, if_neg hbr]
      obtain ⟨ihB, ihP, ihC, ihA⟩ := ih b rend hs' hb_bs hble
      rw [hfg]
      refine ⟨?_, ?_, ?_, ?_⟩
      · intro p hp
        rcases List.mem_cons.mp hp with h | h
        · subst h
          exact ⟨le_refl _, by omega, by omega⟩
        · have := ihB p h
          exact ⟨by omega, this.2.1, this.2.2⟩
      · rw [List.pairwise_cons]
        refine ⟨?_, ihP⟩
        intro q hq
        have := (ihB q hq).1
        show b - 1 < q.1
        omega
      · intro ch
        constructor
        · rintro ⟨p, hp, h1, h2⟩
          rcases List.mem_cons.mp hp with h | h
          · subst h
            refine ⟨h1, ?_⟩
            have h2' : ch ≤ b - 1 := h2
            omega
          · have := (ihC ch).mp ⟨p, h, h1, h2⟩
            exact ⟨by omega, this.2⟩
        · rintro ⟨h1, h2⟩
          by_cases hcb : ch < b
          · exact ⟨(last, b - 1), List.mem_cons_self _ _, h1, by
              show ch ≤ b - 1
              omega⟩
          · obtain ⟨p, hp, hp1, hp2⟩ := (ihC ch).mpr ⟨Nat.le_of_not_lt hcb, h2⟩
            exact ⟨p, List.mem_cons_of_mem _ hp, hp1, hp2⟩
      · intro p hp
        rcases List.mem_cons.mp hp with h | h
        · subst h
          refine ⟨Or.inl rfl, ?_, ?_⟩
          · intro c hc
            rcases List.mem_cons.mp hc with h' | h'
            · rintro ⟨-, h2⟩
              have h2' : c ≤ b - 1 := h2
              omega
            · have := hb_bs c h'
              rintro ⟨-, h2⟩
              have h2' : c ≤ b - 1 := h2
              omega
          · right
            show b - 1 + 1 ∈ b :: bs
            have hb1 : b - 1 + 1 = b := by omega
            rw [hb1]
            exact List.mem_cons_self _ _
        · obtain ⟨hA1, hA2, hA3⟩ := ihA p h
          have hpb := (ihB p h).1
          refine ⟨Or.inr ?_, ?_, ?_⟩
          · rcases hA1 with h' | h'
            · rw [h']; exact List.mem_cons_self _ _
            · exact List.mem_cons_of_mem _ h'
          · intro c hc
            rcases List.mem_cons.mp hc with h' | h'
            · subst h'
              rintro ⟨hc1, -⟩
              omega
            · exact hA2 c h'
          · rcases hA3 with h' | h'
            · exact Or.inl h'
            · exact Or.inr (List.mem_cons_of_mem _ h')

/-- Per-entry specification of the fragments `CharMultiMap::split` emits:
each fragment is an atomic fragment of the boundary set, the fragments are
chained strictly left to right, and together they cover exactly the entry's
range. -/
theorem fragsFor_spec {T : Type} (l : List (CharRange × T)) (e : CharRange × T)
    (he : e ∈ l) (hne : ∀ f ∈ l, f.1.start ≤ f.1.stop)
    (hbd : ∀ f ∈ l, f.1.stop ≤ u32Max) :
    (∀ p ∈ fragsFor (boundariesList l) e, atomicFrag (boundariesList l) p.1) ∧
    List.Pairwise (fun p q : CharRange × T => p.1.stop < q.1.start)
      (fragsFor (boundariesList l) e) ∧
    (∀ ch, inRanges (fragsFor (boundariesList l) e) ch ↔
      e.1.containsChar ch = true) := by
  have hsB := boundariesList_sorted l
  have hstart_mem : e.1.start ∈ boundariesList l :=
    (mem_boundariesList l _).mpr ⟨e, he, Or.inl rfl⟩
  have hsub : ((boundariesList l).drop (splitIdx (boundariesList l) e.1.start)).Sublist
      (boundariesList l) := List.drop_sublist _ _
  have hs' := hsB.sublist hsub
  have hgt := mem_drop_splitIdx_gt (boundariesList l) e.1.start hsB
  obtain ⟨hB, hP, hC, hA⟩ := fragGo_spec _ e.1.start e.1.stop hs' hgt (hne e he)
  refine ⟨?_, ?_, ?_⟩
  · intro p hp
    unfold fragsFor at hp
    obtain ⟨q, hq, hpq⟩ := List.mem_map.mp hp
    subst hpq
    refine ⟨?_, (hB q hq).2.1, ?_, ?_, ?_⟩
    · rcases (hA q hq).1 with h' | h'
      · show q.1 ∈ boundariesList l
        rw [h']; exact hstart_mem
      · exact hsub.subset h'
    · have h1 := (hB q hq).2.2
      have h2 := hbd e he
      show q.2 ≤ u32Max
      omega
    · intro c hc
      by_cases hcs : c ≤ e.1.start
      · rintro ⟨h1, -⟩
        have := (hB q hq).1
        have h1' : q.1 < c := h1
        omega
      · have hcd := mem_drop_splitIdx_of_gt (boundariesList l) e.1.start hsB c hc
          (Nat.lt_of_not_le hcs)
        exact (hA q hq).2.1 c hcd
    · rcases (hA q hq).2.2 with h' | h'
      · by_cases hm : e.1.stop < u32Max
        · left
          show q.2 + 1 ∈ boundariesList l
          rw [h']
          exact (mem_boundariesList l _).mpr ⟨e, he, Or.inr ⟨hm, rfl⟩⟩
        · right
          have := hbd e he
          show q.2 = u32Max
          omega
      · exact Or.inl (hsub.subset h')
  · unfold fragsFor
    rw [List.pairwise_map]
    exact hP.imp (fun h => h)
  · intro ch
    constructor
    · rintro ⟨p, hp, hcp⟩
      unfold fragsFor at hp
      obtain ⟨q, hq, hpq⟩ := List.mem_map.mp hp
      subst hpq
      simp [CharRange.containsChar] at hcp
      have := (hC ch).mp ⟨q, hq, hcp.1, hcp.2⟩
      simp [CharRange.containsChar]
      exact this
    · intro hce
      simp [CharRange.containsChar] at hce
      obtain ⟨q, hq, h1, h2⟩ := (hC ch).mpr hce
      refine ⟨((⟨q.1, q.2⟩ : CharRange), e.2), ?_, ?_⟩
      · unfold fragsFor
        exact List.mem_map.mpr ⟨q, hq, rfl⟩
      · simp [CharRange.containsChar]
        exact ⟨h1, h2⟩

/-- Two atomic fragments sharing a point share their start. -/
theorem atomicFrag_start_eq {B : List Nat} {r r' : CharRange}
    (h : atomicFrag B r) (h' : atomicFrag B r') (ch : Nat)
    (hc : r.containsChar ch = true) (hc' : r'.containsChar ch = true) :
    r.start = r'.start := by
  obtain ⟨hm, hle, hbd, hin, hr⟩ := h
  obtain ⟨hm', hle', hbd', hin', hr'⟩ := h'
  simp [CharRange.containsChar] at hc hc'
  rcases Nat.lt_trichotomy r.start r'.start with h | h | h
  · exact absurd ⟨h, by omega⟩ (hin r'.start hm')
  · exact h
  · exact absurd ⟨h, by omega⟩ (hin' r.start hm)

/-- Atomic fragments of a common boundary set are identical or disjoint. -/
theorem atomicFrag_eq_or_disjoint {B : List Nat} {r r' : CharRange}
    (h : atomicFrag B r) (h' : atomicFrag B r') :
    r = r' ∨ ∀ ch, ¬ (r.containsChar ch = true ∧ r'.containsChar ch = true) := by
  by_cases hov : ∃ ch, r.containsChar ch = true ∧ r'.containsChar ch = true
  · left
    obtain ⟨ch, hc, hc'⟩ := hov
    have hst := atomicFrag_start_eq h h' ch hc hc'
    obtain ⟨hm, hle, hbd, hin, hr⟩ := h
    obtain ⟨hm', hle', hbd', hin', hr'⟩ := h'
    have hstop : r.stop = r'.stop := by
      rcases Nat.lt_trichotomy r.stop r'.stop with hlt | hEq | hlt
      · rcases hr with h1 | h1
        · exact absurd ⟨by omega, by omega⟩ (hin' (r.stop + 1) h1)
        · omega
      · exact hEq
      · rcases hr' with h1 | h1
        · exact absurd ⟨by omega, by omega⟩ (hin (r'.stop + 1) h1)
        · omega
    cases r; cases r'
    simp only [CharRange.mk.injEq]
    simp at hst hstop
    exact ⟨hst, hstop⟩
  · right
    intro ch hcc
    exact hov ⟨ch, hcc⟩

/-- C5: on a `CharMultiMap` of non-empty (and `u32`-bounded) ranges,
`split()` produces ranges that are pairwise identical or disjoint; the
fragments emitted for each original entry are pairwise non-overlapping and
cover exactly that entry's range; the output is exactly the concatenation of
each entry's fragments in order; and the spec's scenario
`[(1,5,A),(3,4,B)].split()` yields `[(1,2,A),(3,4,A),(5,5,A),(3,4,B)]`. -/
theorem claim_C5 {T : Type} (m : CharMultiMap T)
    (hne : ∀ e ∈ m.elts, e.1.start ≤ e.1.stop)
    (hbd : ∀ e ∈ m.elts, e.1.stop ≤ u32Max) :
    (∀ p ∈ (m.split).elts, ∀ q ∈ (m.split).elts,
        p.1 = q.1 ∨ ∀ ch, ¬ (p.1.containsChar ch = true ∧ q.1.containsChar ch = true)) ∧
    (∀ e ∈ m.elts,
        List.Pairwise (fun p q : CharRange × T =>
            ∀ ch, ¬ (p.1.containsChar ch = true ∧ q.1.containsChar ch = true))
          (fragsFor (boundariesList m.elts) e) ∧
        (∀ ch, inRanges (fragsFor (boundariesList m.elts) e) ch ↔
          e.1.containsChar ch = true)) ∧
    (m.split).elts = m.elts.flatMap (fragsFor (boundariesList m.elts)) ∧
    CharMultiMap.split ⟨[((⟨1, 5⟩ : CharRange), 0), ((⟨3, 4⟩ : CharRange), 1)]⟩ =
      ⟨[((⟨1, 2⟩ : CharRange), 0), ((⟨3, 4⟩ : CharRange), 0),
        ((⟨5, 5⟩ : CharRange), 0), ((⟨3, 4⟩ : CharRange), 1)]⟩ := by
  refine ⟨?_, ?_, rfl, by decide⟩
  · intro p hp q hq
    have hp' : p ∈ m.elts.flatMap (fragsFor (boundariesList m.elts)) := hp
    have hq' : q ∈ m.elts.flatMap (fragsFor (boundariesList m.elts)) := hq
    obtain ⟨e, he, hpe⟩ := List.mem_flatMap.mp hp'
    obtain ⟨f, hf, hqf⟩ := List.mem_flatMap.mp hq'
    have hap := (fragsFor_spec m.elts e he hne hbd).1 p hpe
    have haq := (fragsFor_spec m.elts f hf hne hbd).1 q hqf
    exact atomicFrag_eq_or_disjoint hap haq
  · intro e he
    obtain ⟨hA, hP, hC⟩ := fragsFor_spec m.elts e he hne hbd
    refine ⟨?_, hC⟩
    refine hP.imp ?_
    intro p q h ch
    rintro ⟨hc1, hc2⟩
    simp [CharRange.containsChar] at hc1 hc2
    omega

/-- Witness for C5 at the spec's scenario `[(1,5,A),(3,4,B)]` (with `A`, `B`
as the values `0`, `1`). -/
theorem claim_C5_witness :
    CharMultiMap.split ⟨[((⟨1, 5⟩ : CharRange), 0), ((⟨3, 4⟩ : CharRange), 1)]⟩ =
      ⟨[((⟨1, 2⟩ : CharRange), 0), ((⟨3, 4⟩ : CharRange), 0),
        ((⟨5, 5⟩ : CharRange), 0), ((⟨3, 4⟩ : CharRange), 1)]⟩ :=
  (claim_C5 ⟨[((⟨1, 5⟩ : CharRange), 0), ((⟨3, 4⟩ : CharRange), 1)]⟩
    (by decide) (by decide)).2.2.2

/-- C1: the claim asserts `Nfa::reversed` reverses every edge, predicate
edges included: an edge `a → b` should reappear at `b` pointing at `a`. On
the two-state automaton with a range edge, an epsilon edge and a predicate
edge from state `0` to state `1`, the range and epsilon edges are indeed
re-attached at state `1` pointing at `0`, but the predicate edge is pushed
at state `1` as `(pred, 1)` — it records the original target `1`, not the
source `0` — so the claimed output (third conjunct) is not produced. -/
theorem claim_C1 :
    Nfa.reversed (⟨[⟨⟨[((⟨5, 9⟩ : CharRange), 1)], [1], [((), 1)]⟩, false⟩,
        ⟨⟨[], [], []⟩, true⟩], []⟩ : Nfa Unit) =
      ⟨[⟨⟨[], [], []⟩, false⟩,
        ⟨⟨[((⟨5, 9⟩ : CharRange), 0)], [0], [((), 1)]⟩, true⟩], []⟩ ∧
    Nfa.reversed (⟨[⟨⟨[((⟨5, 9⟩ : CharRange), 1)], [1], [((), 1)]⟩, false⟩,
        ⟨⟨[], [], []⟩, true⟩], []⟩ : Nfa Unit) ≠
      ⟨[⟨⟨[], [], []⟩, false⟩,
        ⟨⟨[((⟨5, 9⟩ : CharRange), 0)], [0], [((), 0)]⟩, true⟩], []⟩ :=
  ⟨rfl, by decide⟩

theorem pushRangeAt_length {P : Type} (sts : List (NfaState P)) (i : Nat)
    (e : SymbRange × Nat) : (pushRangeAt sts i e).length = sts.length := by
  unfold pushRangeAt
  cases sts.get? i <;> simp

theorem pushPredAt_length {P : Type} (sts : List (NfaState P)) (i : Nat)
    (e : P × Nat) : (pushPredAt sts i e).length = sts.length := by
  unfold pushPredAt
  cases sts.get? i <;> simp

/-- A fold whose step preserves the length of the first automaton's state
vector preserves it overall. -/
theorem foldl_fst_len {P A : Type} (f : Nfa P × Nfa P → A → Nfa P × Nfa P)
    (l : List A) (sr : Nfa P × Nfa P)
    (hf : ∀ sr' a, (f sr' a).1.states.length = sr'.1.states.length) :
    (l.foldl f sr).1.states.length = sr.1.states.length := by
  induction l generalizing sr with
  | nil => rfl
  | cons a t ih => rw [List.foldl_cons, ih, hf]

/-- Each run of the per-predicate loop body grows `self` by exactly the one
pushed state. -/
theorem predStep_len {P : Type} (ops : PredOps P) (idx : Nat)
    (sr : Nfa P × Nfa P) (pt : P × Nat) :
    (predStep ops idx sr pt).1.states.length = sr.1.states.length + 1 := by
  unfold predStep
  rw [foldl_fst_len]
  · rw [foldl_fst_len]
    · rw [foldl_fst_len]
      · rw [foldl_fst_len]
        · simp
        · intro sr' a
          rw [foldl_fst_len]
          intro sr'' b
          simp [Nfa.addTransition, pushRangeAt_length]
      · intro sr' a
        cases ops.intersect pt.1 a.1 <;>
          simp [Nfa.addPredicate, pushPredAt_length]
    · intro sr' a
      rw [foldl_fst_len]
      intro sr'' b
      simp [Nfa.addTransition, pushRangeAt_length]
  · intro sr' a
    cases ops.intersect pt.1 a.1 <;>
      simp [Nfa.addPredicate, pushPredAt_length]

/-- The per-predicate loop grows `self` by exactly one state per
predicate. -/
theorem foldl_predStep_len {P : Type} (ops : PredOps P) (idx : Nat) :
    ∀ (preds : List (P × Nat)) (sr : Nfa P × Nfa P),
      (preds.foldl (predStep ops idx) sr).1.states.length =
        sr.1.states.length + preds.length := by
  intro preds
  induction preds with
  | nil => intro sr; rfl
  | cons a t ih =>
    intro sr
    rw [List.foldl_cons, ih, predStep_len]
    simp [Nat.add_assoc, Nat.add_comm 1]

/-- What one successful `stepIdx` does to `self`: its length grows by the
number of predicates of the processed state, and when that state had no
predicates the only change is clearing its (already empty) predicate
list. -/
theorem stepIdx_spec {P : Type} (ops : PredOps P) (sr sr' : Nfa P × Nfa P)
    (idx : Nat) (h : stepIdx ops sr idx = .ok sr') :
    ∃ st, sr.1.states.get? idx = some st ∧
      sr'.1.states.length = sr.1.states.length + st.transitions.predicates.length ∧
      (st.transitions.predicates = [] →
        sr'.1.states = sr.1.states.set idx
          ⟨⟨st.transitions.ranges, st.transitions.eps, []⟩, st.accepting⟩) := by
  unfold stepIdx at h
  split at h
  · exact absurd h (by simp)
  · rename_i st hget
    split at h
    · exact absurd h (by simp)
    · rename_i revSts hrem
      have hsr' := Except.ok.inj h
      refine ⟨st, hget, ?_, ?_⟩
      · rw [← hsr', foldl_predStep_len]
        simp
      · intro hp
        rw [← hsr', hp]
        rfl

theorem clearAt_length {P : Type} (sts : List (NfaState P)) (i : Nat) :
    (clearAt sts i).length = sts.length := by
  unfold clearAt
  cases sts.get? i <;> simp

theorem foldl_clearAt_length {P : Type} :
    ∀ (idxs : List Nat) (sts : List (NfaState P)),
      (idxs.foldl clearAt sts).length = sts.length := by
  intro idxs
  induction idxs with
  | nil => intro sts; rfl
  | cons i t ih => intro sts; rw [List.foldl_cons, ih, clearAt_length]

/-- The outer loop of `remove_predicates_once` never shrinks `self`, and if
it creates no state then it has merely cleared the predicate lists of the
processed indices. -/
theorem rpoGo_nogrow {P : Type} (ops : PredOps P) :
    ∀ (idxs : List Nat) (sr sr' : Nfa P × Nfa P),
      rpoGo ops idxs sr = .ok sr' →
      sr.1.states.length ≤ sr'.1.states.length ∧
      (sr'.1.states.length = sr.1.states.length →
        sr'.1.states = idxs.foldl clearAt sr.1.states) := by
  intro idxs
  induction idxs with
  | nil =>
    intro sr sr' h
    have := Except.ok.inj h
    subst this
    exact ⟨le_refl _, fun _ => rfl⟩
  | cons idx rest ih =>
    intro sr sr' h
    rw [rpoGo] at h
    rcases hstep : stepIdx ops sr idx with e | sr1
    · rw [hstep] at h; exact absurd h (by simp)
    · rw [hstep] at h
      obtain ⟨hle1, heq1⟩ := ih sr1 sr' h
      obtain ⟨st, hget, hlen, hclear⟩ := stepIdx_spec ops sr sr1 idx hstep
      refine ⟨by omega, ?_⟩
      intro hEq
      have hlen1 : sr'.1.states.length = sr1.1.states.length := by omega
      have hpnil : st.transitions.predicates = [] := by
        have := List.length_eq_zero.mp (show st.transitions.predicates.length = 0 by omega)
        exact this
      rw [List.foldl_cons]
      have hcl : clearAt sr.1.states idx = sr.1.states.set idx
          ⟨⟨st.transitions.ranges, st.transitions.eps, []⟩, st.accepting⟩ := by
        unfold clearAt
        rw [hget]
      rw [hcl, ← hclear hpnil]
      exact heq1 hlen1

theorem foldl_clearAt_get_of_not_mem {P : Type} :
    ∀ (idxs : List Nat) (sts : List (NfaState P)) (j : Nat), j ∉ idxs →
      (idxs.foldl clearAt sts)[j]? = sts[j]? := by
  intro idxs
  induction idxs with
  | nil => intro sts j _; rfl
  | cons i t ih =>
    intro sts j hj
    rw [List.foldl_cons, ih _ _ (fun hmem => hj (List.mem_cons_of_mem _ hmem))]
    unfold clearAt
    cases sts.get? i with
    | none => rfl
    | some st =>
      exact List.getElem?_set_ne
        (fun hij => hj (by rw [← hij]; exact List.mem_cons_self _ _))

/-- After folding `clearAt` over a set of indices, every listed in-range
index holds an empty predicate list. -/
theorem foldl_clearAt_preds {P : Type} :
    ∀ (idxs : List Nat) (sts : List (NfaState P)) (j : Nat)
      (hj : j < (idxs.foldl clearAt sts).length), j ∈ idxs →
      ((idxs.foldl clearAt sts)[j]).transitions.predicates = [] := by
  intro idxs
  induction idxs with
  | nil => intro sts j _ hmem; exact absurd hmem (List.not_mem_nil j)
  | cons i t ih =>
    intro sts j hj hmem
    by_cases hjt : j ∈ t
    · exact ih (clearAt sts i) j (by rwa [List.foldl_cons] at hj) hjt
    · have hji : j = i := by
        rcases List.mem_cons.mp hmem with h | h
        · exact h
        · exact absurd h hjt
      subst hji
      have hjlen : j < sts.length := by
        rw [foldl_clearAt_length] at hj; exact hj
      have hget : sts.get? j = some sts[j] := by
        rw [List.get?_eq_getElem?]
        exact List.getElem?_eq_getElem hjlen
      have hcl : clearAt sts j = sts.set j
          ⟨⟨sts[j].transitions.ranges, sts[j].transitions.eps, []⟩,
            sts[j].accepting⟩ := by
        unfold clearAt
        rw [hget]
      have hnone : (List.foldl clearAt sts (j :: t))[j]? =
          some ⟨⟨sts[j].transitions.ranges, sts[j].transitions.eps, []⟩,
            sts[j].accepting⟩ := by
        rw [List.foldl_cons, foldl_clearAt_get_of_not_mem t _ j hjt, hcl]
        rw [List.getElem?_set_self]
        exact hjlen
      have hsome : (List.foldl clearAt sts (j :: t))[j]? =
          some (List.foldl clearAt sts (j :: t))[j] := List.getElem?_eq_getElem hj
      rw [hsome] at hnone
      have := Option.some.inj hnone
      rw [this]

/-- C3 (amended): a `remove_predicates_once` pass that completes without a
panic and creates no new state leaves no predicate edge on any state of the
automaton — including states created by earlier passes, since the pass
processes every index. (The claim's unconditional termination is refuted by
the panic counterexample, a state with two predicate edges to one
target.) -/
theorem claim_C3 {P : Type} (ops : PredOps P) (n n' : Nfa P)
    (h : removePredicatesOnce ops n = .ok (n', false)) :
    ∀ st ∈ n'.states, st.transitions.predicates = [] := by
  unfold removePredicatesOnce at h
  split at h
  · exact absurd h (by simp)
  · rename_i sr hrpo
    have hinj := Except.ok.inj h
    have hn' : sr.1 = n' := congrArg Prod.fst hinj
    have hb : decide (sr.1.states.length > n.states.length) = false :=
      congrArg Prod.snd hinj
    have hle : sr.1.states.length ≤ n.states.length := by
      have := of_decide_eq_false hb
      omega
    obtain ⟨hge, heq⟩ :=
      rpoGo_nogrow ops (List.range n.states.length) (n, n.reversed) sr hrpo
    have hlen : sr.1.states.length = n.states.length := le_antisymm hle hge
    have hstates := heq hlen
    intro st hst
    rw [← hn'] at hst
    rw [hstates] at hst
    obtain ⟨j, hj, hget⟩ := List.mem_iff_getElem.mp hst
    have hjn : j < n.states.length := by
      rw [foldl_clearAt_length] at hj
      exact hj
    rw [← hget]
    exact foldl_clearAt_preds (List.range n.states.length) n.states j hj
      (List.mem_range.mpr hjn)

/-- Counterexample to C3's panic-freedom: on a state with two predicate
edges to the same target, the bookkeeping loop of `remove_predicates_once`
calls `Vec::remove` at index 1 of a 1-element predicate list — an
out-of-bounds panic, before any rewriting happens. -/
theorem claim_C3_counterexample :
    removePredicatesOnce (PredOps.mk (fun _ _ => none) (fun _ a b => (a, b)))
      (⟨[⟨⟨[], [], [(((), 1) : Unit × Nat), ((), 1)]⟩, false⟩,
         ⟨⟨[], [], []⟩, true⟩], []⟩ : Nfa Unit) =
      Except.error "removal index should be less than the length" := rfl

/-- Witness for C3 at a concrete predicate-free two-state automaton: the
pass returns it unchanged with `false`, and the theorem yields the
predicate-freedom of the result. -/
theorem claim_C3_witness :
    removePredicatesOnce (PredOps.mk (fun _ _ => none) (fun _ a b => (a, b)))
      (⟨[⟨⟨[((⟨5, 9⟩ : CharRange), 1)], [], []⟩, false⟩,
         ⟨⟨[], [], []⟩, true⟩], []⟩ : Nfa Unit) =
      Except.ok ((⟨[⟨⟨[((⟨5, 9⟩ : CharRange), 1)], [], []⟩, false⟩,
         ⟨⟨[], [], []⟩, true⟩], []⟩ : Nfa Unit), false) ∧
    ∀ st ∈ (⟨[⟨⟨[((⟨5, 9⟩ : CharRange), 1)], [], []⟩, false⟩,
         ⟨⟨[], [], []⟩, true⟩], []⟩ : Nfa Unit).states,
      st.transitions.predicates = [] :=
  ⟨rfl, claim_C3 (PredOps.mk (fun _ _ => none) (fun _ a b => (a, b)))
    (⟨[⟨⟨[((⟨5, 9⟩ : CharRange), 1)], [], []⟩, false⟩,
       ⟨⟨[], [], []⟩, true⟩], []⟩ : Nfa Unit)
    (⟨[⟨⟨[((⟨5, 9⟩ : CharRange), 1)], [], []⟩, false⟩,
       ⟨⟨[], [], []⟩, true⟩], []⟩ : Nfa Unit) rfl⟩

theorem mem_bsInsert (x : Nat) : ∀ (l : List Nat) (y : Nat),
    y ∈ bsInsert x l ↔ y = x ∨ y ∈ l := by
  intro l
  induction l with
  | nil => intro y; simp [bsInsert]
  | cons z zs ih =>
    intro y
    unfold bsInsert
    by_cases h1 : x < z
    · rw [if_pos h1]
      simp [List.mem_cons]
    · rw [if_neg h1]
      by_cases h2 : x = z
      · rw [if_pos h2]
        subst h2
        simp [List.mem_cons]
      · rw [if_neg h2]
        simp [List.mem_cons, ih]
        tauto

theorem bsInsert_sorted (x : Nat) : ∀ (l : List Nat),
    List.Pairwise (fun a b => a < b) l →
    List.Pairwise (fun a b => a < b) (bsInsert x l) := by
  intro l
  induction l with
  | nil => intro _; simp [bsInsert]
  | cons z zs ih =>
    intro hs
    rw [List.pairwise_cons] at hs
    obtain ⟨hz, hzs⟩ := hs
    unfold bsInsert
    by_cases h1 : x < z
    · rw [if_pos h1, List.pairwise_cons]
      constructor
      · intro b hb
        rcases List.mem_cons.mp hb with h | h
        · omega
        · have := hz b h; omega
      · rw [List.pairwise_cons]; exact ⟨hz, hzs⟩
    · rw [if_neg h1]
      by_cases h2 : x = z
      · rw [if_pos h2, List.pairwise_cons]; exact ⟨hz, hzs⟩
      · rw [if_neg h2, List.pairwise_cons]
        constructor
        · intro b hb
          rcases (mem_bsInsert x zs b).mp hb with h | h
          · subst h; omega
          · exact hz b h
        · exact ih hzs

theorem bsInsert_canon (N x : Nat) (l : List Nat) (hl : bsCanon N l) (hx : x < N) :
    bsCanon N (bsInsert x l) := by
  refine ⟨bsInsert_sorted x l hl.1, ?_⟩
  intro j hj
  rcases (mem_bsInsert x l j).mp hj with h | h
  · subst h; exact hx
  · exact hl.2 j h

theorem bsUnion_canon (N : Nat) : ∀ (b a : List Nat), bsCanon N a →
    (∀ j ∈ b, j < N) → bsCanon N (bsUnion a b) := by
  intro b
  induction b with
  | nil => intro a ha _; exact ha
  | cons x xs ih =>
    intro a ha hb
    have h1 : bsUnion a (x :: xs) = bsUnion (bsInsert x a) xs := by
      unfold bsUnion
      rw [List.foldl_cons]
    rw [h1]
    exact ih (bsInsert x a) (bsInsert_canon N x a ha (hb x (List.mem_cons_self _ _)))
      (fun j hj => hb j (List.mem_cons_of_mem _ hj))

/-- The successor-collection step only emits well-formed bounded sets when
all epsilon targets are in bounds. -/
theorem epsStep_canon {P : Type} (n : Nfa P)
    (hwf : ∀ st ∈ n.states, ∀ t ∈ st.transitions.eps, t < n.numStates)
    (s : List Nat) : bsCanon n.numStates (epsStep n s) := by
  suffices h : ∀ (l : List Nat) (acc : List Nat), bsCanon n.numStates acc →
      bsCanon n.numStates (l.foldl (fun acc i =>
        (((n.states.get? i).map (fun st => st.transitions.eps)).getD []).foldl
          (fun a t => bsInsert t a) acc) acc) by
    exact h s [] ⟨List.Pairwise.nil, by simp⟩
  intro l
  induction l with
  | nil => intro acc ha; exact ha
  | cons i it ih =>
    intro acc ha
    rw [List.foldl_cons]
    apply ih
    have heps : ∀ t ∈ ((n.states.get? i).map (fun st => st.transitions.eps)).getD [],
        t < n.numStates := by
      rcases hg : n.states.get? i with _ | st
      · simp
      · intro t ht
        simp only [hg, Option.map_some', Option.getD_some] at ht
        exact hwf st (List.get?_mem hg) t ht
    exact bsUnion_canon n.numStates _ acc ha heps

theorem epsClosureGo_canon {P : Type} (n : Nfa P)
    (hwf : ∀ st ∈ n.states, ∀ t ∈ st.transitions.eps, t < n.numStates) :
    ∀ (fuel : Nat) (ret newStates : List Nat), bsCanon n.numStates ret →
      bsCanon n.numStates (epsClosureGo n fuel ret newStates) := by
  intro fuel
  induction fuel with
  | zero => intro ret newStates h; exact h
  | succ fuel ih =>
    intro ret newStates h
    rw [epsClosureGo]
    by_cases hc : (epsStep n newStates).all (fun t => decide (t ∈ ret))
    · rw [if_pos hc]; exact h
    · rw [if_neg hc]
      apply ih
      apply bsUnion_canon n.numStates _ ret h
      intro j hj
      exact (epsStep_canon n hwf newStates).2 j (List.mem_of_mem_filter hj)

/-- `Nfa::eps_closure` keeps sets well-formed on in-bounds automata. -/
theorem epsClosure_canon {P : Type} (n : Nfa P)
    (hwf : ∀ st ∈ n.states, ∀ t ∈ st.transitions.eps, t < n.numStates)
    (s : List Nat) (hs : bsCanon n.numStates s) :
    bsCanon n.numStates (n.epsClosure s) :=
  epsClosureGo_canon n hwf (n.numStates + 1) s s hs

/-- Pointwise reading of `Nfa::accepting`. -/
theorem acceptingB_iff {P : Type} (n : Nfa P) (s : List Nat) :
    n.acceptingB s = true ↔
      ∃ j ∈ s, ∃ hj : j < n.states.length, (n.states.get ⟨j, hj⟩).accepting = true := by
  unfold Nfa.acceptingB
  rw [List.any_eq_true]
  constructor
  · rintro ⟨j, hj, hacc⟩
    refine ⟨j, hj, ?_⟩
    rcases hg : n.states.get? j with _ | st
    · rw [hg] at hacc; simp at hacc
    · rw [hg] at hacc
      simp only [Option.map_some', Option.getD_some] at hacc
      have hjlen : j < n.states.length := by
        by_contra hn
        rw [List.get?_eq_getElem?, List.getElem?_eq_none (by omega)] at hg
        exact absurd hg (by simp)
      refine ⟨hjlen, ?_⟩
      have : n.states.get? j = some (n.states.get ⟨j, hjlen⟩) := by
        rw [List.get?_eq_getElem?]
        exact List.getElem?_eq_getElem hjlen
      rw [this] at hg
      rw [Option.some.inj hg]
      exact hacc
  · rintro ⟨j, hj, hjlen, hacc⟩
    refine ⟨j, hj, ?_⟩
    have : n.states.get? j = some (n.states.get ⟨j, hjlen⟩) := by
      rw [List.get?_eq_getElem?]
      exact List.getElem?_eq_getElem hjlen
    rw [this]
    simp only [Option.map_some', Option.getD_some]
    exact hacc

/-- Values attached by `CharMultiMap::group` come from the input entries,
and each value set is strictly sorted. -/
theorem group_val_mem (l : List (CharRange × Nat)) (rv : CharRange × List Nat)
    (h : rv ∈ (CharMultiMap.group ⟨l⟩).elts) :
    (∀ v ∈ rv.2, ∃ e ∈ l, v = e.2) ∧ List.Pairwise (fun a b => a < b) rv.2 := by
  simp only [CharMultiMap.group] at h
  obtain ⟨r, hr, hEq⟩ := List.mem_map.mp h
  subst hEq
  constructor
  · intro v hv
    simp only at hv
    rw [List.mem_dedup, (List.perm_insertionSort _ _).mem_iff] at hv
    obtain ⟨e, he, hev⟩ := List.mem_map.mp hv
    have hes : e ∈ (CharMultiMap.split (⟨l⟩ : CharMultiMap Nat)).elts :=
      List.mem_of_mem_filter he
    obtain ⟨orig, horig, hfrag⟩ := List.mem_flatMap.mp hes
    unfold fragsFor at hfrag
    obtain ⟨q, hq, hqe⟩ := List.mem_map.mp hfrag
    refine ⟨orig, horig, ?_⟩
    rw [← hev, ← hqe]
  · have hs : List.Pairwise (fun a b : Nat => a ≤ b)
        (List.insertionSort (fun a b => a ≤ b)
          (((CharMultiMap.split (⟨l⟩ : CharMultiMap Nat)).elts.filter
            (fun e => decide (e.1 = r))).map (fun e => e.2))) :=
      List.sorted_insertionSort _ _
    have hle := hs.sublist (List.dedup_sublist _)
    have hnd := List.nodup_dedup (List.insertionSort (fun a b => a ≤ b)
      (((CharMultiMap.split (⟨l⟩ : CharMultiMap Nat)).elts.filter
        (fun e => decide (e.1 = r))).map (fun e => e.2)))
    exact (hle.and hnd).imp (fun h => lt_of_le_of_ne h.1 h.2)

/-- On an in-bounds automaton, every target set of `Nfa::transitions` is a
well-formed bounded set. -/
theorem transitionsOf_canon {P : Type} (n : Nfa P)
    (hwfE : ∀ st ∈ n.states, ∀ t ∈ st.transitions.eps, t < n.numStates)
    (hwfR : ∀ st ∈ n.states, ∀ rt ∈ st.transitions.ranges, rt.2 < n.numStates)
    (s : List Nat) : ∀ rt ∈ n.transitionsOf s, bsCanon n.numStates rt.2 := by
  intro rt hrt
  simp only [Nfa.transitionsOf] at hrt
  obtain ⟨e, he, hEq⟩ := List.mem_map.mp hrt
  subst hEq
  show bsCanon _ (n.epsClosure e.2)
  apply epsClosure_canon n hwfE
  obtain ⟨hvm, hvs⟩ := group_val_mem _ e he
  refine ⟨hvs, ?_⟩
  intro v hv
  obtain ⟨ce, hce, hveq⟩ := hvm v hv
  subst hveq
  obtain ⟨i, hi, hcei⟩ := List.mem_flatMap.mp hce
  rcases hg : n.states.get? i with _ | st
  · rw [hg] at hcei; simp at hcei
  · rw [hg] at hcei
    simp only [Option.map_some', Option.getD_some] at hcei
    exact hwfR st (List.get?_mem hg) ce hcei

/-- Well-formed set models are determined by their underlying finite set. -/
theorem bsCanon_toFinset_inj {N : Nat} {a b : List Nat} (ha : bsCanon N a)
    (hb : bsCanon N b) (h : a.toFinset = b.toFinset) : a = b := by
  have hnda : a.Nodup := ha.1.imp (fun h => Nat.ne_of_lt h)
  have hndb : b.Nodup := hb.1.imp (fun h => Nat.ne_of_lt h)
  have hp : a.Perm b := List.perm_of_nodup_nodup_toFinset_eq hnda hndb h
  exact List.eq_of_perm_of_sorted hp ha.1 hb.1

/-- At most `2 ^ N` distinct well-formed sets exist over `N` states — the
pigeonhole bound behind the termination of `determinize`. -/
theorem canon_keys_card (N : Nat) (keys : List (List Nat)) (hnd : keys.Nodup)
    (hc : ∀ k ∈ keys, bsCanon N k) : keys.length ≤ 2 ^ N := by
  have hmapnd : (keys.map List.toFinset).Nodup := by
    refine List.Nodup.map_on ?_ hnd
    intro x hx y hy hxy
    exact bsCanon_toFinset_inj (hc x hx) (hc y hy) hxy
  have hsub : ∀ f ∈ keys.map List.toFinset, f ∈ (Finset.range N).powerset := by
    intro f hf
    obtain ⟨k, hk, hEq⟩ := List.mem_map.mp hf
    subst hEq
    rw [Finset.mem_powerset]
    intro x hx
    rw [List.mem_toFinset] at hx
    exact Finset.mem_range.mpr ((hc k hk).2 x hx)
  calc keys.length = (keys.map List.toFinset).length := by simp
    _ = (keys.map List.toFinset).toFinset.card :=
        (List.toFinset_card_of_nodup hmapnd).symm
    _ ≤ (Finset.range N).powerset.card :=
        Finset.card_le_card (fun f hf => hsub f (List.mem_toFinset.mp hf))
    _ = 2 ^ N := by rw [Finset.card_powerset, Finset.card_range]

theorem mapLookup_none_iff (m : List (List Nat × Nat)) (k : List Nat) :
    mapLookup m k = none ↔ k ∉ m.map Prod.fst := by
  unfold mapLookup
  rw [Option.map_eq_none', List.find?_eq_none]
  constructor
  · intro h hk
    obtain ⟨kv, hkv, hEq⟩ := List.mem_map.mp hk
    exact h kv hkv (decide_eq_true hEq)
  · intro h kv hkv hdec
    exact h (List.mem_map.mpr ⟨kv, hkv, of_decide_eq_true hdec⟩)

theorem mapLookup_some_of_mem (m : List (List Nat × Nat)) (k : List Nat)
    (h : k ∈ m.map Prod.fst) : ∃ i, mapLookup m k = some i := by
  rcases hl : mapLookup m k with _ | i
  · exact absurd h ((mapLookup_none_iff m k).mp hl)
  · exact ⟨i, rfl⟩

theorem mapLookup_mem (m : List (List Nat × Nat)) (k : List Nat) (i : Nat)
    (h : mapLookup m k = some i) : (k, i) ∈ m := by
  unfold mapLookup at h
  rcases hf : m.find? (fun kv => decide (kv.1 = k)) with _ | kv
  · rw [hf] at h; simp at h
  · rw [hf] at h
    simp only [Option.map_some'] at h
    have hmem := List.mem_of_find?_eq_some hf
    have hp := List.find?_some hf
    have hkv : kv = (k, i) := by
      have h1 : kv.1 = k := of_decide_eq_true hp
      have h2 : kv.2 = i := Option.some.inj h
      rw [← h1, ← h2]
    rw [← hkv]
    exact hmem

theorem addTransition_len (d : Dfa) (s t : Nat) (r : SymbRange) :
    (d.addTransition s t r).states.length = d.states.length := by
  unfold Dfa.addTransition
  cases d.states.get? s <;> simp

theorem addTransition_accepting (d : Dfa) (s t : Nat) (r : SymbRange) (i : Nat) :
    ((d.addTransition s t r).states[i]?).map DfaState.accepting =
      (d.states[i]?).map DfaState.accepting := by
  unfold Dfa.addTransition
  rcases hg : d.states.get? s with _ | st
  · rfl
  · rw [List.get?_eq_getElem?] at hg
    show ((d.states.set s ⟨st.accepting, st.transitions ++ [(r, t)]⟩)[i]?).map
      DfaState.accepting = _
    by_cases his : s = i
    · subst his
      have hsl : s < d.states.length := by
        by_contra hn
        rw [List.getElem?_eq_none (by omega)] at hg
        exact absurd hg (by simp)
      rw [List.getElem?_set_self hsl, List.getElem?_eq_getElem hsl]
      have hst : st = d.states[s] := by
        rw [List.getElem?_eq_getElem hsl] at hg
        exact (Option.some.inj hg).symm
      rw [hst]
      rfl
    · rw [List.getElem?_set_ne his]

theorem addState_len (d : Dfa) (b : Bool) :
    (d.addState b).states.length = d.states.length + 1 := by
  simp [Dfa.addState]

theorem addState_get_last (d : Dfa) (b : Bool) :
    (d.addState b).states[d.states.length]? = some ⟨b, []⟩ := by
  simp [Dfa.addState]

theorem addState_get_old (d : Dfa) (b : Bool) (i : Nat) (hi : i < d.states.length) :
    (d.addState b).states[i]? = d.states[i]? := by
  unfold Dfa.addState
  show (d.states ++ [(⟨b, []⟩ : DfaState)])[i]? = _
  rw [List.getElem?_append_left hi]

theorem detStep_some {P : Type} (n : Nfa P) (stateIdx : Nat)
    (acc : Dfa × List (List Nat × Nat) × List (List Nat))
    (rt : SymbRange × List Nat) (tIdx : Nat)
    (h : mapLookup acc.2.1 rt.2 = some tIdx) :
    detStep n stateIdx acc rt =
      (acc.1.addTransition stateIdx tIdx rt.1, acc.2.1, acc.2.2) := by
  unfold detStep
  rw [h]

theorem detStep_none {P : Type} (n : Nfa P) (stateIdx : Nat)
    (acc : Dfa × List (List Nat × Nat) × List (List Nat))
    (rt : SymbRange × List Nat)
    (h : mapLookup acc.2.1 rt.2 = none) :
    detStep n stateIdx acc rt =
      ((acc.1.addState (n.acceptingB rt.2)).addTransition stateIdx
          ((acc.1.addState (n.acceptingB rt.2)).numStates - 1) rt.1,
       acc.2.1 ++ [(rt.2, (acc.1.addState (n.acceptingB rt.2)).numStates - 1)],
       rt.2 :: acc.2.2) := by
  unfold detStep
  rw [h]

theorem addState_last_idx (d : Dfa) (b : Bool) :
    (d.addState b).numStates - 1 = d.states.length := by
  simp [Dfa.addState, Dfa.numStates]

/-- Transport of the per-state accepting-flag invariant along a DFA change
that preserves every state's accepting flag. -/
theorem inv_acc_transport {P : Type} (n : Nfa P) (d d' : Dfa)
    (m : List (List Nat × Nat))
    (hlen : d'.states.length = d.states.length)
    (hmap : ∀ i : Nat, (d'.states[i]?).map DfaState.accepting =
      (d.states[i]?).map DfaState.accepting)
    (hacc : ∀ ki ∈ m, ∃ hi : ki.2 < d.states.length,
      (d.states.get ⟨ki.2, hi⟩).accepting = n.acceptingB ki.1) :
    ∀ ki ∈ m, ∃ hi : ki.2 < d'.states.length,
      (d'.states.get ⟨ki.2, hi⟩).accepting = n.acceptingB ki.1 := by
  intro ki hki
  obtain ⟨hi, he⟩ := hacc ki hki
  have hi' : ki.2 < d'.states.length := by omega
  refine ⟨hi', ?_⟩
  have hm := hmap ki.2
  rw [List.getElem?_eq_getElem hi, List.getElem?_eq_getElem hi'] at hm
  simp only [Option.map_some'] at hm
  have h2 := Option.some.inj hm
  show (d'.states[ki.2]).accepting = _
  rw [h2]
  exact he

/-- Read off a DFA state's accepting flag from its optional lookup. -/
theorem acc_of_getElem? (d : Dfa) (i : Nat) (b : Bool)
    (h : (d.states[i]?).map DfaState.accepting = some b) :
    ∃ hi : i < d.states.length, (d.states.get ⟨i, hi⟩).accepting = b := by
  have hi : i < d.states.length := by
    by_contra hn
    rw [List.getElem?_eq_none (by omega)] at h
    simp at h
  refine ⟨hi, ?_⟩
  rw [List.getElem?_eq_getElem hi] at h
  simp only [Option.map_some'] at h
  exact Option.some.inj h

/-- One `detStep` preserves the worklist invariant; it extends the map by
at most one entry and keeps the map/worklist length balance. -/
theorem detStep_inv {P : Type} (n : Nfa P) (stateIdx : Nat) (popped : List Nat)
    (dfa : Dfa) (m : List (List Nat × Nat)) (active : List (List Nat))
    (rt : SymbRange × List Nat)
    (hInv : DetInv n dfa m active)
    (hpop : popped ∈ m.map Prod.fst)
    (hcanon : bsCanon n.numStates rt.2)
    (hprov : (rt.1, rt.2) ∈ n.transitionsOf popped) :
    DetInv n (detStep n stateIdx (dfa, m, active) rt).1
      (detStep n stateIdx (dfa, m, active) rt).2.1
      (detStep n stateIdx (dfa, m, active) rt).2.2 ∧
    (∃ tl, (detStep n stateIdx (dfa, m, active) rt).2.1 = m ++ tl) ∧
    (detStep n stateIdx (dfa, m, active) rt).2.1.length + active.length =
      m.length + (detStep n stateIdx (dfa, m, active) rt).2.2.length ∧
    m.length ≤ (detStep n stateIdx (dfa, m, active) rt).2.1.length := by
  obtain ⟨hnd, hkc, hsnd, hdlen, hact, hacc, hpv⟩ := hInv
  rcases hl : mapLookup m rt.2 with _ | tIdx
  · -- new set: allocate a DFA state, enqueue, record
    rw [detStep_none n stateIdx (dfa, m, active) rt hl]
    dsimp only
    have hnotin : rt.2 ∉ m.map Prod.fst := (mapLookup_none_iff m rt.2).mp hl
    have hLidx : ((dfa.addState (n.acceptingB rt.2)).numStates - 1) = m.length := by
      rw [addState_last_idx, hdlen]
    have hlen2 : ((dfa.addState (n.acceptingB rt.2)).addTransition stateIdx
        ((dfa.addState (n.acceptingB rt.2)).numStates - 1) rt.1).states.length =
        m.length + 1 := by
      rw [addTransition_len, addState_len, hdlen]
    refine ⟨⟨?_, ?_, ?_, ?_, ?_, ?_, ?_⟩, ⟨[(rt.2, (dfa.addState
      (n.acceptingB rt.2)).numStates - 1)], rfl⟩,
      by simp; omega, by simp⟩
    · rw [List.map_append]
      simp only [List.map_cons, List.map_nil]
      rw [List.nodup_append]
      exact ⟨hnd, List.nodup_singleton _, by
        intro a ha hb
        simp at hb
        subst hb
        exact hnotin ha⟩
    · intro k hk
      rw [List.map_append] at hk
      rcases List.mem_append.mp hk with h | h
      · exact hkc k h
      · simp at h
        rw [h]
        exact hcanon
    · rw [List.map_append, List.length_append]
      simp only [List.map_cons, List.map_nil, List.length_cons, List.length_nil]
      rw [hsnd, hLidx, List.range_succ]
    · rw [hlen2, List.length_append]
      simp
    · intro k hk
      rw [List.map_append]
      rcases List.mem_cons.mp hk with h | h
      · subst h
        apply List.mem_append_right
        simp
      · exact List.mem_append_left _ (hact k h)
    · intro ki hki
      rcases List.mem_append.mp hki with h | h
      · -- old entries: index unchanged, flag unchanged
        obtain ⟨hi, he⟩ := hacc ki h
        apply acc_of_getElem?
        rw [addTransition_accepting, addState_get_old dfa _ ki.2 hi,
          List.getElem?_eq_getElem hi]
        simp only [Option.map_some']
        exact congrArg some he
      · -- the new entry
        simp at h
        rw [h]
        apply acc_of_getElem?
        dsimp only
        rw [addTransition_accepting, addState_last_idx, addState_get_last]
        rfl
    · intro k hk
      rw [List.map_append] at hk
      rcases List.mem_append.mp hk with h | h
      · rcases hpv k h with h' | ⟨k', hk', r, hr⟩
        · exact Or.inl h'
        · exact Or.inr ⟨k', by rw [List.map_append]; exact List.mem_append_left _ hk',
            r, hr⟩
      · simp at h
        subst h
        exact Or.inr ⟨popped, by rw [List.map_append]; exact List.mem_append_left _ hpop,
          rt.1, hprov⟩
  · -- known set: only a DFA transition is added
    rw [detStep_some n stateIdx (dfa, m, active) rt tIdx hl]
    dsimp only
    refine ⟨⟨hnd, hkc, hsnd, ?_, hact, ?_, hpv⟩, ⟨[], by simp⟩, by simp, by simp⟩
    · rw [addTransition_len]
      exact hdlen
    · refine inv_acc_transport n dfa _ m ?_ ?_ hacc
      · rw [addTransition_len]
      · intro i
        exact addTransition_accepting dfa stateIdx tIdx rt.1 i

/-- The per-popped-state transition fold of `determinize` preserves the
invariant, only appends to the map, and keeps the map/worklist balance. -/
theorem detFold_spec {P : Type} (n : Nfa P) (stateIdx : Nat) (popped : List Nat) :
    ∀ (trans : List (SymbRange × List Nat)) (dfa : Dfa)
      (m : List (List Nat × Nat)) (active : List (List Nat)),
      DetInv n dfa m active →
      popped ∈ m.map Prod.fst →
      (∀ rt ∈ trans, bsCanon n.numStates rt.2 ∧ (rt.1, rt.2) ∈ n.transitionsOf popped) →
      DetInv n (trans.foldl (detStep n stateIdx) (dfa, m, active)).1
        (trans.foldl (detStep n stateIdx) (dfa, m, active)).2.1
        (trans.foldl (detStep n stateIdx) (dfa, m, active)).2.2 ∧
      (∃ tl, (trans.foldl (detStep n stateIdx) (dfa, m, active)).2.1 = m ++ tl) ∧
      (trans.foldl (detStep n stateIdx) (dfa, m, active)).2.1.length + active.length =
        m.length + (trans.foldl (detStep n stateIdx) (dfa, m, active)).2.2.length ∧
      m.length ≤ (trans.foldl (detStep n stateIdx) (dfa, m, active)).2.1.length := by
  intro trans
  induction trans with
  | nil =>
    intro dfa m active hInv _ _
    exact ⟨hInv, ⟨[], by simp⟩, rfl, le_refl _⟩
  | cons rt rest ih =>
    intro dfa m active hInv hpop htr
    rw [List.foldl_cons]
    obtain ⟨hInv1, ⟨tl1, htl1⟩, hbal1, hle1⟩ :=
      detStep_inv n stateIdx popped dfa m active rt hInv hpop
        (htr rt (List.mem_cons_self _ _)).1 (htr rt (List.mem_cons_self _ _)).2
    rcases hstep : detStep n stateIdx (dfa, m, active) rt with ⟨dfa1, m1, active1⟩
    rw [hstep] at hInv1 htl1 hbal1 hle1
    dsimp only at hInv1 htl1 hbal1 hle1
    have hpop1 : popped ∈ m1.map Prod.fst := by
      rw [htl1, List.map_append]
      exact List.mem_append_left _ hpop
    obtain ⟨hInv2, ⟨tl2, htl2⟩, hbal2, hle2⟩ := ih dfa1 m1 active1 hInv1 hpop1
      (fun rt' hrt' => htr rt' (List.mem_cons_of_mem _ hrt'))
    refine ⟨hInv2, ⟨tl1 ++ tl2, ?_⟩, ?_, ?_⟩
    · rw [htl2, htl1, List.append_assoc]
    · have hl1 : m1.length = m.length + tl1.length := by
        rw [htl1, List.length_append]
      have hl2 : (rest.foldl (detStep n stateIdx) (dfa1, m1, active1)).2.1.length =
          m1.length + tl2.length := by
        rw [htl2, List.length_append]
      omega
    · have hl1 : m1.length = m.length + tl1.length := by
        rw [htl1, List.length_append]
      have hl2 : (rest.foldl (detStep n stateIdx) (dfa1, m1, active1)).2.1.length =
          m1.length + tl2.length := by
        rw [htl2, List.length_append]
      omega

/-- The worklist loop of `determinize` succeeds whenever the fuel exceeds
the potential `|worklist| + 2 * (2 ^ N - |map|)`, preserving the invariant
and only extending the map. -/
theorem detLoop_spec {P : Type} (n : Nfa P)
    (hwfE : ∀ st ∈ n.states, ∀ t ∈ st.transitions.eps, t < n.numStates)
    (hwfR : ∀ st ∈ n.states, ∀ rt ∈ st.transitions.ranges, rt.2 < n.numStates) :
    ∀ (fuel : Nat) (dfa : Dfa) (m : List (List Nat × Nat)) (active : List (List Nat)),
      DetInv n dfa m active →
      active.length + 2 * (2 ^ n.numStates - m.length) < fuel →
      ∃ dfa' m', detLoop n fuel dfa m active = some (dfa', m') ∧
        DetInv n dfa' m' [] ∧ ∃ tl, m' = m ++ tl := by
  intro fuel
  induction fuel with
  | zero =>
    intro dfa m active _ hf
    exact absurd hf (Nat.not_lt_zero _)
  | succ fuel ih =>
    intro dfa m active hInv hf
    rcases active with _ | ⟨k, rest⟩
    · obtain ⟨hnd, hkc, hsnd, hdlen, _, hacc, hpv⟩ := hInv
      refine ⟨dfa, m, by rw [detLoop], ?_, ⟨[], by simp⟩⟩
      exact ⟨hnd, hkc, hsnd, hdlen, fun k hk => absurd hk (List.not_mem_nil k), hacc, hpv⟩
    · obtain ⟨hnd, hkc, hsnd, hdlen, hact, hacc, hpv⟩ := hInv
      have hkmem : k ∈ m.map Prod.fst := hact k (List.mem_cons_self _ _)
      obtain ⟨sIdx, hlook⟩ := mapLookup_some_of_mem m k hkmem
      have hInv' : DetInv n dfa m rest :=
        ⟨hnd, hkc, hsnd, hdlen, fun k' hk' => hact k' (List.mem_cons_of_mem _ hk'),
         hacc, hpv⟩
      obtain ⟨hInv2, ⟨tl, htl⟩, hbal, hle⟩ :=
        detFold_spec n sIdx k (n.transitionsOf k) dfa m rest hInv' hkmem
          (fun rt hrt => ⟨transitionsOf_canon n hwfE hwfR k rt hrt, hrt⟩)
      have hstep : detLoop n (fuel + 1) dfa m (k :: rest) =
          (match mapLookup m k with
            | none => none
            | some stateIdx =>
              detLoop n fuel
                ((n.transitionsOf k).foldl (detStep n stateIdx) (dfa, m, rest)).1
                ((n.transitionsOf k).foldl (detStep n stateIdx) (dfa, m, rest)).2.1
                ((n.transitionsOf k).foldl (detStep n stateIdx) (dfa, m, rest)).2.2) := by
        rw [detLoop]
      rw [hlook] at hstep
      have hm2b : ((n.transitionsOf k).foldl (detStep n sIdx) (dfa, m, rest)).2.1.length ≤
          2 ^ n.numStates := by
        have hcard := canon_keys_card n.numStates
          (((n.transitionsOf k).foldl (detStep n sIdx) (dfa, m, rest)).2.1.map Prod.fst)
          hInv2.1 hInv2.2.1
        rw [List.length_map] at hcard
        exact hcard
      have hlen1 : ((n.transitionsOf k).foldl (detStep n sIdx) (dfa, m, rest)).2.1.length =
          m.length + tl.length := by
        rw [htl, List.length_append]
      obtain ⟨dfa', m', hloop, hInvF, ⟨tl2, htl2⟩⟩ :=
        ih ((n.transitionsOf k).foldl (detStep n sIdx) (dfa, m, rest)).1
          ((n.transitionsOf k).foldl (detStep n sIdx) (dfa, m, rest)).2.1
          ((n.transitionsOf k).foldl (detStep n sIdx) (dfa, m, rest)).2.2
          hInv2
          (by
            simp only [List.length_cons] at hf
            omega)
      refine ⟨dfa', m', ?_, hInvF, ⟨tl ++ tl2, ?_⟩⟩
      · rw [hstep]
        exact hloop
      · rw [htl2, htl, List.append_assoc]

theorem sortTransitions_len (d : Dfa) :
    (d.sortTransitions).states.length = d.states.length := by
  simp [Dfa.sortTransitions]

theorem sortTransitions_accepting (d : Dfa) (i : Nat) (hi : i < d.states.length)
    (hi' : i < (d.sortTransitions).states.length) :
    ((d.sortTransitions).states.get ⟨i, hi'⟩).accepting =
      (d.states.get ⟨i, hi⟩).accepting := by
  show ((d.sortTransitions).states[i]).accepting = (d.states[i]).accepting
  unfold Dfa.sortTransitions
  rw [List.getElem_map]

/-- C4: on a well-formed NFA without predicate edges, `determinize`
terminates; each distinct epsilon-closed set encountered gets exactly one
DFA index (the map keys are distinct and its indices are `0, 1, ...` in
allocation order, one DFA state per map entry); a DFA state accepts exactly
when its set contains an accepting NFA state; every key is the start
closure or a transition target of another key; the start closure is key
`0`. -/
theorem claim_C4 {P : Type} (n : Nfa P)
    (hN : 0 < n.numStates)
    (hwfE : ∀ st ∈ n.states, ∀ t ∈ st.transitions.eps, t < n.numStates)
    (hwfR : ∀ st ∈ n.states, ∀ rt ∈ st.transitions.ranges, rt.2 < n.numStates)
    (hnp : ∀ st ∈ n.states, st.transitions.predicates = []) :
    ∃ dfa m, n.determinize = some (dfa, m) ∧
      dfa.states.length = m.length ∧
      (m.map Prod.fst).Nodup ∧
      m.map Prod.snd = List.range m.length ∧
      (∀ ki ∈ m, ∃ hi : ki.2 < dfa.states.length,
        ((dfa.states.get ⟨ki.2, hi⟩).accepting = true ↔
          ∃ j ∈ ki.1, ∃ hj : j < n.states.length,
            (n.states.get ⟨j, hj⟩).accepting = true)) ∧
      (∀ k ∈ m.map Prod.fst, k = n.epsClosureSingle 0 ∨
        ∃ k' ∈ m.map Prod.fst, ∃ r, (r, k) ∈ n.transitionsOf k') ∧
      (n.epsClosureSingle 0, 0) ∈ m := by
  have hstart : bsCanon n.numStates (n.epsClosureSingle 0) := by
    apply epsClosure_canon n hwfE
    refine ⟨List.pairwise_singleton _ _, ?_⟩
    intro j hj
    have : j = 0 := by
      rcases List.mem_singleton.mp hj with h
      exact h
    subst this
    exact hN
  have hInv0 : DetInv n (Dfa.new.addState (n.acceptingB (n.epsClosureSingle 0)))
      [(n.epsClosureSingle 0, 0)] [n.epsClosureSingle 0] := by
    refine ⟨List.nodup_singleton _, ?_, rfl, rfl, ?_, ?_, ?_⟩
    · intro k hk
      rcases List.mem_singleton.mp hk with h
      subst h
      exact hstart
    · intro k hk
      rcases List.mem_singleton.mp hk with h
      subst h
      simp
    · intro ki hki
      rcases List.mem_singleton.mp hki with h
      subst h
      exact ⟨Nat.zero_lt_one, rfl⟩
    · intro k hk
      rcases List.mem_singleton.mp hk with h
      subst h
      exact Or.inl rfl
  have hpow : 1 ≤ 2 ^ n.numStates := Nat.one_le_two_pow
  obtain ⟨dfa', m', hloop, hInvF, tl, htl⟩ :=
    detLoop_spec n hwfE hwfR (2 * 2 ^ n.numStates + 2)
      (Dfa.new.addState (n.acceptingB (n.epsClosureSingle 0)))
      [(n.epsClosureSingle 0, 0)] [n.epsClosureSingle 0] hInv0
      (by simp only [List.length_singleton]; omega)
  obtain ⟨hndF, hkcF, hsndF, hdlenF, _, haccF, hpvF⟩ := hInvF
  refine ⟨dfa'.sortTransitions, m', ?_, ?_, hndF, hsndF, ?_, hpvF, ?_⟩
  · show n.determinize = some (dfa'.sortTransitions, m')
    unfold Nfa.determinize
    dsimp only
    rw [hloop]
  · rw [sortTransitions_len]
    exact hdlenF
  · intro ki hki
    obtain ⟨hi, he⟩ := haccF ki hki
    have hi' : ki.2 < (dfa'.sortTransitions).states.length := by
      rw [sortTransitions_len]
      exact hi
    refine ⟨hi', ?_⟩
    rw [sortTransitions_accepting dfa' ki.2 hi hi', he]
    exact acceptingB_iff n ki.1
  · rw [htl]
    exact List.mem_append_left _ (List.mem_singleton_self _)

/-- Witness for C4 at a concrete two-state automaton (one consuming edge
`a`-`b` from state 0 to the accepting state 1, no epsilon or predicate
edges). -/
theorem claim_C4_witness :
    (0 : Nat) < (⟨[⟨⟨[((⟨97, 98⟩ : CharRange), 1)], [], []⟩, false⟩,
        ⟨⟨[], [], []⟩, true⟩], []⟩ : Nfa Unit).numStates ∧
    ∃ dfa m, (⟨[⟨⟨[((⟨97, 98⟩ : CharRange), 1)], [], []⟩, false⟩,
        ⟨⟨[], [], []⟩, true⟩], []⟩ : Nfa Unit).determinize = some (dfa, m) ∧
      dfa.states.length = m.length ∧
      (m.map Prod.fst).Nodup ∧
      m.map Prod.snd = List.range m.length ∧
      (∀ ki ∈ m, ∃ hi : ki.2 < dfa.states.length,
        ((dfa.states.get ⟨ki.2, hi⟩).accepting = true ↔
          ∃ j ∈ ki.1, ∃ hj : j < (⟨[⟨⟨[((⟨97, 98⟩ : CharRange), 1)], [], []⟩, false⟩,
              ⟨⟨[], [], []⟩, true⟩], []⟩ : Nfa Unit).states.length,
            ((⟨[⟨⟨[((⟨97, 98⟩ : CharRange), 1)], [], []⟩, false⟩,
              ⟨⟨[], [], []⟩, true⟩], []⟩ : Nfa Unit).states.get ⟨j, hj⟩).accepting =
              true)) ∧
      (∀ k ∈ m.map Prod.fst,
        k = (⟨[⟨⟨[((⟨97, 98⟩ : CharRange), 1)], [], []⟩, false⟩,
          ⟨⟨[], [], []⟩, true⟩], []⟩ : Nfa Unit).epsClosureSingle 0 ∨
        ∃ k' ∈ m.map Prod.fst, ∃ r,
          (r, k) ∈ (⟨[⟨⟨[((⟨97, 98⟩ : CharRange), 1)], [], []⟩, false⟩,
            ⟨⟨[], [], []⟩, true⟩], []⟩ : Nfa Unit).transitionsOf k') ∧
      ((⟨[⟨⟨[((⟨97, 98⟩ : CharRange), 1)], [], []⟩, false⟩,
        ⟨⟨[], [], []⟩, true⟩], []⟩ : Nfa Unit).epsClosureSingle 0, 0) ∈ m :=
  ⟨by decide,
   claim_C4 (⟨[⟨⟨[((⟨97, 98⟩ : CharRange), 1)], [], []⟩, false⟩,
      ⟨⟨[], [], []⟩, true⟩], []⟩ : Nfa Unit)
     (by decide) (by decide) (by decide) (by decide)⟩
